import Mathlib

/-!
Verification of the BorderBound puzzle solver (board rule engine, search
strategies, coordinator glue, hash function) against its natural-language
specification.

The JavaScript sources are shallowly embedded as executable Lean
definitions:

* mutable objects become explicit state passing (`Board → Board`);
* the possibly-nonterminating flood-fill recursion of `Board.click` is
  given an explicit fuel parameter; `none` models a thrown exception or
  a stack overflow (the JS recursion exceeding every finite stack);
* JS string characters become `Char`, arrays become `List`;
* `Set` objects of hash strings become lists of the hashed data
  (`JSON.stringify` of the `(color, modifier)` grid is injective on that
  shape, so the grid itself serves as the hash value);
* the fields `isBomb` / `targetPosition`, which no constructor in the
  repository ever sets but which `enhancedBranchBoundSolver`'s heuristic
  reads, are modelled as always-present fields whose default values
  (`false` / `none`) encode the JS `undefined`.
-/

namespace BorderBound

/-- A grid position, from `class Position` in `board.js`. -/
structure Pos where
  row : Nat
  col : Nat
deriving DecidableEq, Repr

/-- `POSITION_NONE = new Position(15, 15)` from `board.js`. -/
def posNone : Pos := ⟨15, 15⟩

/-- A cell, from `class Field` in `board.js`.  `isBomb` and
`targetPosition` model the dynamic JS properties read by
`enhancedBranchBoundSolver`; no code in the repository ever sets them, so
their default (JS `undefined`) is modelled by `false` / `none`. -/
structure Field where
  color : Char := 'g'
  modifier : Char := '0'
  onlyReachableFrom : Pos := posNone
  isBomb : Bool := false
  targetPosition : Option Pos := none
deriving DecidableEq, Repr

/-- The default cell produced by `new Field()`. -/
def defaultField : Field := {}

/-- `Field.isColor` from `board.js`: `"rgbod".includes(c)`. -/
def isColorC (c : Char) : Bool :=
  c == 'r' || c == 'g' || c == 'b' || c == 'o' || c == 'd'

/-- `Field.isStaticArrow` from `board.js`: `"LRUD".includes(mod)`. -/
def isStaticArrowF (f : Field) : Bool :=
  f.modifier == 'L' || f.modifier == 'R' || f.modifier == 'U' || f.modifier == 'D'

/-- `Field.isRotatingArrow` from `board.js`: `"wsax".includes(mod)`. -/
def isRotatingArrowF (f : Field) : Bool :=
  f.modifier == 'w' || f.modifier == 's' || f.modifier == 'a' || f.modifier == 'x'

/-- `Field.isClickable` from `board.js`. -/
def isClickableF (f : Field) : Bool :=
  isStaticArrowF f || isRotatingArrowF f || f.modifier == 'F' || f.modifier == 'B'

/-- `Field.isCorrect` from `board.js`. -/
def isCorrectF (f : Field) : Bool :=
  if !(isColorC f.color) then true
  else if isColorC f.modifier then f.color == f.modifier
  else f.modifier != '0'

/-- `class MoveSequence` from `board.js`: an append-only list of positions
together with a separately maintained counter `n`. -/
structure MoveSequence where
  moves : List Pos := []
  n : Nat := 0
deriving DecidableEq, Repr

/-- `class Board` from `board.js`. -/
structure Board where
  rows : Nat
  cols : Nat
  fields : List (List Field)
  moveSequence : MoveSequence := {}
  hasBombs : Bool := false
deriving DecidableEq, Repr

/-- `new Board(rows, cols)`: a `rows × cols` grid of default fields. -/
def mkBoard (rows cols : Nat) : Board :=
  { rows := rows, cols := cols,
    fields := List.replicate rows (List.replicate cols defaultField) }

/-- Replace the element at an index by applying a function, leaving the
list unchanged when the index is out of range (models an in-place JS
array element mutation). -/
def listModify {α : Type} : List α → Nat → (α → α) → List α
  | [], _, _ => []
  | a :: as, 0, g => g a :: as
  | a :: as, n + 1, g => a :: listModify as n g

/-- The bounds test `0 <= r && r < rows && 0 <= c && c < cols` used
throughout `board.js`, on integer coordinates. -/
def inB (b : Board) (r c : Int) : Bool :=
  decide (0 ≤ r) && decide (r < (b.rows : Int)) && decide (0 ≤ c) && decide (c < (b.cols : Int))

/-- Read `board.fields[r][c]`; out-of-bounds reads (which the JS guards
against before every access) return the default field. -/
def getF (b : Board) (r c : Int) : Field :=
  if inB b r c then (b.fields.getD r.toNat []).getD c.toNat defaultField
  else defaultField

/-- `board.fields[r][c].modifier = v`, a no-op out of bounds (the JS only
performs this write after an `inB` check). -/
def setMod (b : Board) (r c : Int) (v : Char) : Board :=
  if inB b r c then
    let grid := listModify b.fields r.toNat
      (fun row => listModify row c.toNat (fun f => { f with modifier := v }))
    { b with fields := grid }
  else b

/-- `this.moveSequence.add(row, col)` from `board.js`: push the position
and increment the counter. -/
def addMove (b : Board) (row col : Nat) : Board :=
  { b with moveSequence :=
      { moves := b.moveSequence.moves ++ [⟨row, col⟩], n := b.moveSequence.n + 1 } }

/-- The `while` loop inside `fill` in `board.js`: while in bounds and the
current cell's modifier equals `fr`, overwrite with `to` and advance by
`(dr, dc)`.  The loop advances by a unit step each iteration, so it runs
at most `max rows cols` times; `fill` supplies fuel `rows + cols`, which
therefore never runs out. -/
def fillLoop : Nat → Board → Int → Int → Int → Int → Char → Char → Bool → Board × Bool
  | 0, b, _, _, _, _, _, _, ch => (b, ch)
  | fuel + 1, b, dr, dc, r, c, fr, tc, ch =>
    if inB b r c && ((getF b r c).modifier == fr) then
      fillLoop fuel (setMod b r c tc) dr dc (r + dr) (c + dc) fr tc true
    else (b, ch)

/-- `fill(dr, dc, r, c, color)` from `board.js` (the directional-ray
helper inside `Board.click`).  It advances one step, inspects the target
cell's modifier to choose erase (`color → '0'`), paint (`'0' → color`) or
no-op, then runs the rewrite loop. -/
def fill (b : Board) (dr dc r c : Int) (color : Char) : Board × Bool :=
  let r1 := r + dr
  let c1 := c + dc
  if inB b r1 c1 then
    let m := (getF b r1 c1).modifier
    if m == color then fillLoop (b.rows + b.cols) b dr dc r1 c1 color '0' false
    else if m == '0' then fillLoop (b.rows + b.cols) b dr dc r1 c1 '0' color false
    else (b, false)
  else (b, false)

/-- The four orthogonal neighbours in the order `flood` recursion and the
`F` case of `Board.click` visit them: `(r+1,c)`, `(r-1,c)`, `(r,c+1)`,
`(r,c-1)`. -/
def nbrsI (r c : Int) : List (Int × Int) :=
  [(r + 1, c), (r - 1, c), (r, c + 1), (r, c - 1)]

/-- The recursive `flood(r, c, fromColor, toColor)` from `board.js`,
with the four neighbour recursions `(r+1,c)`, `(r-1,c)`, `(r,c+1)`,
`(r,c-1)` sequenced through the mutated board.  The JS recursion carries
no fuel; `fuel` bounds the recursion depth, and `none` models the stack
overflow the JS run would hit when the depth is unbounded (which happens
exactly when `fromColor = toColor` and two matching cells are adjacent;
see the divergence theorem below). -/
def floodF : Nat → Board → Int → Int → Char → Char → Option (Board × Bool)
  | 0, _, _, _, _, _ => none
  | fuel + 1, b, r, c, fr, tc =>
    if inB b r c && ((getF b r c).modifier == fr) then
      match floodF fuel (setMod b r c tc) (r + 1) c fr tc with
      | none => none
      | some (b1, _) =>
        match floodF fuel b1 (r - 1) c fr tc with
        | none => none
        | some (b2, _) =>
          match floodF fuel b2 r (c + 1) fr tc with
          | none => none
          | some (b3, _) =>
            match floodF fuel b3 r (c - 1) fr tc with
            | none => none
            | some (b4, _) => some (b4, true)
    else some (b, false)

/-- Sequentially flood from a list of source positions, or-ing the change
flags — the shape of both the four recursive calls inside `flood` (see
`floodF_succ_eq_seq`) and the four calls in the `F` case of
`Board.click`. -/
def floodSeq : Nat → Board → List (Int × Int) → Char → Char → Option (Board × Bool)
  | _, b, [], _, _ => some (b, false)
  | fuel, b, p :: ps, fr, tc =>
    match floodF fuel b p.1 p.2 fr tc with
    | none => none
    | some (b1, ch1) =>
      match floodSeq fuel b1 ps fr tc with
      | none => none
      | some (b2, ch2) => some (b2, ch1 || ch2)

/-- The `F` case of `Board.click`: flood `'0' → color` from the four
neighbours; if nothing was written, retry `color → '0'`.  Fuel
`rows * cols + 1` bounds the recursion depth of every terminating JS run
(each level of recursion that descends rewrites one matching cell when
the colors differ, and the degenerate equal-colors recursion either stops
at depth 2 or never stops). -/
def clickFlood (b : Board) (row col : Nat) (color : Char) : Option (Board × Bool) :=
  let fuel := b.rows * b.cols + 1
  match floodSeq fuel b (nbrsI row col) '0' color with
  | none => none
  | some (b4, ch) =>
    if ch then some (b4, true)
    else floodSeq fuel b4 (nbrsI row col) color '0'

/-- The `B` case of `Board.click`: set the modifier of every in-bounds,
non-wall cell of the 3×3 square centred at the click to the click cell's
color. -/
def bombPaint (b : Board) (row col : Nat) (color : Char) : Board :=
  (List.range 3).foldl
    (fun bb dr =>
      (List.range 3).foldl
        (fun bb2 dc =>
          let r : Int := (row : Int) - 1 + dr
          let c : Int := (col : Int) - 1 + dc
          if inB bb2 r c && !((getF bb2 r c).modifier == 'X') then setMod bb2 r c color
          else bb2)
        bb)
    b

/-- A rotating-arrow case of `Board.click`: fire the directional ray,
then rotate the clicked cell's modifier. -/
def rotFire (b : Board) (row col : Nat) (color : Char) (dr dc : Int) (newMod : Char) :
    Board × Bool :=
  (setMod (fill b dr dc row col color).1 row col newMod, true)

/-- `Board.click(row, col)` from `board.js`.  The move is appended to the
move sequence first, then the click dispatches on the cell's modifier.
`none` models a thrown exception: an out-of-bounds grid access, or the
unbounded flood recursion (stack overflow). -/
def click (b0 : Board) (row col : Nat) : Option (Board × Bool) :=
  if row < b0.rows ∧ col < b0.cols then
    let b := addMove b0 row col
    let f := getF b row col
    match f.modifier with
    | 'U' => some (fill b (-1) 0 row col f.color)
    | 'D' => some (fill b 1 0 row col f.color)
    | 'L' => some (fill b 0 (-1) row col f.color)
    | 'R' => some (fill b 0 1 row col f.color)
    | 'F' => clickFlood b row col f.color
    | 'B' => some (bombPaint b row col f.color, true)
    | 'w' => some (rotFire b row col f.color (-1) 0 'x')
    | 's' => some (rotFire b row col f.color 1 0 'a')
    | 'a' => some (rotFire b row col f.color 0 (-1) 'w')
    | 'x' => some (rotFire b row col f.color 0 1 's')
    | _ => some (b, false)
  else none

/-- `Board.isSolved` from `board.js`: every cell of the (flattened) grid
is correct. -/
def isSolvedB (b : Board) : Bool :=
  b.fields.flatten.all isCorrectF

/-- Well-formedness of the grid: exactly `rows` rows of exactly `cols`
cells.  Every constructor in the repository (`new Board`,
`Board.fromStrings`, `boardFromData`, `Board.copy`) builds such a grid,
and a JS run on any other shape would crash on an undefined cell access. -/
def WFB (b : Board) : Bool :=
  (b.fields.length == b.rows) && b.fields.all (fun row => row.length == b.cols)

/-- The cell `(r, c)` physically exists in the (possibly ragged) grid. -/
def present (b : Board) (r c : Int) : Prop :=
  r.toNat < b.fields.length ∧ c.toNat < (b.fields.getD r.toNat []).length

/-- Everything except the cell grid agrees between two boards. -/
def dimsMovesEq (b b' : Board) : Prop :=
  b'.rows = b.rows ∧ b'.cols = b.cols ∧ b'.moveSequence = b.moveSequence ∧
    b'.hasBombs = b.hasBombs


/-- A concrete board for the move-log witness: a single inert cell
(color `'r'`, modifier `'0'`), whose click returns `changed = false`
through the unknown-modifier default case. -/
def c6Board : Board :=
  { rows := 1, cols := 1, fields := [[{ color := 'r', modifier := '0' }]] }


/-- The board `Board.fromStrings("000", "F00")`: an `F` cell of color
`'0'` next to two adjacent empty cells.  Clicking `(0,0)` floods with
`fromColor = toColor = '0'`. -/
def divergeBoard : Board :=
  { rows := 1, cols := 3,
    fields := [[{ color := '0', modifier := 'F' },
                { color := '0', modifier := '0' },
                { color := '0', modifier := '0' }]] }


/-- The heuristic shared by `branchBoundSolver` and `idaStarSolver`
(`multiSolver.js`): the number of incorrect cells,
`board.fields.flat().filter(f => !f.isCorrect()).length`. -/
def heuristicWrong (b : Board) : Nat :=
  (b.fields.flatten.filter (fun f => !(isCorrectF f))).length

/-- The heuristic of `enhancedBranchBoundSolver`: per incorrect cell, one
point, plus two if the cell has a (never-set) `isBomb` hint, plus the
Manhattan distance to a (never-set) `targetPosition` hint.  The loops run
over `r < rows`, `c < cols` reading `board.fields[r][c]`. -/
def heuristicEnhanced (b : Board) : Nat :=
  (List.range b.rows).foldl
    (fun (acc : Nat) (r : Nat) =>
      (List.range b.cols).foldl
        (fun (acc2 : Nat) (c : Nat) =>
          let f := getF b (r : Int) (c : Int)
          if !(isCorrectF f) then
            acc2 + 1 + (if f.isBomb then 2 else 0) +
              (match f.targetPosition with
               | some t => ((r : Int) - t.row).natAbs + ((c : Int) - t.col).natAbs
               | none => 0)
          else acc2)
        acc)
    0

/-- A field carries neither of the optional heuristic hints (the JS
`undefined` state of `isBomb` / `targetPosition`). -/
def hfField (f : Field) : Bool :=
  !f.isBomb && f.targetPosition == none

/-- No cell of the board carries a heuristic hint.  Every board built by
the repository's constructors satisfies this: `new Field`,
`Board.fromStrings`, `boardFromData` and `Board.copy` only ever set
`color`, `modifier` and `onlyReachableFrom`. -/
def hintFreeB (b : Board) : Bool :=
  b.fields.all (fun row => row.all hfField)

/-- What `Board.copy` stores for one cell: `color`, `modifier` and the
`onlyReachableFrom` reference; the hint properties are left unset. -/
def copyField (f : Field) : Field :=
  { color := f.color, modifier := f.modifier, onlyReachableFrom := f.onlyReachableFrom }

/-- `Board.copy` from `board.js`: a fresh `rows × cols` board whose cells
copy `color` / `modifier` / `onlyReachableFrom` from the source, a fresh
move list with the same entries and counter, and the same `hasBombs`.
`none` models the `TypeError` a JS run throws when the grid is missing a
cell the copy loop reads. -/
def copyB (b : Board) : Option Board :=
  if decide (b.rows ≤ b.fields.length) &&
      (b.fields.take b.rows).all (fun row => decide (b.cols ≤ row.length)) then
    some { rows := b.rows, cols := b.cols,
           fields := (List.range b.rows).map (fun r =>
             (List.range b.cols).map (fun c =>
               copyField ((b.fields.getD r []).getD c defaultField))),
           moveSequence := ⟨b.moveSequence.moves.map (fun m => ⟨m.row, m.col⟩),
             b.moveSequence.n⟩,
           hasBombs := b.hasBombs }
  else none

/-- A concrete mixed board for the heuristic witness. -/
def h10Board : Board :=
  { rows := 2, cols := 2,
    fields := [[{ color := 'r', modifier := '0' }, { color := 'g', modifier := 'g' }],
               [{ color := '0', modifier := 'X' }, { color := 'b', modifier := 'r' }]] }

/-- One MurmurHash2 mixing step exactly as the BigInt code in
`murmurhash.js` performs it — on unbounded integers, no masking:
`k *= m; k ^= k >> r; k *= m; h ^= k; h *= m`. -/
def mixStep (m r h k : Nat) : Nat :=
  let k1 := k * m
  let k2 := Nat.xor k1 (k1 >>> r)
  let k3 := k2 * m
  let h1 := Nat.xor h k3
  h1 * m

/-- `data.readBigUInt64LE(off)`: the little-endian 64-bit value of the 8
bytes starting at `off`, assembled with shifted bitwise ors. -/
def readLE64 (data : List Nat) (off : Nat) : Nat :=
  (List.range 8).foldl (fun k j => Nat.lor k ((data.getD (off + j) 0) <<< (8 * j))) 0

/-- The little-endian value of a whole byte list (used for the tail). -/
def readLEAll (bytes : List Nat) : Nat :=
  (List.range bytes.length).foldl (fun k j => Nat.lor k ((bytes.getD j 0) <<< (8 * j))) 0

/-- `murmurhash64` from `murmurhash.js`.  The JS works on `BigInt`s and
masks to 64 bits only in the final `h & 0xFFFFFFFFFFFFFFFF`; every
intermediate value is arbitrary precision, and the sub-64-bit tail is
mixed like a full block, or skipped entirely when its value is zero. -/
def murmurhash64 (data : List Nat) : Nat :=
  let m := 0xC6A4A7935BD1E995
  let r := 47
  let seed := 1203989050
  let len := data.length
  let nblocks := len / 8
  let h0 := Nat.xor seed (len * m)
  let h1 := (List.range nblocks).foldl (fun h i => mixStep m r h (readLE64 data (i * 8))) h0
  let k := (List.range (len - nblocks * 8)).foldl
    (fun k j => Nat.lor k ((data.getD (nblocks * 8 + j) 0) <<< (8 * j))) 0
  let h2 := if k ≠ 0 then mixStep m r h1 k else h1
  let h3 := Nat.xor h2 (h2 >>> r)
  let h4 := h3 * m
  let h5 := Nat.xor h4 (h4 >>> r)
  h5 % 2 ^ 64

/-- Modelled from the spec: the standard MurmurHash2 64-bit variant
(MurmurHash64A) with seed `1203989050`, multiplier
`0xC6A4A7935BD1E995`, shift `47`, little-endian 8-byte block reads and
the standard tail mixing (xor the remaining little-endian bytes into `h`
and multiply once, whenever the length is not a multiple of 8), with all
intermediate arithmetic modulo `2 ^ 64`. -/
def murmurStd64 (data : List Nat) : Nat :=
  let m := 0xC6A4A7935BD1E995
  let r := 47
  let seed := 1203989050
  let M := 2 ^ 64
  let len := data.length
  let nblocks := len / 8
  let h0 := Nat.xor seed ((len * m) % M)
  let h1 := (List.range nblocks).foldl
    (fun h i =>
      let k1 := (readLE64 data (i * 8) * m) % M
      let k2 := Nat.xor k1 (k1 >>> r)
      let k3 := (k2 * m) % M
      (Nat.xor h k3 * m) % M)
    h0
  let tl := (List.range (len - nblocks * 8)).foldl
    (fun k j => Nat.lor k ((data.getD (nblocks * 8 + j) 0) <<< (8 * j))) 0
  let h2 := if len % 8 ≠ 0 then (Nat.xor h1 tl * m) % M else h1
  let h3 := Nat.xor h2 (h2 >>> r)
  let h4 := (h3 * m) % M
  Nat.xor h4 (h4 >>> r)

/-- Split a byte list into its full 8-byte blocks and its tail. -/
def chunks8 (l : List Nat) : List (List Nat) × List Nat :=
  if _h : 8 ≤ l.length then
    let ck := chunks8 (l.drop 8)
    (l.take 8 :: ck.1, ck.2)
  else ([], l)
termination_by l.length
decreasing_by simp [List.length_drop]; omega

/-- The amended description of `murmurhash64`: the same seed, multiplier
and shift, reading the input as little-endian 8-byte chunks, but with all
arithmetic on unbounded integers (masked to 64 bits once at the end) and
with the tail mixed like a full block — skipped when its bytes are all
zero. -/
def murmurAmended (data : List Nat) : Nat :=
  let m := 0xC6A4A7935BD1E995
  let r := 47
  let seed := 1203989050
  let ck := chunks8 data
  let h0 := Nat.xor seed (data.length * m)
  let h1 := ck.1.foldl (fun h bl => mixStep m r h (readLE64 bl 0)) h0
  let k := readLEAll ck.2
  let h2 := if k ≠ 0 then mixStep m r h1 k else h1
  let h3 := Nat.xor h2 (h2 >>> r)
  let h4 := h3 * m
  let h5 := Nat.xor h4 (h4 >>> r)
  h5 % 2 ^ 64

/-- The return value of `solveWithAllStrategiesParallel`
(`src/solver/multiSolver.js`, lines 288-289) as a function of the solved
boards the workers sent back: `fullySolved.length ? fullySolved.slice(0, 2)
: null`. -/
def coordReturn (results : List Board) : Option (List Board) :=
  let fullySolved := results.filter (fun b => isSolvedB b)
  if fullySolved.length ≠ 0 then some (fullySolved.take 2) else none

/-- The solution-selection block of `main` in `src/solver/main.js`
(lines 124-149), with JS semantics made explicit: `newBoard` holds the
value returned by `solveWithAllStrategiesParallel`, which is an array of
boards (or `null`) — not a board.  `newBoard.moveSequence` on an array is
`undefined`, so both branches that use `newBoard`
(`newBoard.moveSequence.n` on line 128 and
`newBoard.moveSequence.toString()` on line 140) throw a `TypeError`,
modelled by `none`; the remaining branches use the existing solution or
give up. -/
def mainChoose (newBoard : Option (List Board)) (existing : Option (Board × Nat)) :
    Option (Option Board) :=
  match newBoard, existing with
  | some _, some _ => none
  | some _, none => none
  | none, some (eb, _) => some (some eb)
  | none, none => some none

/-- A solved one-move board, as a worker would return it for scenario S1. -/
def w8Board : Board :=
  { rows := 1, cols := 2,
    fields := [[{ color := 'r', modifier := 'R' }, { color := 'r', modifier := 'r' }]],
    moveSequence := { moves := [⟨0, 0⟩], n := 1 } }

/-! ### Heap model for `Board.copy` (C7)

JS `Position` objects are mutable heap objects handled by reference (the
code itself relies on this: clickability tests use
`f.onlyReachableFrom !== POSITION_NONE`, a reference comparison, and
`boardFromData` re-installs the `POSITION_NONE` reference).  To reason
about sharing, positions live in an explicit store `List Pos` and a
`Nat` is a reference into it. -/

/-- A cell as `Board.copy` sees it: `color` and `modifier` are immutable
JS strings (values), `onlyReachableFrom` is a reference to a mutable
`Position` object. -/
structure FieldR where
  color : Char
  modifier : Char
  orfRef : Nat
deriving DecidableEq, Repr

/-- The default cell (`new Field()`) in the heap model; reference `0` is
the shared `POSITION_NONE` object. -/
def defaultFieldR : FieldR := ⟨'g', '0', 0⟩

/-- A board in the heap model: the move list holds references to
`Position` objects. -/
structure BoardR where
  rows : Nat
  cols : Nat
  fields : List (List FieldR)
  movRefs : List Nat
  n : Nat
  hasBombs : Bool
deriving DecidableEq, Repr

/-- The move-copy loop of `Board.copy`
(`moves.map(m => new Position(m.row, m.col))`): for each referenced
position, allocate a fresh object with the same row and column; returns
the extended heap and the fresh references. -/
def allocCopies : List Pos → List Nat → List Pos × List Nat
  | h, [] => (h, [])
  | h, ref :: rest =>
    let h1 := h ++ [h.getD ref ⟨0, 0⟩]
    let al := allocCopies h1 rest
    (al.1, h.length :: al.2)

/-- `Board.copy` from `board.js` in the heap model.  Each copied cell
stores the *same* `onlyReachableFrom` reference as its source
(`fDst.onlyReachableFrom = fSrc.onlyReachableFrom`), while the move
positions are freshly allocated. -/
def copyR (b : BoardR) (h : List Pos) : BoardR × List Pos :=
  let fields2 := (List.range b.rows).map (fun r =>
    (List.range b.cols).map (fun c =>
      let fSrc := (b.fields.getD r []).getD c defaultFieldR
      ({ color := fSrc.color, modifier := fSrc.modifier, orfRef := fSrc.orfRef } : FieldR)))
  let al := allocCopies h b.movRefs
  ({ rows := b.rows, cols := b.cols, fields := fields2,
     movRefs := al.2, n := b.n, hasBombs := b.hasBombs }, al.1)

/-- Mutate a `Position` object in place: `p.row = v`. -/
def setPosRow (h : List Pos) (ref v : Nat) : List Pos :=
  listModify h ref (fun p => { p with row := v })

/-- The `onlyReachableFrom` position a board observes at a cell:
dereference the cell's stored reference in the current heap. -/
def obsOrf (h : List Pos) (b : BoardR) (r c : Nat) : Pos :=
  h.getD ((b.fields.getD r []).getD c defaultFieldR).orfRef ⟨0, 0⟩

/-- Concrete heap for the copy-isolation counterexample: reference 0 is
`POSITION_NONE`. -/
def c7Heap : List Pos := [⟨15, 15⟩]

/-- Concrete 1×1 board whose cell references `POSITION_NONE`. -/
def c7Board : BoardR :=
  { rows := 1, cols := 1, fields := [[⟨'r', '0', 0⟩]], movRefs := [], n := 0,
    hasBombs := false }

/-- The copy of `c7Board` and the heap after copying. -/
def c7Copy : BoardR := (copyR c7Board c7Heap).1

/-- The heap after `c7Board.copy()`. -/
def c7Heap1 : List Pos := (copyR c7Board c7Heap).2

/-- A 1×1 board with one recorded move, for the copy-structure witness. -/
def c7wBoard : BoardR :=
  { rows := 1, cols := 1, fields := [[⟨'r', '0', 0⟩]], movRefs := [0], n := 1,
    hasBombs := false }

/-! ### Ray vocabulary for the directional-arrow claim (C2) -/

/-- The `(dr, dc)` delta of a static arrow modifier, as dispatched by
`Board.click`: `U → (-1,0)`, `D → (1,0)`, `L → (0,-1)`, `R → (0,1)`. -/
def arrowDelta (m : Char) : Int × Int :=
  if m = 'U' then (-1, 0) else if m = 'D' then (1, 0)
  else if m = 'L' then (0, -1) else (0, 1)

/-- The consecutive run of positions whose modifier equals `fr`, starting
at `(r, c)` and stepping by `(dr, dc)`, read on a fixed board — the
claim's "consecutive run of cells with that modifier".  `fuel` caps the
length exactly as `fillLoop`'s fuel does. -/
def rayF : Nat → Board → Int → Int → Int → Int → Char → List (Int × Int)
  | 0, _, _, _, _, _, _ => []
  | fuel + 1, b, dr, dc, r, c, fr =>
    if inB b r c && ((getF b r c).modifier == fr) then
      (r, c) :: rayF fuel b dr dc (r + dr) (c + dc) fr
    else []

/-- Overwrite the modifier of every listed cell in order. -/
def writeCells (b : Board) (ps : List (Int × Int)) (tc : Char) : Board :=
  ps.foldl (fun bb p => setMod bb p.1 p.2 tc) b

/-- The four unit directions `Board.click` fires rays in. -/
def DirOk (dr dc : Int) : Prop :=
  (dr = -1 ∧ dc = 0) ∨ (dr = 1 ∧ dc = 0) ∨ (dr = 0 ∧ dc = -1) ∨ (dr = 0 ∧ dc = 1)

/-- `(r, c)` lies strictly ahead of `(r0, c0)` on the ray of direction
`(dr, dc)`. -/
def ahead (dr dc r0 c0 r c : Int) : Prop :=
  0 < (r - r0) * dr + (c - c0) * dc ∧ (r - r0) * dc = (c - c0) * dr

/-- An upper bound for the length of a ray in a unit direction: the
distance to the grid edge ahead. -/
def dirBound (b : Board) (dr dc r c : Int) : Nat :=
  (if dr = 1 then (b.rows : Int) - r else if dr = -1 then r + 1
   else if dc = 1 then (b.cols : Int) - c else c + 1).toNat

/-- C2, as a predicate: clicking a static arrow at `(row, col)` inspects
the cell one step in the arrow's direction; if its modifier equals the
clicked cell's color the consecutive run of that modifier is rewritten to
`'0'` (erase) and the click returns `true`; if it is `'0'` the run of
`'0'` cells is rewritten to the color (paint) and the click returns
`true`; otherwise the click returns `false` with no cell changed (only
the move is appended).  The run is read on the pre-click board and is
never empty in the two rewriting branches, so `true` is returned exactly
when at least one cell was overwritten.  `n` is any fuel at least
`rows + cols`, enough to hold the full run. -/
def ArrowSpec (b : Board) (row col : Nat) (n : Nat) : Prop :=
  let f := getF b (row : Int) (col : Int)
  let d := arrowDelta f.modifier
  let r1 : Int := (row : Int) + d.1
  let c1 : Int := (col : Int) + d.2
  let b0 := addMove b row col
  (click b row col =
    some (
      if inB b r1 c1 then
        if (getF b r1 c1).modifier = f.color then
          (writeCells b0 (rayF n b d.1 d.2 r1 c1 f.color) '0', true)
        else if (getF b r1 c1).modifier = '0' then
          (writeCells b0 (rayF n b d.1 d.2 r1 c1 '0') f.color, true)
        else (b0, false)
      else (b0, false))) ∧
  (inB b r1 c1 = true → (getF b r1 c1).modifier = f.color →
    rayF n b d.1 d.2 r1 c1 f.color ≠ []) ∧
  (inB b r1 c1 = true → (getF b r1 c1).modifier ≠ f.color →
    (getF b r1 c1).modifier = '0' → rayF n b d.1 d.2 r1 c1 '0' ≠ [])

/-- The scenario-S1 board: colors `"rr"`, modifiers `"R0"`. -/
def s1Board : Board :=
  { rows := 1, cols := 2,
    fields := [[{ color := 'r', modifier := 'R' }, { color := 'r', modifier := '0' }]] }

/-- Apply a sequence of clicks in order, ignoring the changed flags; a
crash (`none`) anywhere aborts the run. -/
def applyClicks : Board → List (Nat × Nat) → Option Board
  | b, [] => some b
  | b, m :: ms =>
    match click b m.1 m.2 with
    | none => none
    | some (b1, _) => applyClicks b1 ms

/-- A bomb next to a wall, for the wall-immutability witness. -/
def c4Board : Board :=
  { rows := 2, cols := 2,
    fields := [[{ color := 'r', modifier := 'B' }, { color := 'g', modifier := 'X' }],
               [{ color := 'b', modifier := '0' }, { color := '0', modifier := '0' }]] }

/-- The board after clicking the bomb of `c4Board`. -/
def c4After : Board := (applyClicks c4Board [(0, 0)]).getD c4Board

/-- The cell `p` is in bounds and currently holds modifier `fr` — the
entry condition of the recursive `flood` in `board.js`. -/
def OkP (b : Board) (fr : Char) (p : Int × Int) : Prop :=
  inB b p.1 p.2 = true ∧ (getF b p.1 p.2).modifier = fr

/-- 4-connected reachability through cells holding modifier `fr`: the
region the recursive `flood` of `board.js` visits when started at `s`.
`base` requires the start cell itself to match `fromColor`; `step`
extends the region to any matching orthogonal neighbour.  Walls (`'X'`)
and any cell whose modifier differs from `fr` fail `OkP` and so block
the region. -/
inductive Reach (b : Board) (fr : Char) (s : Int × Int) : (Int × Int) → Prop
  | base : OkP b fr s → Reach b fr s s
  | step {q t : Int × Int} : Reach b fr s q → OkP b fr t → t ∈ nbrsI q.1 q.2 →
      Reach b fr s t

/-- `b2` is `b` with exactly the cells of `S` rewritten to modifier `tc`
(and nothing else changed in the grid): the spec-level description of
what a flood pass writes. -/
def PaintSpec (b : Board) (tc : Char) (S : Int × Int → Prop) (b2 : Board) : Prop :=
  (∀ p q : Int, S (p, q) → getF b2 p q = { getF b p q with modifier := tc }) ∧
  (∀ p q : Int, ¬ S (p, q) → getF b2 p q = getF b p q)

/-- Number of in-bounds cells currently holding modifier `fr`: the
termination measure of a `flood` run with `fromColor ≠ toColor` (each
recursive descent rewrites one such cell). -/
def countIn (b : Board) (fr : Char) : Nat :=
  ((List.range b.rows).map (fun (r : Nat) =>
    ((List.range b.cols).filter (fun (c : Nat) =>
      (getF b (r : Int) (c : Int)).modifier == fr)).length)).sum

/-- The claim's description of the `F` (flood) click rule, relative to
the pre-click grid: first try painting the 4-connected `'0'`-modifier
regions at the four orthogonal neighbours with the clicked cell's color;
if no neighbour region matched (no neighbour holds modifier `'0'`),
erase the neighbouring regions of the clicked cell's color instead, and
then `changed` is true exactly when some neighbour region matched the
clicked cell's color. -/
def FloodClickSpec (b : Board) (row col : Nat) (b2 : Board) (ch : Bool) : Prop :=
  ((∃ p ∈ nbrsI (row : Int) (col : Int), OkP b '0' p) →
    PaintSpec b (getF b (row : Int) (col : Int)).color
      (fun t => ∃ p ∈ nbrsI (row : Int) (col : Int), Reach b '0' p t) b2 ∧ ch = true) ∧
  (¬ (∃ p ∈ nbrsI (row : Int) (col : Int), OkP b '0' p) →
    PaintSpec b '0'
      (fun t => ∃ p ∈ nbrsI (row : Int) (col : Int),
        Reach b (getF b (row : Int) (col : Int)).color p t) b2 ∧
    (ch = true ↔ ∃ p ∈ nbrsI (row : Int) (col : Int),
      OkP b (getF b (row : Int) (col : Int)).color p))

/-- Witness board for the flood rule: an `F` cell of color `'r'` at
`(0,0)`, two empty (`'0'`) cells it can flood, and a wall. -/
def c3Board : Board :=
  { rows := 2, cols := 2,
    fields := [[{ color := 'r', modifier := 'F' }, { color := 'g', modifier := '0' }],
               [{ color := 'b', modifier := '0' }, { color := '0', modifier := 'X' }]] }

/-- `Board.hash` from `board.js`: `JSON.stringify` of the
`(color, modifier)` grid.  `JSON.stringify` is injective on this fixed
nested-array shape, so the grid data itself models the hash string and
the `Set` of hash strings becomes a list of these values. -/
def hashKey (b : Board) : List (List (Char × Char)) :=
  b.fields.map (fun row => row.map (fun f => (f.color, f.modifier)))

/-- The row-major cell enumeration `for r < rows, for c < cols` shared by
all solver move loops. -/
def allCells (b : Board) : List (Nat × Nat) :=
  (List.range b.rows).flatMap (fun r => (List.range b.cols).map (fun c => (r, c)))

/-- The per-cell move filter of every solver loop: clickable, and the
`onlyReachableFrom` gate (`f.onlyReachableFrom !== POSITION_NONE &&
(r !== row || c !== col)` skips the cell). -/
def clickOK (b : Board) (r c : Nat) : Bool :=
  let f := getF b (r : Int) (c : Int)
  isClickableF f &&
    (f.onlyReachableFrom == posNone ||
      (r == f.onlyReachableFrom.row && c == f.onlyReachableFrom.col))

/-- `getMoves` from the MCTS solver in `src/unnamed/part_000`: the list
of positions passing the move filter. -/
def getMoves (b : Board) : List (Nat × Nat) :=
  (allCells b).filter (fun rc => clickOK b rc.1 rc.2)

/-- The recursive `dfs` of `dfsSolver` (`multiSolver.js`), with the JS
call stack made explicit: an `inl` frame is a board on which `dfs` was
just invoked (bound check, solved check with best update, visited-set
check); an `inr` frame is a board whose cell loop is part-way done.  The
state `(best, visited)` threads the closure variables `bestSolution` and
`visited`; fuel bounds the number of machine steps, `none` modelling a
non-terminated (or crashed) run. -/
def dfsRun (maxSteps : Nat) :
    Nat → List (Board ⊕ Board × List (Nat × Nat)) → Option Board →
    List (List (List (Char × Char))) → Option (Option Board)
  | 0, _, _, _ => none
  | _ + 1, [], best, _ => some best
  | fuel + 1, Sum.inl board :: stk, best, visited =>
    if maxSteps < board.moveSequence.n then dfsRun maxSteps fuel stk best visited
    else if isSolvedB board then
      match copyB board with
      | none => none
      | some bc =>
        match best with
        | none => dfsRun maxSteps fuel stk (some bc) visited
        | some bs =>
          if board.moveSequence.n < bs.moveSequence.n then
            dfsRun maxSteps fuel stk (some bc) visited
          else dfsRun maxSteps fuel stk best visited
    else if hashKey board ∈ visited then dfsRun maxSteps fuel stk best visited
    else dfsRun maxSteps fuel (Sum.inr (board, allCells board) :: stk) best
      (hashKey board :: visited)
  | fuel + 1, Sum.inr (board, cells) :: stk, best, visited =>
    match cells with
    | [] => dfsRun maxSteps fuel stk best visited
    | (r, c) :: rest =>
      if clickOK board r c then
        match copyB board with
        | none => none
        | some nb =>
          match click nb r c with
          | none => none
          | some (nb2, ch) =>
            if ch then
              dfsRun maxSteps fuel (Sum.inl nb2 :: Sum.inr (board, rest) :: stk)
                best visited
            else dfsRun maxSteps fuel (Sum.inr (board, rest) :: stk) best visited
      else dfsRun maxSteps fuel (Sum.inr (board, rest) :: stk) best visited

/-- `dfsSolver(initialBoard, debug, maxSteps)` from `multiSolver.js`:
run `dfs` on the initial board with empty best/visited state and return
`bestSolution` (`some none` = the JS `null`). -/
def dfsSolver (b : Board) (maxSteps fuel : Nat) : Option (Option Board) :=
  dfsRun maxSteps fuel [Sum.inl b] none []

/-- `queue.push(newBoard); if (queue.length > maxQueueSize) queue.shift()`
from `bfsSolver`. -/
def bfsEnqueue (maxQ : Nat) (q : List Board) (nb : Board) : List Board :=
  let q2 := q ++ [nb]
  if maxQ < q2.length then q2.drop 1 else q2

/-- The inner cell loop of one `bfsSolver` iteration: copy, click,
hash-and-depth dedup, enqueue with overflow shift. -/
def bfsCellLoop (maxQ : Nat) (board : Board) :
    List (Nat × Nat) → List Board → List (List (List (Char × Char)) × Nat) →
    Option (List Board × List (List (List (Char × Char)) × Nat))
  | [], q, vis => some (q, vis)
  | (r, c) :: rest, q, vis =>
    if clickOK board r c then
      match copyB board with
      | none => none
      | some nb =>
        match click nb r c with
        | none => none
        | some (nb2, ch) =>
          if ch then
            if (hashKey nb2, nb2.moveSequence.n) ∈ vis then
              bfsCellLoop maxQ board rest q vis
            else bfsCellLoop maxQ board rest (bfsEnqueue maxQ q nb2)
              ((hashKey nb2, nb2.moveSequence.n) :: vis)
          else bfsCellLoop maxQ board rest q vis
    else bfsCellLoop maxQ board rest q vis

/-- The `while (head < queue.length)` loop of `bfsSolver`: dequeue by
index, return the board if solved, else expand its children (depth
permitting). -/
def bfsRun (maxSteps maxQ : Nat) :
    Nat → List Board → Nat → List (List (List (Char × Char)) × Nat) →
    Option (Option Board)
  | 0, _, _, _ => none
  | fuel + 1, q, head, vis =>
    if head < q.length then
      let board := q.getD head (mkBoard 0 0)
      if isSolvedB board then some (some board)
      else if maxSteps ≤ board.moveSequence.n then bfsRun maxSteps maxQ fuel q (head + 1) vis
      else
        match bfsCellLoop maxQ board (allCells board) q vis with
        | none => none
        | some (q2, vis2) => bfsRun maxSteps maxQ fuel q2 (head + 1) vis2
    else some none

/-- `bfsSolver(initialBoard, debug, maxSteps, maxQueueSize)` from
`multiSolver.js`; the initial visited set holds the literal key
`hash + "|0"`. -/
def bfsSolver (b : Board) (maxSteps maxQ fuel : Nat) : Option (Option Board) :=
  bfsRun maxSteps maxQ fuel [b] 0 [(hashKey b, 0)]

/-- An MCTS tree node (`class Node` of `mctsSolver` in
`src/unnamed/part_000`): board, untried moves, visits, accumulated
reward, children.  The parent pointer is realised by the recursion spine
of `mctsIterStep`. -/
inductive NodeT : Type where
  | mk : Board → List (Nat × Nat) → Nat → Rat → List NodeT → NodeT

def NodeT.board : NodeT → Board
  | .mk b _ _ _ _ => b

def NodeT.untried : NodeT → List (Nat × Nat)
  | .mk _ u _ _ _ => u

def NodeT.visits : NodeT → Nat
  | .mk _ _ v _ _ => v

def NodeT.reward : NodeT → Rat
  | .mk _ _ _ w _ => w

def NodeT.children : NodeT → List NodeT
  | .mk _ _ _ _ cs => cs

/-- `new Node(board)`: fresh statistics, untried moves = `getMoves`. -/
def newNode (b : Board) : NodeT := .mk b (getMoves b) 0 0 []

/-- `node.children.reduce((a, b) => ucb1(a) > ucb1(b) ? a : b)` from
`select`, returning the chosen index.  `ucb1` mixes floating-point
square roots and logarithms, so the comparison `ucb1(a) > ucb1(b)` is
abstracted as `cmp (reward_a, visits_a) (reward_b, visits_b) parentVisits`. -/
def chooseIdx (cmp : Rat × Nat → Rat × Nat → Nat → Bool) (pv : Nat)
    (cs : List NodeT) : Nat :=
  match cs.enum with
  | [] => 0
  | x :: rest =>
    (rest.foldl (fun a e =>
      if cmp (a.2.reward, a.2.visits) (e.2.reward, e.2.visits) pv then a else e) x).1

/-- `simulate(board)` from `mctsSolver`: random rollout for at most
`maxSteps` clicks, returning the reward and the mutated rollout board
(`1` on solve, else the partial reward `1 / (1 + incorrect)`); the
random index `Math.floor(Math.random() * moves.length)` is modelled by
the next entry of the stream `rs` reduced mod the move count. -/
def simF : List Nat → Nat → Board → Option (Rat × Board)
  | _, 0, b => some (1 / (1 + (heuristicWrong b : Rat)), b)
  | rs, fuel + 1, b =>
    if isSolvedB b then some (1, b)
    else
      match getMoves b with
      | [] => some (1 / (1 + (heuristicWrong b : Rat)), b)
      | m0 :: rest =>
        match click b ((m0 :: rest).getD (rs.headD 0 % (m0 :: rest).length) (0, 0)).1
            ((m0 :: rest).getD (rs.headD 0 % (m0 :: rest).length) (0, 0)).2 with
        | none => none
        | some (b2, ch) =>
          if ch then simF rs.tail fuel b2
          else some (1 / (1 + (heuristicWrong b2 : Rat)), b2)

/-- The rollout block of one MCTS iteration: copy the node's board,
simulate, and on a solved rollout return `bestSolved = rolloutBoard.copy()`. -/
def rolloutAt (maxSteps : Nat) (rs : List Nat) (b : Board) : Option (Rat × Option Board) :=
  match copyB b with
  | none => none
  | some rb =>
    match simF rs maxSteps rb with
    | none => none
    | some (rw, rb2) =>
      if isSolvedB rb2 then
        match copyB rb2 with
        | none => none
        | some bs => some (rw, some bs)
      else some (rw, none)

/-- One MCTS iteration (`select`, `expand`, rollout, `backpropagate`),
as a recursive descent along the selection path: descending models the
`select` loop, the updates on return model `backpropagate` (which is
skipped when the rollout solved the board, as the JS `break` fires
before it). -/
def mctsIterStep (cmp : Rat × Nat → Rat × Nat → Nat → Bool) (maxSteps : Nat)
    (rs : List Nat) : Nat → NodeT → Option (NodeT × Rat × Option Board)
  | 0, _ => none
  | fuel + 1, n =>
    if n.untried.isEmpty && !n.children.isEmpty then
      match mctsIterStep cmp maxSteps rs fuel
          (n.children.getD (chooseIdx cmp n.visits n.children) n) with
      | none => none
      | some (c2, rw, sol) =>
        match sol with
        | some bs => some (.mk n.board n.untried n.visits n.reward
            (n.children.set (chooseIdx cmp n.visits n.children) c2), rw, some bs)
        | none => some (.mk n.board n.untried (n.visits + 1) (n.reward + rw)
            (n.children.set (chooseIdx cmp n.visits n.children) c2), rw, none)
    else
      match n.untried with
      | [] =>
        match rolloutAt maxSteps rs n.board with
        | none => none
        | some (rw, some bs) => some (n, rw, some bs)
        | some (rw, none) => some (.mk n.board n.untried (n.visits + 1)
            (n.reward + rw) n.children, rw, none)
      | u0 :: urest =>
        match copyB n.board with
        | none => none
        | some nb =>
          match click nb ((u0 :: urest).getLastD (0, 0)).1
              ((u0 :: urest).getLastD (0, 0)).2 with
          | none => none
          | some (nb2, ch) =>
            if ch then
              match rolloutAt maxSteps rs nb2 with
              | none => none
              | some (rw, some bs) =>
                some (.mk n.board ((u0 :: urest).dropLast) n.visits n.reward
                  (n.children ++ [.mk nb2 (getMoves nb2) 0 0 []]), rw, some bs)
              | some (rw, none) =>
                some (.mk n.board ((u0 :: urest).dropLast) (n.visits + 1)
                  (n.reward + rw)
                  (n.children ++ [.mk nb2 (getMoves nb2) 1 rw []]), rw, none)
            else
              match rolloutAt maxSteps rs n.board with
              | none => none
              | some (rw, some bs) =>
                some (.mk n.board ((u0 :: urest).dropLast) n.visits n.reward
                  n.children, rw, some bs)
              | some (rw, none) =>
                some (.mk n.board ((u0 :: urest).dropLast) (n.visits + 1)
                  (n.reward + rw) n.children, rw, none)

/-- The `while (Date.now() - startTime < timeoutMs)` loop of
`mctsSolver`, with the wall-clock budget modelled as an iteration
budget; `rs` supplies one random stream per iteration. -/
def mctsLoop (cmp : Rat × Nat → Rat × Nat → Nat → Bool) (maxSteps total : Nat) :
    Nat → List (List Nat) → NodeT → Option (Option Board × NodeT)
  | 0, _, root => some (none, root)
  | budget + 1, rs, root =>
    match mctsIterStep cmp maxSteps (rs.headD []) (total + 1) root with
    | none => none
    | some (root2, _, some bs) => some (some bs, root2)
    | some (root2, _, none) => mctsLoop cmp maxSteps total budget rs.tail root2

/-- `mctsSolver` from `src/unnamed/part_000`: run the iteration loop; on
a solved rollout return it, otherwise fall back to the most-visited root
child (`root.children.reduce((a, b) => b.visits > a.visits ? b : a,
root.children[0])`), returning its (not necessarily solved) board, or
`null` when the root has no children. -/
def mctsSolver (b : Board) (maxSteps budget : Nat)
    (cmp : Rat × Nat → Rat × Nat → Nat → Bool) (rs : List (List Nat)) :
    Option (Option Board) :=
  match mctsLoop cmp maxSteps budget budget rs (newNode b) with
  | none => none
  | some (some bs, _) => some (some bs)
  | some (none, root) =>
    match root.children with
    | [] => some none
    | c0 :: _ =>
      some (some ((root.children.foldl
        (fun a e => if a.visits < e.visits then e else a) c0).board))

/-- Witness board for solver soundness: a right arrow that solves the
level in one click. -/
def c1Board : Board :=
  { rows := 1, cols := 2,
    fields := [[{ color := 'r', modifier := 'R' }, { color := 'r', modifier := '0' }]] }

/-- The solved board the DFS strategy returns on `c1Board`. -/
def c1Solved : Board :=
  { rows := 1, cols := 2,
    fields := [[{ color := 'r', modifier := 'R' }, { color := 'r', modifier := 'r' }]],
    moveSequence := ⟨[⟨0, 0⟩], 1⟩ }

/-- Counterexample board for the MCTS fallback: the only click leaves
the green cell incorrect, so no rollout ever solves it. -/
def c1mBoard : Board :=
  { rows := 1, cols := 2,
    fields := [[{ color := 'r', modifier := 'R' }, { color := 'g', modifier := '0' }]] }

/-- The unsolved one-click child board the MCTS fallback returns on
`c1mBoard`. -/
def c1mChild : Board :=
  { rows := 1, cols := 2,
    fields := [[{ color := 'r', modifier := 'R' }, { color := 'g', modifier := 'r' }]],
    moveSequence := ⟨[⟨0, 0⟩], 1⟩ }

/-! ### Basic lemmas about the grid primitives -/

theorem listModify_length {α : Type} (l : List α) (n : Nat) (g : α → α) :
    (listModify l n g).length = l.length := by
  induction l generalizing n with
  | nil => rfl
  | cons a as ih =>
    cases n with
    | zero => rfl
    | succ m => simpa [listModify] using ih m

theorem getD_listModify_ne {α : Type} (l : List α) (n m : Nat) (g : α → α) (d : α)
    (h : n ≠ m) : (listModify l n g).getD m d = l.getD m d := by
  induction l generalizing n m with
  | nil => rfl
  | cons a as ih =>
    cases n with
    | zero =>
      cases m with
      | zero => exact absurd rfl h
      | succ k => simp [listModify]
    | succ n1 =>
      cases m with
      | zero => simp [listModify]
      | succ k => simpa [listModify] using ih n1 k (fun hh => h (by omega))

theorem getD_listModify_eq {α : Type} (l : List α) (n : Nat) (g : α → α) (d : α)
    (h : n < l.length) : (listModify l n g).getD n d = g (l.getD n d) := by
  induction l generalizing n with
  | nil => simp at h
  | cons a as ih =>
    cases n with
    | zero => simp [listModify]
    | succ m =>
      simp only [List.length_cons] at h
      simpa [listModify] using ih m (by omega)

theorem listModify_oob {α : Type} (l : List α) (n : Nat) (g : α → α)
    (h : l.length ≤ n) : listModify l n g = l := by
  induction l generalizing n with
  | nil => rfl
  | cons a as ih =>
    cases n with
    | zero => simp at h
    | succ m =>
      simp only [List.length_cons] at h
      simpa [listModify] using ih m (by omega)

theorem listModify_self {α : Type} (l : List α) (n : Nat) (g : α → α) (d : α)
    (h : g (l.getD n d) = l.getD n d) : listModify l n g = l := by
  induction l generalizing n with
  | nil => rfl
  | cons a as ih =>
    cases n with
    | zero => simpa [listModify] using h
    | succ m => simpa [listModify] using ih m (by simpa using h)

theorem setMod_rows (b : Board) (r c : Int) (v : Char) : (setMod b r c v).rows = b.rows := by
  unfold setMod; split <;> rfl

theorem setMod_cols (b : Board) (r c : Int) (v : Char) : (setMod b r c v).cols = b.cols := by
  unfold setMod; split <;> rfl

theorem setMod_moveSeq (b : Board) (r c : Int) (v : Char) :
    (setMod b r c v).moveSequence = b.moveSequence := by
  unfold setMod; split <;> rfl

theorem setMod_hasBombs (b : Board) (r c : Int) (v : Char) :
    (setMod b r c v).hasBombs = b.hasBombs := by
  unfold setMod; split <;> rfl

theorem inB_eq_of_dims {b b' : Board} (hr : b'.rows = b.rows) (hc : b'.cols = b.cols)
    (r c : Int) : inB b' r c = inB b r c := by
  simp [inB, hr, hc]

theorem inB_setMod (b : Board) (r c p q : Int) (v : Char) :
    inB (setMod b r c v) p q = inB b p q :=
  inB_eq_of_dims (setMod_rows ..) (setMod_cols ..) p q

theorem int_toNat_inj {p r : Int} (hp : 0 ≤ p) (hr : 0 ≤ r) (h : p.toNat = r.toNat) :
    p = r := by omega

theorem getF_def (b : Board) (p q : Int) :
    getF b p q = if inB b p q then (b.fields.getD p.toNat []).getD q.toNat defaultField
      else defaultField := rfl

theorem setMod_fields (b : Board) (r c : Int) (v : Char) :
    (setMod b r c v).fields =
      if inB b r c then
        listModify b.fields r.toNat
          (fun row => listModify row c.toNat (fun f => { f with modifier := v }))
      else b.fields := by
  unfold setMod; split <;> simp_all

theorem getF_setMod_ne {b : Board} {r c p q : Int} (v : Char)
    (h : p ≠ r ∨ q ≠ c) : getF (setMod b r c v) p q = getF b p q := by
  rw [getF_def, getF_def, inB_setMod, setMod_fields]
  split
  case isTrue hpq =>
    by_cases hin : inB b r c
    · rw [if_pos hin]
      have hrn : (0 ≤ r ∧ r < (b.rows : Int)) ∧ 0 ≤ c ∧ c < (b.cols : Int) := by
        simpa [inB, and_assoc] using hin
      have hpn : (0 ≤ p ∧ p < (b.rows : Int)) ∧ 0 ≤ q ∧ q < (b.cols : Int) := by
        simpa [inB, and_assoc] using hpq
      by_cases hrow : p.toNat = r.toNat
      · have hpr : p = r := int_toNat_inj hpn.1.1 hrn.1.1 hrow
        have hqc : q ≠ c := by
          rcases h with h1 | h2
          · exact absurd hpr h1
          · exact h2
        have hqcn : q.toNat ≠ c.toNat := fun hh =>
          hqc (int_toNat_inj hpn.2.1 hrn.2.1 hh)
        by_cases hlen : r.toNat < b.fields.length
        · rw [hrow, getD_listModify_eq _ _ _ _ hlen]
          exact getD_listModify_ne _ _ _ _ _ (fun hh => hqcn hh.symm)
        · rw [listModify_oob _ _ _ (le_of_not_lt hlen)]
      · rw [getD_listModify_ne _ _ _ _ _ (fun hh => hrow hh.symm)]
    · rw [if_neg hin]
  case isFalse => rfl

theorem getF_setMod_eq {b : Board} {r c : Int} (v : Char)
    (hin : inB b r c = true) (hp : present b r c) :
    getF (setMod b r c v) r c = { getF b r c with modifier := v } := by
  rw [getF_def, getF_def, inB_setMod, setMod_fields, if_pos hin, if_pos hin, if_pos hin]
  rw [getD_listModify_eq _ _ _ _ hp.1, getD_listModify_eq _ _ _ _ hp.2]

theorem setMod_same {b : Board} {r c : Int} {v : Char}
    (h : (getF b r c).modifier = v) : setMod b r c v = b := by
  unfold setMod
  split
  case isTrue hin =>
    rw [getF_def, if_pos hin] at h
    have hrow : listModify b.fields r.toNat
        (fun row => listModify row c.toNat fun f => { f with modifier := v }) = b.fields := by
      apply listModify_self _ _ _ []
      apply listModify_self _ _ _ defaultField
      cases hf : (b.fields.getD r.toNat []).getD c.toNat defaultField with
      | mk color modifier orf ib tp =>
        rw [hf] at h
        simp only at h
        simp [h]
    simp [hrow]
  case isFalse => rfl

theorem present_of_WFB {b : Board} (hw : WFB b = true) {r c : Int}
    (hin : inB b r c = true) : present b r c := by
  have hw1 : b.fields.length = b.rows ∧ ∀ row ∈ b.fields, row.length = b.cols := by
    constructor
    · have := (Bool.and_eq_true ..).mp hw |>.1
      simpa using this
    · intro row hrow
      have := (Bool.and_eq_true ..).mp hw |>.2
      rw [List.all_eq_true] at this
      simpa using this row hrow
  have hb : (0 ≤ r ∧ r < (b.rows : Int)) ∧ 0 ≤ c ∧ c < (b.cols : Int) := by
    simpa [inB, and_assoc] using hin
  have hr : r.toNat < b.fields.length := by omega
  refine ⟨hr, ?_⟩
  have hmem : b.fields.getD r.toNat [] ∈ b.fields := by
    have hget : b.fields.getD r.toNat [] = b.fields.get ⟨r.toNat, hr⟩ := by
      simp [List.getD_eq_getElem?_getD, List.getElem?_eq_getElem hr]
    rw [hget]
    exact List.get_mem b.fields r.toNat hr
  have := hw1.2 _ hmem
  omega

/-! ### Shape preservation: no rule ever changes the dimensions, the move
sequence (beyond the single append done by `click` itself), or the
`hasBombs` flag. -/

theorem dimsMovesEq_refl (b : Board) : dimsMovesEq b b := ⟨rfl, rfl, rfl, rfl⟩

theorem dimsMovesEq_trans {a b c : Board} (h1 : dimsMovesEq a b) (h2 : dimsMovesEq b c) :
    dimsMovesEq a c :=
  ⟨h2.1.trans h1.1, h2.2.1.trans h1.2.1, h2.2.2.1.trans h1.2.2.1, h2.2.2.2.trans h1.2.2.2⟩

theorem setMod_dimsMovesEq (b : Board) (r c : Int) (v : Char) :
    dimsMovesEq b (setMod b r c v) :=
  ⟨setMod_rows .., setMod_cols .., setMod_moveSeq .., setMod_hasBombs ..⟩

theorem fillLoop_dimsMovesEq :
    ∀ (fuel : Nat) (b : Board) (dr dc r c : Int) (fr tc : Char) (ch : Bool),
      dimsMovesEq b (fillLoop fuel b dr dc r c fr tc ch).1 := by
  intro fuel
  induction fuel with
  | zero => intro b dr dc r c fr tc ch; exact dimsMovesEq_refl b
  | succ n ih =>
    intro b dr dc r c fr tc ch
    show dimsMovesEq b (fillLoop (n + 1) b dr dc r c fr tc ch).1
    rw [fillLoop]
    split
    · exact dimsMovesEq_trans (setMod_dimsMovesEq b r c tc) (ih _ _ _ _ _ _ _ _)
    · exact dimsMovesEq_refl b

theorem fill_dimsMovesEq (b : Board) (dr dc r c : Int) (color : Char) :
    dimsMovesEq b (fill b dr dc r c color).1 := by
  unfold fill
  dsimp only
  split
  · split
    · exact fillLoop_dimsMovesEq ..
    · split
      · exact fillLoop_dimsMovesEq ..
      · exact dimsMovesEq_refl b
  · exact dimsMovesEq_refl b

theorem floodF_dimsMovesEq :
    ∀ (fuel : Nat) (b : Board) (r c : Int) (fr tc : Char) (b2 : Board) (ch : Bool),
      floodF fuel b r c fr tc = some (b2, ch) → dimsMovesEq b b2 := by
  intro fuel
  induction fuel with
  | zero => intro b r c fr tc b2 ch h; simp [floodF] at h
  | succ n ihn =>
    intro b r c fr tc b2 ch h
    rw [floodF] at h
    by_cases hc : (inB b r c && ((getF b r c).modifier == fr)) = true
    · rw [if_pos hc] at h
      cases h1 : floodF n (setMod b r c tc) (r + 1) c fr tc with
      | none => rw [h1] at h; simp at h
      | some p1 =>
        obtain ⟨b1, ch1⟩ := p1
        rw [h1] at h; dsimp only at h
        cases h2 : floodF n b1 (r - 1) c fr tc with
        | none => rw [h2] at h; simp at h
        | some p2 =>
          obtain ⟨bb2, ch2⟩ := p2
          rw [h2] at h; dsimp only at h
          cases h3 : floodF n bb2 r (c + 1) fr tc with
          | none => rw [h3] at h; simp at h
          | some p3 =>
            obtain ⟨b3, ch3⟩ := p3
            rw [h3] at h; dsimp only at h
            cases h4 : floodF n b3 r (c - 1) fr tc with
            | none => rw [h4] at h; simp at h
            | some p4 =>
              obtain ⟨b4, ch4⟩ := p4
              rw [h4] at h; dsimp only at h
              have e : b4 = b2 := congrArg Prod.fst (Option.some.inj h)
              exact dimsMovesEq_trans (setMod_dimsMovesEq b r c tc)
                (dimsMovesEq_trans (ihn _ _ _ _ _ _ _ h1)
                  (dimsMovesEq_trans (ihn _ _ _ _ _ _ _ h2)
                    (dimsMovesEq_trans (ihn _ _ _ _ _ _ _ h3) (e ▸ ihn _ _ _ _ _ _ _ h4))))
    · rw [if_neg hc] at h
      have e : b = b2 := congrArg Prod.fst (Option.some.inj h)
      exact e ▸ dimsMovesEq_refl b

theorem floodSeq_dimsMovesEq :
    ∀ (fuel : Nat) (ps : List (Int × Int)) (b : Board) (fr tc : Char) (b2 : Board) (ch : Bool),
      floodSeq fuel b ps fr tc = some (b2, ch) → dimsMovesEq b b2 := by
  intro fuel ps
  induction ps with
  | nil =>
    intro b fr tc b2 ch h
    rw [floodSeq] at h
    have e : b = b2 := congrArg Prod.fst (Option.some.inj h)
    exact e ▸ dimsMovesEq_refl b
  | cons p ps ihp =>
    intro b fr tc b2 ch h
    rw [floodSeq] at h
    cases h1 : floodF fuel b p.1 p.2 fr tc with
    | none => rw [h1] at h; simp at h
    | some p1 =>
      obtain ⟨b1, ch1⟩ := p1
      rw [h1] at h; dsimp only at h
      cases h2 : floodSeq fuel b1 ps fr tc with
      | none => rw [h2] at h; simp at h
      | some p2 =>
        obtain ⟨bb2, ch2⟩ := p2
        rw [h2] at h; dsimp only at h
        have e : bb2 = b2 := congrArg Prod.fst (Option.some.inj h)
        exact dimsMovesEq_trans (floodF_dimsMovesEq _ _ _ _ _ _ _ _ h1) (e ▸ ihp _ _ _ _ _ h2)

end BorderBound


namespace BorderBound

theorem foldl_dimsMovesEq {β : Type} (g : Board → β → Board)
    (hg : ∀ bb x, dimsMovesEq bb (g bb x)) :
    ∀ (l : List β) (b : Board), dimsMovesEq b (l.foldl g b) := by
  intro l
  induction l with
  | nil => intro b; exact dimsMovesEq_refl b
  | cons x xs ih =>
    intro b
    exact dimsMovesEq_trans (hg b x) (ih (g b x))

theorem bombPaint_dimsMovesEq (b : Board) (row col : Nat) (color : Char) :
    dimsMovesEq b (bombPaint b row col color) := by
  unfold bombPaint
  apply foldl_dimsMovesEq
  intro bb dr
  apply foldl_dimsMovesEq
  intro bb2 dc
  dsimp only
  split
  · exact setMod_dimsMovesEq ..
  · exact dimsMovesEq_refl _

theorem clickFlood_dimsMovesEq {b : Board} {row col : Nat} {color : Char}
    {b2 : Board} {ch : Bool} (h : clickFlood b row col color = some (b2, ch)) :
    dimsMovesEq b b2 := by
  unfold clickFlood at h
  dsimp only at h
  split at h
  · exact absurd h (by simp)
  case h_2 b4 ch4 heq =>
    have h1 := floodSeq_dimsMovesEq _ _ _ _ _ _ _ heq
    split at h
    · have h2 : b4 = b2 := congrArg Prod.fst (Option.some.inj h)
      exact h2 ▸ h1
    · exact dimsMovesEq_trans h1 (floodSeq_dimsMovesEq _ _ _ _ _ _ _ h)

theorem rotFire_dimsMovesEq (b : Board) (row col : Nat) (color : Char) (dr dc : Int)
    (nm : Char) : dimsMovesEq b (rotFire b row col color dr dc nm).1 := by
  unfold rotFire
  exact dimsMovesEq_trans (fill_dimsMovesEq ..) (setMod_dimsMovesEq ..)

theorem addMove_rows (b : Board) (row col : Nat) : (addMove b row col).rows = b.rows := rfl

theorem addMove_cols (b : Board) (row col : Nat) : (addMove b row col).cols = b.cols := rfl

theorem addMove_fields (b : Board) (row col : Nat) :
    (addMove b row col).fields = b.fields := rfl

theorem addMove_hasBombs (b : Board) (row col : Nat) :
    (addMove b row col).hasBombs = b.hasBombs := rfl

/-- The core of the move-log property: on any successful `click`, the
whole move sequence is the old one with `(row, col)` pushed and the
counter incremented, and the dimensions and `hasBombs` are untouched. -/
theorem click_shape {b0 : Board} {row col : Nat} {b2 : Board} {ch : Bool}
    (h : click b0 row col = some (b2, ch)) :
    b2.rows = b0.rows ∧ b2.cols = b0.cols ∧ b2.hasBombs = b0.hasBombs ∧
      b2.moveSequence = ⟨b0.moveSequence.moves ++ [⟨row, col⟩], b0.moveSequence.n + 1⟩ := by
  unfold click at h
  split at h
  case isTrue hb =>
    dsimp only at h
    have haux : ∀ bb chb, dimsMovesEq (addMove b0 row col) bb →
        bb = b2 ∧ chb = ch ∨ some (bb, chb) = some (b2, ch) →
        b2.rows = b0.rows ∧ b2.cols = b0.cols ∧ b2.hasBombs = b0.hasBombs ∧
          b2.moveSequence = ⟨b0.moveSequence.moves ++ [⟨row, col⟩], b0.moveSequence.n + 1⟩ := by
      intro bb chb hdm hbb
      have hbb2 : bb = b2 := by
        rcases hbb with h1 | h2
        · exact h1.1
        · exact congrArg Prod.fst (Option.some.inj h2)
      subst hbb2
      exact ⟨hdm.1, hdm.2.1, hdm.2.2.2, hdm.2.2.1⟩
    split at h
    · exact haux _ _ (fill_dimsMovesEq ..) (Or.inr h)
    · exact haux _ _ (fill_dimsMovesEq ..) (Or.inr h)
    · exact haux _ _ (fill_dimsMovesEq ..) (Or.inr h)
    · exact haux _ _ (fill_dimsMovesEq ..) (Or.inr h)
    · exact haux _ _ (clickFlood_dimsMovesEq h) (Or.inl ⟨rfl, rfl⟩)
    · exact haux _ _ (bombPaint_dimsMovesEq ..) (Or.inr h)
    · exact haux _ _ (rotFire_dimsMovesEq ..) (Or.inr h)
    · exact haux _ _ (rotFire_dimsMovesEq ..) (Or.inr h)
    · exact haux _ _ (rotFire_dimsMovesEq ..) (Or.inr h)
    · exact haux _ _ (rotFire_dimsMovesEq ..) (Or.inr h)
    · exact haux _ _ (dimsMovesEq_refl _) (Or.inr h)
  case isFalse => exact absurd h (by simp)

end BorderBound

namespace BorderBound

/-- C6: Move-log integrity.  After a successful `click(B, r, c)` the
counter `n` is the old `n` plus one, the appended entry is `(r, c)`, and
`n` again equals the length of the move list — regardless of the returned
changed bit, including unknown / inert modifiers (the default dispatch
case). -/
theorem moveLog_integrity (b : Board) (r c : Nat) (b2 : Board) (ch : Bool)
    (hn : b.moveSequence.n = b.moveSequence.moves.length)
    (h : click b r c = some (b2, ch)) :
    b2.moveSequence.n = b.moveSequence.n + 1 ∧
    b2.moveSequence.moves = b.moveSequence.moves ++ [⟨r, c⟩] ∧
    b2.moveSequence.n = b2.moveSequence.moves.length := by
  have hs := (click_shape h).2.2.2
  refine ⟨by rw [hs], by rw [hs], ?_⟩
  rw [hs]
  simp [hn]

/-- Witness for the move-log theorem at a concrete inert click. -/
theorem moveLog_integrity_witness :
    (addMove c6Board 0 0).moveSequence.n = c6Board.moveSequence.n + 1 ∧
    (addMove c6Board 0 0).moveSequence.moves = c6Board.moveSequence.moves ++ [⟨0, 0⟩] ∧
    (addMove c6Board 0 0).moveSequence.n = (addMove c6Board 0 0).moveSequence.moves.length :=
  moveLog_integrity c6Board 0 0 (addMove c6Board 0 0) false (by decide) (by decide)

theorem divergeBoard_setMod1 : setMod divergeBoard 0 1 '0' = divergeBoard := by decide

theorem divergeBoard_setMod2 : setMod divergeBoard 0 2 '0' = divergeBoard := by decide

/-- One unfolding step of `flood` at a position where the guard fails
(out of bounds, or the modifier does not match `fromColor`): the board is
returned unchanged with `changed = false`. -/
theorem floodF_stop (m : Nat) (b : Board) (r c : Int) (fr tc : Char)
    (h : (inB b r c && ((getF b r c).modifier == fr)) = false) :
    floodF (m + 1) b r c fr tc = some (b, false) := by
  rw [floodF]
  simp [h]

theorem flood_diverge_aux :
    ∀ n, floodF n divergeBoard 0 1 '0' '0' = none ∧
      floodF n divergeBoard 0 2 '0' '0' = none := by
  intro n
  induction n with
  | zero => exact ⟨rfl, rfl⟩
  | succ m ih =>
    cases m with
    | zero => exact ⟨by decide, by decide⟩
    | succ k =>
      obtain ⟨ih1, ih2⟩ := ih
      constructor
      · rw [floodF, if_pos (by decide), divergeBoard_setMod1]
        rw [floodF_stop k divergeBoard (0 + 1) 1 '0' '0' (by decide)]
        dsimp only
        rw [floodF_stop k divergeBoard (0 - 1) 1 '0' '0' (by decide)]
        dsimp only
        rw [show ((1 : Int) + 1) = 2 from by decide, ih2]
      · rw [floodF, if_pos (by decide), divergeBoard_setMod2]
        rw [floodF_stop k divergeBoard (0 + 1) 2 '0' '0' (by decide)]
        dsimp only
        rw [floodF_stop k divergeBoard (0 - 1) 2 '0' '0' (by decide)]
        dsimp only
        rw [floodF_stop k divergeBoard 0 (2 + 1) '0' '0' (by decide)]
        dsimp only
        rw [show ((2 : Int) - 1) = 1 from by decide, ih1]

/-- C5: the rule engine is not total.  On the board
`fromStrings("000", "F00")`, clicking the `F` cell of color `'0'` makes
`flood` recurse with `fromColor = toColor = '0'`; the two adjacent `'0'`
cells re-enter each other forever (a JS stack overflow), so no amount of
fuel completes the flood and `click` has no result. -/
theorem click_not_total_on_flood_zero :
    (∀ fuel, floodF fuel divergeBoard 0 1 '0' '0' = none) ∧
      click divergeBoard 0 0 = none :=
  ⟨fun n => (flood_diverge_aux n).1, by decide⟩

end BorderBound

namespace BorderBound

/-! ### C10: the enhanced heuristic collapses to the plain one -/

theorem getD_mem {α : Type} (l : List α) (n : Nat) (d : α) (h : n < l.length) :
    l.getD n d ∈ l := by
  have he : l.getD n d = l.get ⟨n, h⟩ := by
    simp [List.getD_eq_getElem?_getD, List.getElem?_eq_getElem h]
  rw [he]
  exact List.get_mem l n h

theorem WFB_spec {b : Board} (hw : WFB b = true) :
    b.fields.length = b.rows ∧ ∀ row ∈ b.fields, row.length = b.cols := by
  constructor
  · have := (Bool.and_eq_true ..).mp hw |>.1
    simpa using this
  · intro row hrow
    have := (Bool.and_eq_true ..).mp hw |>.2
    rw [List.all_eq_true] at this
    simpa using this row hrow

theorem foldl_congr_mem {α β : Type} (l : List α) (f g : β → α → β) (init : β)
    (h : ∀ acc a, a ∈ l → f acc a = g acc a) : l.foldl f init = l.foldl g init := by
  induction l generalizing init with
  | nil => rfl
  | cons x xs ih =>
    rw [List.foldl_cons, List.foldl_cons, h init x (by simp)]
    exact ih _ (fun acc a ha => h acc a (List.mem_cons_of_mem _ ha))

theorem inner_count (row : List Field) :
    ∀ a : Nat,
      (List.range row.length).foldl
          (fun acc c => if !(isCorrectF (row.getD c defaultField)) then acc + 1 else acc) a
        = a + (row.filter (fun f => !(isCorrectF f))).length := by
  induction row with
  | nil => intro a; simp
  | cons f rest ih =>
    intro a
    rw [show (f :: rest).length = rest.length + 1 from rfl, List.range_succ_eq_map,
      List.foldl_cons, List.foldl_map]
    have hbody : (fun (acc : Nat) (c : Nat) =>
        if !(isCorrectF ((f :: rest).getD c.succ defaultField)) then acc + 1 else acc)
        = fun acc c => if !(isCorrectF (rest.getD c defaultField)) then acc + 1 else acc := by
      funext acc c; rfl
    rw [hbody, ih]
    by_cases hP : isCorrectF f
    · simp [hP]
    · simp [hP]
      omega

theorem outer_count (grid : List (List Field)) :
    ∀ a : Nat,
      (List.range grid.length).foldl
          (fun acc r => acc + ((grid.getD r []).filter (fun f => !(isCorrectF f))).length) a
        = a + (grid.flatten.filter (fun f => !(isCorrectF f))).length := by
  induction grid with
  | nil => intro a; simp
  | cons row rest ih =>
    intro a
    rw [show (row :: rest).length = rest.length + 1 from rfl, List.range_succ_eq_map,
      List.foldl_cons, List.foldl_map]
    have hbody : (fun (acc : Nat) (r : Nat) =>
        acc + (((row :: rest).getD r.succ []).filter (fun f => !(isCorrectF f))).length)
        = fun acc r => acc + ((rest.getD r []).filter (fun f => !(isCorrectF f))).length := by
      funext acc r; rfl
    rw [hbody, ih]
    simp [List.filter_append]
    omega

theorem inB_of_lt {b : Board} {r c : Nat} (hr : r < b.rows) (hc : c < b.cols) :
    inB b (r : Int) (c : Int) = true := by
  simp [inB]
  omega

theorem getF_of_nat {b : Board} {r c : Nat} (hr : r < b.rows) (hc : c < b.cols) :
    getF b (r : Int) (c : Int) = (b.fields.getD r []).getD c defaultField := by
  rw [getF_def, if_pos (inB_of_lt hr hc)]
  simp

theorem hintFreeB_spec {b : Board} (hh : hintFreeB b = true) :
    ∀ row ∈ b.fields, ∀ f ∈ row, f.isBomb = false ∧ f.targetPosition = none := by
  intro row hrow f hf
  unfold hintFreeB at hh
  rw [List.all_eq_true] at hh
  have := hh row hrow
  rw [List.all_eq_true] at this
  have hf2 := this f hf
  unfold hfField at hf2
  constructor
  · have := (Bool.and_eq_true ..).mp hf2 |>.1
    simpa using this
  · have := (Bool.and_eq_true ..).mp hf2 |>.2
    simpa using this

/-- C10: on every hint-free, well-formed board — which includes every
board this program constructs, since no constructor sets `isBomb` or
`targetPosition` — the enhanced heuristic of `enhancedBranchBoundSolver`
equals `branchBoundSolver`'s plain count of incorrect cells; moreover
`new Board` and `Board.copy` only produce hint-free well-formed boards. -/
theorem enhanced_heuristic_collapses :
    (∀ b : Board, WFB b = true → hintFreeB b = true →
        heuristicEnhanced b = heuristicWrong b) ∧
    (∀ rows cols : Nat, hintFreeB (mkBoard rows cols) = true ∧ WFB (mkBoard rows cols) = true) ∧
    (∀ b1 b2 : Board, copyB b1 = some b2 → hintFreeB b2 = true ∧ WFB b2 = true) := by
  refine ⟨?_, ?_, ?_⟩
  · intro b hw hh
    obtain ⟨hlen, hrows⟩ := WFB_spec hw
    unfold heuristicEnhanced
    have hout : ∀ (acc : Nat) (r : Nat), r ∈ List.range b.rows →
        (List.range b.cols).foldl
            (fun (acc2 : Nat) (c : Nat) =>
              let f := getF b (r : Int) (c : Int)
              if !(isCorrectF f) then
                acc2 + 1 + (if f.isBomb then 2 else 0) +
                  (match f.targetPosition with
                   | some t => ((r : Int) - t.row).natAbs + ((c : Int) - t.col).natAbs
                   | none => 0)
              else acc2)
            acc
        = acc + ((b.fields.getD r []).filter (fun f => !(isCorrectF f))).length := by
      intro acc r hrmem
      have hr : r < b.rows := List.mem_range.mp hrmem
      have hrowmem : b.fields.getD r [] ∈ b.fields := getD_mem _ _ _ (by omega)
      have hrowlen : (b.fields.getD r []).length = b.cols := hrows _ hrowmem
      have hcong : (List.range b.cols).foldl
          (fun (acc2 : Nat) (c : Nat) =>
            let f := getF b (r : Int) (c : Int)
            if !(isCorrectF f) then
              acc2 + 1 + (if f.isBomb then 2 else 0) +
                (match f.targetPosition with
                 | some t => ((r : Int) - t.row).natAbs + ((c : Int) - t.col).natAbs
                 | none => 0)
            else acc2)
          acc
        = (List.range b.cols).foldl
            (fun acc2 c =>
              if !(isCorrectF ((b.fields.getD r []).getD c defaultField)) then acc2 + 1
              else acc2)
            acc := by
        apply foldl_congr_mem
        intro acc2 c hcmem
        have hc : c < b.cols := List.mem_range.mp hcmem
        have hgf := getF_of_nat hr hc
        have hfmem : (b.fields.getD r []).getD c defaultField ∈ b.fields.getD r [] :=
          getD_mem _ _ _ (by omega)
        have hhf := hintFreeB_spec hh _ hrowmem _ hfmem
        dsimp only
        rw [hgf, hhf.1, hhf.2]
        by_cases hP : isCorrectF ((b.fields.getD r []).getD c defaultField) <;> simp [hP]
      rw [hcong, ← hrowlen, inner_count]
    rw [foldl_congr_mem _ _ _ _ hout, ← hlen, outer_count]
    unfold heuristicWrong
    simp
  · intro rows cols
    constructor
    · unfold hintFreeB mkBoard
      rw [List.all_eq_true]
      intro row hrow
      rw [List.eq_of_mem_replicate hrow, List.all_eq_true]
      intro f hf
      rw [List.eq_of_mem_replicate hf]
      rfl
    · unfold WFB mkBoard
      rw [Bool.and_eq_true]
      refine ⟨by simp, ?_⟩
      rw [List.all_eq_true]
      intro row hrow
      rw [List.eq_of_mem_replicate hrow]
      simp
  · intro b1 b2 h
    unfold copyB at h
    split at h
    · have hb := Option.some.inj h
      constructor
      · rw [← hb]
        unfold hintFreeB
        rw [List.all_eq_true]
        intro row hrow
        obtain ⟨r, hr, hre⟩ := List.mem_map.mp hrow
        rw [← hre, List.all_eq_true]
        intro f hf
        obtain ⟨c, hc, hce⟩ := List.mem_map.mp hf
        rw [← hce]
        rfl
      · rw [← hb]
        unfold WFB
        rw [Bool.and_eq_true]
        refine ⟨by simp, ?_⟩
        rw [List.all_eq_true]
        intro row hrow
        obtain ⟨r, hr, hre⟩ := List.mem_map.mp hrow
        rw [← hre]
        simp
    · exact absurd h (by simp)

/-- Witness: the heuristic equality and the constructor facts at a
concrete mixed board. -/
theorem enhanced_heuristic_collapses_witness :
    heuristicEnhanced h10Board = heuristicWrong h10Board ∧
    hintFreeB (mkBoard 2 3) = true ∧ hintFreeB h10Board = true :=
  ⟨enhanced_heuristic_collapses.1 h10Board (by decide) (by decide),
   (enhanced_heuristic_collapses.2.1 2 3).1,
   (enhanced_heuristic_collapses.2.2 h10Board h10Board (by decide)).1⟩

end BorderBound

namespace BorderBound

/-! ### C9: the hash function versus standard MurmurHash2 -/

theorem getD_drop {α : Type} (l : List α) (off j : Nat) (d : α) :
    (l.drop off).getD j d = l.getD (off + j) d := by
  induction off generalizing l with
  | zero => simp
  | succ o ih =>
    cases l with
    | nil => simp
    | cons a as =>
      rw [show (a :: as).drop (o + 1) = as.drop o from rfl]
      rw [show o + 1 + j = (o + j) + 1 from by omega]
      rw [show (a :: as).getD ((o + j) + 1) d = as.getD (o + j) d from rfl]
      exact ih as

theorem getD_take {α : Type} (l : List α) (n j : Nat) (d : α) (h : j < n) :
    (l.take n).getD j d = l.getD j d := by
  induction n generalizing l j with
  | zero => omega
  | succ m ih =>
    cases l with
    | nil => simp
    | cons a as =>
      cases j with
      | zero => rfl
      | succ i =>
        rw [show (a :: as).take (m + 1) = a :: as.take m from rfl]
        rw [show (a :: as.take m).getD (i + 1) d = (as.take m).getD i d from rfl]
        rw [show (a :: as).getD (i + 1) d = as.getD i d from rfl]
        exact ih as i (by omega)

theorem readLE64_shift (data : List Nat) (t : Nat) :
    readLE64 data (8 + t) = readLE64 (data.drop 8) t := by
  unfold readLE64
  apply foldl_congr_mem
  intro k j _
  rw [getD_drop, show 8 + (t + j) = 8 + t + j from by omega]

theorem readLE64_take8 (data : List Nat) :
    readLE64 (data.take 8) 0 = readLE64 data 0 := by
  unfold readLE64
  apply foldl_congr_mem
  intro k j hj
  rw [Nat.zero_add, getD_take _ _ _ _ (List.mem_range.mp hj)]

theorem tail_fold_eq (data : List Nat) (off : Nat) :
    (List.range (data.length - off)).foldl
        (fun k j => Nat.lor k ((data.getD (off + j) 0) <<< (8 * j))) 0
      = readLEAll (data.drop off) := by
  unfold readLEAll
  rw [List.length_drop]
  apply foldl_congr_mem
  intro k j _
  rw [getD_drop]

theorem chunks_fold (m r : Nat) :
    ∀ (n : Nat) (data : List Nat), data.length ≤ n →
      (∀ h0 : Nat,
        (List.range (data.length / 8)).foldl
            (fun h i => mixStep m r h (readLE64 data (i * 8))) h0
          = (chunks8 data).1.foldl (fun h bl => mixStep m r h (readLE64 bl 0)) h0)
      ∧ (chunks8 data).2 = data.drop (data.length / 8 * 8) := by
  intro n
  induction n with
  | zero =>
    intro data hlen
    have hl : data.length = 0 := by omega
    rw [chunks8, dif_neg (by omega)]
    constructor
    · intro h0
      rw [hl]
      rfl
    · rw [hl]
      simp
  | succ n ih =>
    intro data hlen
    by_cases h8 : 8 ≤ data.length
    · have hrest : (data.drop 8).length ≤ n := by
        rw [List.length_drop]
        omega
      obtain ⟨ihf, iht⟩ := ih (data.drop 8) hrest
      have hdiv : data.length / 8 = (data.drop 8).length / 8 + 1 := by
        rw [List.length_drop]
        rw [Nat.div_eq_sub_div (by omega) h8]
      constructor
      · intro h0
        rw [chunks8, dif_pos h8]
        rw [hdiv, List.range_succ_eq_map, List.foldl_cons, List.foldl_map]
        rw [show (0 : Nat) * 8 = 0 from rfl]
        have hbody : (fun (h : Nat) (i : Nat) => mixStep m r h (readLE64 data (i.succ * 8)))
            = fun h i => mixStep m r h (readLE64 (data.drop 8) (i * 8)) := by
          funext h i
          rw [show i.succ * 8 = 8 + i * 8 from by omega, readLE64_shift]
        rw [hbody, ihf (mixStep m r h0 (readLE64 data 0))]
        rw [show List.foldl (fun h bl => mixStep m r h (readLE64 bl 0))
              (mixStep m r h0 (readLE64 data 0)) (chunks8 (data.drop 8)).1
            = List.foldl (fun h bl => mixStep m r h (readLE64 bl 0))
              (mixStep m r h0 (readLE64 (data.take 8) 0)) (chunks8 (data.drop 8)).1 from by
          rw [readLE64_take8]]
        rfl
      · rw [chunks8, dif_pos h8]
        show (chunks8 (data.drop 8)).2 = _
        rw [iht, List.drop_drop, hdiv]
        rw [show ((data.drop 8).length / 8 + 1) * 8 = (data.drop 8).length / 8 * 8 + 8 from by
          omega]
        rw [Nat.add_comm]
    · rw [chunks8, dif_neg h8]
      have hdiv : data.length / 8 = 0 := Nat.div_eq_of_lt (by omega)
      constructor
      · intro h0
        rw [hdiv]
        rfl
      · rw [hdiv]
        simp

/-- C9 (amended): `murmurhash64` equals the chunk-based description with
the stated seed, multiplier, shift and little-endian 8-byte reads, but
with unbounded intermediate arithmetic (one final 64-bit mask) and
full-block tail mixing that is skipped when the tail value is zero. -/
theorem murmurhash64_eq_amended (data : List Nat) :
    murmurhash64 data = murmurAmended data := by
  unfold murmurhash64 murmurAmended
  dsimp only
  obtain ⟨hfold, htail⟩ :=
    chunks_fold 0xC6A4A7935BD1E995 47 data.length data le_rfl
  rw [hfold, tail_fold_eq, htail]

/-- C9 counterexample: already on the empty byte string `murmurhash64`
differs from the standard MurmurHash2 64-bit value (the unmasked
`h *= m` in the finalizer lets high bits flow back through `h >> 47`). -/
theorem murmurhash64_ne_standard : murmurhash64 [] ≠ murmurStd64 [] := by decide

end BorderBound

namespace BorderBound

/-- C8: the top-level caller in `src/solver/main.js` never selects a
minimum-move board from `solveWithAllStrategiesParallel`'s return value.
When a worker returns a solved 1-move board the coordinator returns the
non-null array `[w8Board]`, and `main` — treating that array as a single
board — throws a `TypeError` on `newBoard.moveSequence`, selecting
nothing, whether or not an existing solution is present. -/
theorem mainChoose_never_selects_minimum :
    coordReturn [w8Board] = some [w8Board] ∧
    isSolvedB w8Board = true ∧
    w8Board.moveSequence.n = 1 ∧
    mainChoose (coordReturn [w8Board]) none = none ∧
    mainChoose (coordReturn [w8Board]) (some (w8Board, 10)) = none := by
  refine ⟨by decide, by decide, rfl, ?_, ?_⟩ <;> rw [show coordReturn [w8Board] = some [w8Board] from by decide] <;> rfl

end BorderBound

namespace BorderBound

/-! ### C7: copy isolation -/

theorem getD_append_left {α : Type} (l l2 : List α) (n : Nat) (d : α) (h : n < l.length) :
    (l ++ l2).getD n d = l.getD n d := by
  induction l generalizing n with
  | nil => simp at h
  | cons a as ih =>
    cases n with
    | zero => rfl
    | succ m =>
      simp only [List.length_cons] at h
      exact ih m (by omega)

theorem getD_append_len {α : Type} (l : List α) (x d : α) :
    (l ++ [x]).getD l.length d = x := by
  induction l with
  | nil => rfl
  | cons a as ih => simp [ih]

theorem getD_map_range {α : Type} (n i : Nat) (g : Nat → α) (d : α) (h : i < n) :
    ((List.range n).map g).getD i d = g i := by
  have hlen : i < ((List.range n).map g).length := by simp [h]
  rw [List.getD_eq_getElem?_getD, List.getElem?_eq_getElem hlen]
  simp

theorem allocCopies_len (refs : List Nat) :
    ∀ h : List Pos, (allocCopies h refs).2.length = refs.length := by
  induction refs with
  | nil => intro h; rfl
  | cons ref rest ih =>
    intro h
    unfold allocCopies
    simp [ih]

theorem allocCopies_heap_len (refs : List Nat) :
    ∀ h : List Pos, h.length ≤ (allocCopies h refs).1.length := by
  induction refs with
  | nil => intro h; exact le_rfl
  | cons ref rest ih =>
    intro h
    unfold allocCopies
    have := ih (h ++ [h.getD ref ⟨0, 0⟩])
    simp at this
    simp
    omega

theorem allocCopies_extends (refs : List Nat) :
    ∀ (h : List Pos) (j : Nat), j < h.length →
      (allocCopies h refs).1.getD j ⟨0, 0⟩ = h.getD j ⟨0, 0⟩ := by
  induction refs with
  | nil => intro h j _; rfl
  | cons ref rest ih =>
    intro h j hj
    unfold allocCopies
    dsimp only
    rw [ih (h ++ [h.getD ref ⟨0, 0⟩]) j (by simp; omega)]
    exact getD_append_left _ _ _ _ hj

theorem allocCopies_fresh (refs : List Nat) :
    ∀ (h : List Pos) (x : Nat), x ∈ (allocCopies h refs).2 → h.length ≤ x := by
  induction refs with
  | nil => intro h x hx; simp [allocCopies] at hx
  | cons ref rest ih =>
    intro h x hx
    unfold allocCopies at hx
    dsimp only at hx
    rcases List.mem_cons.mp hx with he | hm
    · omega
    · have := ih (h ++ [h.getD ref ⟨0, 0⟩]) x hm
      simp at this
      omega

theorem allocCopies_obs (refs : List Nat) :
    ∀ (h : List Pos) (i : Nat), i < refs.length → (∀ y ∈ refs, y < h.length) →
      (allocCopies h refs).1.getD ((allocCopies h refs).2.getD i 0) ⟨0, 0⟩
        = h.getD (refs.getD i 0) ⟨0, 0⟩ := by
  induction refs with
  | nil => intro h i hi _; simp at hi
  | cons ref rest ih =>
    intro h i hi hvalid
    unfold allocCopies
    dsimp only
    cases i with
    | zero =>
      show (allocCopies (h ++ [h.getD ref ⟨0, 0⟩]) rest).1.getD h.length ⟨0, 0⟩ = h.getD ref ⟨0, 0⟩
      rw [allocCopies_extends rest _ h.length (by simp)]
      exact getD_append_len h _ _
    | succ i2 =>
      show (allocCopies (h ++ [h.getD ref ⟨0, 0⟩]) rest).1.getD
          ((allocCopies (h ++ [h.getD ref ⟨0, 0⟩]) rest).2.getD i2 0) ⟨0, 0⟩
        = h.getD (rest.getD i2 0) ⟨0, 0⟩
      have hi2 : i2 < rest.length := by simpa using hi
      have hvalid2 : ∀ y ∈ rest, y < (h ++ [h.getD ref ⟨0, 0⟩]).length := by
        intro y hy
        have := hvalid y (List.mem_cons_of_mem _ hy)
        simp
        omega
      rw [ih _ i2 hi2 hvalid2]
      exact getD_append_left _ _ _ _ (hvalid _ (List.mem_cons_of_mem _
        (getD_mem rest i2 0 hi2)))

/-- C7 counterexample: `Board.copy` hands the copy the very same
`onlyReachableFrom` `Position` reference its source holds; setting that
position's `row` to `5` through the copy changes what the original board
observes (from `(15,15)` to `(5,15)`), so mutating the copy does affect
`B`. -/
theorem copy_shares_onlyReachableFrom :
    ((c7Copy.fields.getD 0 []).getD 0 defaultFieldR).orfRef
        = ((c7Board.fields.getD 0 []).getD 0 defaultFieldR).orfRef ∧
    obsOrf c7Heap c7Board 0 0 = ⟨15, 15⟩ ∧
    obsOrf (setPosRow c7Heap1 ((c7Copy.fields.getD 0 []).getD 0 defaultFieldR).orfRef 5)
        c7Board 0 0 = ⟨5, 15⟩ := by
  refine ⟨by decide, by decide, by decide⟩

/-- C7 (amended): `Board.copy` produces a structurally equal board —
same dimensions, flags and counter, identical cell values, identical
observed move positions — with freshly allocated move `Position` objects
and an unchanged heap for every pre-existing object; but each copied cell
keeps the *same* `onlyReachableFrom` reference as its source cell, so
that one `Position` object is shared between copy and original. -/
theorem copy_structure (b : BoardR) (h : List Pos)
    (hmov : ∀ x ∈ b.movRefs, x < h.length) :
    (copyR b h).1.rows = b.rows ∧
    (copyR b h).1.cols = b.cols ∧
    (copyR b h).1.n = b.n ∧
    (copyR b h).1.hasBombs = b.hasBombs ∧
    (copyR b h).1.movRefs.length = b.movRefs.length ∧
    (∀ r c : Nat, r < b.rows → c < b.cols →
      ((copyR b h).1.fields.getD r []).getD c defaultFieldR
        = (b.fields.getD r []).getD c defaultFieldR) ∧
    (∀ i : Nat, i < b.movRefs.length →
      (copyR b h).2.getD ((copyR b h).1.movRefs.getD i 0) ⟨0, 0⟩
          = h.getD (b.movRefs.getD i 0) ⟨0, 0⟩ ∧
        h.length ≤ (copyR b h).1.movRefs.getD i 0) ∧
    (∀ j : Nat, j < h.length → (copyR b h).2.getD j ⟨0, 0⟩ = h.getD j ⟨0, 0⟩) := by
  refine ⟨rfl, rfl, rfl, rfl, by simp [copyR, allocCopies_len], ?_, ?_, ?_⟩
  · intro r c hr hc
    unfold copyR
    dsimp only
    rw [getD_map_range _ _ _ _ hr, getD_map_range _ _ _ _ hc]
  · intro i hi
    constructor
    · exact allocCopies_obs b.movRefs h i hi hmov
    · apply allocCopies_fresh b.movRefs h
      apply getD_mem
      rw [allocCopies_len]
      exact hi
  · intro j hj
    exact allocCopies_extends b.movRefs h j hj

end BorderBound

namespace BorderBound

/-- Witness for the amended copy-structure theorem at a concrete board
with one recorded move. -/
theorem copy_structure_witness :
    (copyR c7wBoard c7Heap).1.rows = c7wBoard.rows ∧
    ((copyR c7wBoard c7Heap).1.fields.getD 0 []).getD 0 defaultFieldR
        = (c7wBoard.fields.getD 0 []).getD 0 defaultFieldR ∧
    (copyR c7wBoard c7Heap).2.getD ((copyR c7wBoard c7Heap).1.movRefs.getD 0 0) ⟨0, 0⟩
        = c7Heap.getD (c7wBoard.movRefs.getD 0 0) ⟨0, 0⟩ ∧
    c7Heap.length ≤ (copyR c7wBoard c7Heap).1.movRefs.getD 0 0 ∧
    (copyR c7wBoard c7Heap).2.getD 0 ⟨0, 0⟩ = c7Heap.getD 0 ⟨0, 0⟩ := by
  have hthm := copy_structure c7wBoard c7Heap (by decide)
  exact ⟨hthm.1, hthm.2.2.2.2.2.1 0 0 (by decide) (by decide),
    (hthm.2.2.2.2.2.2.1 0 (by decide)).1, (hthm.2.2.2.2.2.2.1 0 (by decide)).2,
    hthm.2.2.2.2.2.2.2 0 (by decide)⟩

end BorderBound

namespace BorderBound

/-! ### C2: the directional arrow rule -/

theorem getF_addMove (b : Board) (x y : Nat) (p q : Int) :
    getF (addMove b x y) p q = getF b p q := rfl

theorem rayF_addMove (x y : Nat) :
    ∀ (fuel : Nat) (b : Board) (dr dc r c : Int) (fr : Char),
      rayF fuel (addMove b x y) dr dc r c fr = rayF fuel b dr dc r c fr := by
  intro fuel
  induction fuel with
  | zero => intro b dr dc r c fr; rfl
  | succ m ih =>
    intro b dr dc r c fr
    show (if inB b r c && ((getF b r c).modifier == fr) then
        (r, c) :: rayF m (addMove b x y) dr dc (r + dr) (c + dc) fr else [])
      = (if inB b r c && ((getF b r c).modifier == fr) then
        (r, c) :: rayF m b dr dc (r + dr) (c + dc) fr else [])
    split
    · rw [ih]
    · rfl

theorem ahead_init {dr dc : Int} (hd : DirOk dr dc) (r0 c0 : Int) :
    ahead dr dc r0 c0 (r0 + dr) (c0 + dc) := by
  rcases hd with ⟨h1, h2⟩ | ⟨h1, h2⟩ | ⟨h1, h2⟩ | ⟨h1, h2⟩ <;> subst h1 <;> subst h2 <;>
    unfold ahead <;> constructor <;> ring_nf <;> omega

theorem ahead_step {dr dc r0 c0 r c : Int} (hd : DirOk dr dc)
    (h : ahead dr dc r0 c0 r c) : ahead dr dc r0 c0 (r + dr) (c + dc) := by
  rcases hd with ⟨h1, h2⟩ | ⟨h1, h2⟩ | ⟨h1, h2⟩ | ⟨h1, h2⟩ <;> subst h1 <;> subst h2 <;>
    unfold ahead at h ⊢ <;> constructor <;> ring_nf at h ⊢ <;> omega

theorem ahead_ne {dr dc r0 c0 r c : Int} (h : ahead dr dc r0 c0 r c) :
    r ≠ r0 ∨ c ≠ c0 := by
  by_contra hc
  push_neg at hc
  obtain ⟨h1, h2⟩ := hc
  subst h1
  subst h2
  have := h.1
  simp at this

theorem rayF_setMod_ahead {dr dc : Int} (hd : DirOk dr dc) (v : Char) :
    ∀ (fuel : Nat) (b : Board) (r0 c0 r c : Int) (fr : Char),
      ahead dr dc r0 c0 r c →
      rayF fuel (setMod b r0 c0 v) dr dc r c fr = rayF fuel b dr dc r c fr := by
  intro fuel
  induction fuel with
  | zero => intro b r0 c0 r c fr _; rfl
  | succ m ih =>
    intro b r0 c0 r c fr hah
    rw [rayF, rayF, inB_setMod, getF_setMod_ne v (ahead_ne hah)]
    split
    · rw [ih b r0 c0 _ _ fr (ahead_step hd hah)]
    · rfl

theorem fillLoop_eq_writeRay {dr dc : Int} (hd : DirOk dr dc) (fr tc : Char) :
    ∀ (fuel : Nat) (b : Board) (r c : Int) (ch : Bool),
      fillLoop fuel b dr dc r c fr tc ch
        = (writeCells b (rayF fuel b dr dc r c fr) tc,
           ch || !(rayF fuel b dr dc r c fr).isEmpty) := by
  intro fuel
  induction fuel with
  | zero =>
    intro b r c ch
    show (b, ch) = (writeCells b [] tc, ch || !(List.isEmpty []))
    simp [writeCells]
  | succ m ih =>
    intro b r c ch
    rw [fillLoop, rayF]
    by_cases hc : (inB b r c && ((getF b r c).modifier == fr)) = true
    · rw [if_pos hc, if_pos hc, ih]
      have hray : rayF m (setMod b r c tc) dr dc (r + dr) (c + dc) fr
          = rayF m b dr dc (r + dr) (c + dc) fr := by
        by_cases htc : tc = fr
        · subst htc
          have hmod : (getF b r c).modifier = tc := by
            have := ((Bool.and_eq_true ..).mp hc).2
            simpa using this
          rw [setMod_same hmod]
        · exact rayF_setMod_ahead hd tc m b r c _ _ fr (ahead_init hd r c)
      rw [hray]
      show (writeCells (setMod b r c tc) (rayF m b dr dc (r + dr) (c + dc) fr) tc, _) = _
      simp [writeCells]
    · rw [if_neg hc, if_neg hc]
      simp [writeCells]

theorem rayF_nil {b : Board} {dr dc r c : Int} {fr : Char}
    (hc : ¬((inB b r c && ((getF b r c).modifier == fr)) = true)) :
    ∀ m, rayF m b dr dc r c fr = [] := by
  intro m
  cases m with
  | zero => rfl
  | succ k => rw [rayF, if_neg hc]

theorem rayF_cons {b : Board} {dr dc r c : Int} {fr : Char} (m : Nat)
    (hc : (inB b r c && ((getF b r c).modifier == fr)) = true) :
    rayF (m + 1) b dr dc r c fr = (r, c) :: rayF m b dr dc (r + dr) (c + dc) fr := by
  rw [rayF, if_pos hc]

theorem rayF_len_bound {dr dc : Int} (hd : DirOk dr dc) (fr : Char) :
    ∀ (fuel : Nat) (b : Board) (r c : Int),
      (rayF fuel b dr dc r c fr).length ≤ dirBound b dr dc r c := by
  intro fuel
  induction fuel with
  | zero => intro b r c; simp [rayF]
  | succ m ih =>
    intro b r c
    by_cases hc : (inB b r c && ((getF b r c).modifier == fr)) = true
    · rw [rayF_cons m hc]
      have hin : inB b r c = true := ((Bool.and_eq_true ..).mp hc).1
      have hb : (0 ≤ r ∧ r < (b.rows : Int)) ∧ 0 ≤ c ∧ c < (b.cols : Int) := by
        simpa [inB, and_assoc] using hin
      have hrec := ih b (r + dr) (c + dc)
      simp only [List.length_cons]
      rcases hd with ⟨h1, h2⟩ | ⟨h1, h2⟩ | ⟨h1, h2⟩ | ⟨h1, h2⟩ <;> subst h1 <;> subst h2 <;>
        unfold dirBound at hrec ⊢ <;> norm_num at hrec ⊢ <;> omega
    · rw [rayF_nil hc]
      simp

theorem rayF_fuel_mono :
    ∀ (n k : Nat) (b : Board) (dr dc r c : Int) (fr : Char),
      (rayF n b dr dc r c fr).length < n →
      rayF (n + k) b dr dc r c fr = rayF n b dr dc r c fr := by
  intro n
  induction n with
  | zero => intro k b dr dc r c fr h; simp [rayF] at h
  | succ m ih =>
    intro k b dr dc r c fr h
    rw [show m + 1 + k = (m + k) + 1 from by omega]
    by_cases hc : (inB b r c && ((getF b r c).modifier == fr)) = true
    · rw [rayF_cons _ hc, rayF_cons _ hc]
      rw [rayF_cons _ hc] at h
      simp only [List.length_cons] at h
      rw [ih k b dr dc _ _ fr (by omega)]
    · rw [rayF_nil hc, rayF_nil hc]

theorem rayF_ge_stable {dr dc : Int} (hd : DirOk dr dc) (b : Board) (r c : Int) (fr : Char)
    (n : Nat) (hn : b.rows + b.cols ≤ n) :
    rayF n b dr dc r c fr = rayF (b.rows + b.cols) b dr dc r c fr := by
  by_cases hc : (inB b r c && ((getF b r c).modifier == fr)) = true
  · have hin : inB b r c = true := ((Bool.and_eq_true ..).mp hc).1
    have hb : (0 ≤ r ∧ r < (b.rows : Int)) ∧ 0 ≤ c ∧ c < (b.cols : Int) := by
      simpa [inB, and_assoc] using hin
    have hlen := rayF_len_bound hd fr (b.rows + b.cols) b r c
    have hlt : (rayF (b.rows + b.cols) b dr dc r c fr).length < b.rows + b.cols := by
      rcases hd with ⟨h1, h2⟩ | ⟨h1, h2⟩ | ⟨h1, h2⟩ | ⟨h1, h2⟩ <;> subst h1 <;> subst h2 <;>
        unfold dirBound at hlen <;> norm_num at hlen <;> omega
    rw [show n = (b.rows + b.cols) + (n - (b.rows + b.cols)) from by omega]
    exact rayF_fuel_mono _ _ b dr dc r c fr hlt
  · rw [rayF_nil hc, rayF_nil hc]

theorem rayF_ne_nil_of_cond {b : Board} {dr dc r c : Int} {fr : Char} {F : Nat}
    (hF : 1 ≤ F) (hc : (inB b r c && ((getF b r c).modifier == fr)) = true) :
    rayF F b dr dc r c fr ≠ [] := by
  obtain ⟨m, rfl⟩ : ∃ m, F = m + 1 := ⟨F - 1, by omega⟩
  rw [rayF_cons m hc]
  simp

end BorderBound

namespace BorderBound

theorem fill_spec {dr dc : Int} (hd : DirOk dr dc) (b : Board) (r c : Int) (color : Char)
    (n : Nat) (hn : b.rows + b.cols ≤ n) :
    (fill b dr dc r c color =
      if inB b (r + dr) (c + dc) then
        if (getF b (r + dr) (c + dc)).modifier = color then
          (writeCells b (rayF n b dr dc (r + dr) (c + dc) color) '0', true)
        else if (getF b (r + dr) (c + dc)).modifier = '0' then
          (writeCells b (rayF n b dr dc (r + dr) (c + dc) '0') color, true)
        else (b, false)
      else (b, false)) ∧
    (inB b (r + dr) (c + dc) = true →
      ((getF b (r + dr) (c + dc)).modifier = color →
        rayF n b dr dc (r + dr) (c + dc) color ≠ []) ∧
      ((getF b (r + dr) (c + dc)).modifier = '0' →
        rayF n b dr dc (r + dr) (c + dc) '0' ≠ [])) := by
  have hF1 : inB b (r + dr) (c + dc) = true → 1 ≤ b.rows + b.cols := by
    intro h1
    have hb : (0 ≤ r + dr ∧ r + dr < (b.rows : Int)) ∧
        0 ≤ c + dc ∧ c + dc < (b.cols : Int) := by
      simpa [inB, and_assoc] using h1
    omega
  constructor
  · unfold fill
    dsimp only
    by_cases h1 : inB b (r + dr) (c + dc) = true
    · rw [if_pos h1, if_pos h1]
      by_cases h2 : (getF b (r + dr) (c + dc)).modifier = color
      · have hcond : (inB b (r + dr) (c + dc) &&
            ((getF b (r + dr) (c + dc)).modifier == color)) = true := by
          simp [h1, h2]
        rw [if_pos (by simpa using h2), if_pos h2,
          rayF_ge_stable hd b _ _ color n hn,
          fillLoop_eq_writeRay hd color '0' (b.rows + b.cols) b _ _ false]
        have hne : rayF (b.rows + b.cols) b dr dc (r + dr) (c + dc) color ≠ [] :=
          rayF_ne_nil_of_cond (hF1 h1) hcond
        cases hray : rayF (b.rows + b.cols) b dr dc (r + dr) (c + dc) color with
        | nil => exact absurd hray hne
        | cons p ps => simp
      · by_cases h3 : (getF b (r + dr) (c + dc)).modifier = '0'
        · have hcond : (inB b (r + dr) (c + dc) &&
              ((getF b (r + dr) (c + dc)).modifier == '0')) = true := by
            simp [h1, h3]
          rw [if_neg (by simpa using h2), if_pos (by simpa using h3), if_neg h2, if_pos h3,
            rayF_ge_stable hd b _ _ '0' n hn,
            fillLoop_eq_writeRay hd '0' color (b.rows + b.cols) b _ _ false]
          have hne : rayF (b.rows + b.cols) b dr dc (r + dr) (c + dc) '0' ≠ [] :=
            rayF_ne_nil_of_cond (hF1 h1) hcond
          cases hray : rayF (b.rows + b.cols) b dr dc (r + dr) (c + dc) '0' with
          | nil => exact absurd hray hne
          | cons p ps => simp
        · rw [if_neg (by simpa using h2), if_neg (by simpa using h3), if_neg h2, if_neg h3]
    · rw [if_neg h1, if_neg h1]
  · intro h1
    constructor
    · intro h2
      rw [rayF_ge_stable hd b _ _ color n hn]
      exact rayF_ne_nil_of_cond (hF1 h1) (by simp [h1, h2])
    · intro h3
      rw [rayF_ge_stable hd b _ _ '0' n hn]
      exact rayF_ne_nil_of_cond (hF1 h1) (by simp [h1, h3])

end BorderBound

namespace BorderBound

theorem arrow_case (b : Board) (row col : Nat) (n : Nat) (dr dc : Int) (hd : DirOk dr dc)
    (hn : b.rows + b.cols ≤ n)
    (hclick : click b row col = some (fill (addMove b row col) dr dc (row : Int) (col : Int)
      (getF b (row : Int) (col : Int)).color)) :
    (click b row col =
      some (
        if inB b ((row : Int) + dr) ((col : Int) + dc) then
          if (getF b ((row : Int) + dr) ((col : Int) + dc)).modifier
              = (getF b (row : Int) (col : Int)).color then
            (writeCells (addMove b row col)
              (rayF n b dr dc ((row : Int) + dr) ((col : Int) + dc)
                (getF b (row : Int) (col : Int)).color) '0', true)
          else if (getF b ((row : Int) + dr) ((col : Int) + dc)).modifier = '0' then
            (writeCells (addMove b row col)
              (rayF n b dr dc ((row : Int) + dr) ((col : Int) + dc) '0')
              (getF b (row : Int) (col : Int)).color, true)
          else (addMove b row col, false)
        else (addMove b row col, false))) ∧
    (inB b ((row : Int) + dr) ((col : Int) + dc) = true →
      (getF b ((row : Int) + dr) ((col : Int) + dc)).modifier
          = (getF b (row : Int) (col : Int)).color →
      rayF n b dr dc ((row : Int) + dr) ((col : Int) + dc)
        (getF b (row : Int) (col : Int)).color ≠ []) ∧
    (inB b ((row : Int) + dr) ((col : Int) + dc) = true →
      (getF b ((row : Int) + dr) ((col : Int) + dc)).modifier
          ≠ (getF b (row : Int) (col : Int)).color →
      (getF b ((row : Int) + dr) ((col : Int) + dc)).modifier = '0' →
      rayF n b dr dc ((row : Int) + dr) ((col : Int) + dc) '0' ≠ []) := by
  have hfs := fill_spec hd (addMove b row col) (row : Int) (col : Int)
    (getF b (row : Int) (col : Int)).color n hn
  refine ⟨?_, ?_, ?_⟩
  · rw [hclick, hfs.1]
    simp only [rayF_addMove]
    rfl
  · intro h1 h2
    have hne := (hfs.2 h1).1 h2
    rw [rayF_addMove] at hne
    exact hne
  · intro h1 _ h3
    have hne := (hfs.2 h1).2 h3
    rw [rayF_addMove] at hne
    exact hne

/-- C2: the directional arrow rule, for every board, every in-bounds
click on a static-arrow cell and every fuel large enough to hold the full
run (`rows + cols ≤ n`). -/
theorem directional_arrow_rule (b : Board) (row col : Nat) (n : Nat)
    (hrow : row < b.rows) (hcol : col < b.cols)
    (hmod : isStaticArrowF (getF b (row : Int) (col : Int)) = true)
    (hn : b.rows + b.cols ≤ n) : ArrowSpec b row col n := by
  have hmods : (((getF b (row : Int) (col : Int)).modifier = 'L' ∨
      (getF b (row : Int) (col : Int)).modifier = 'R') ∨
      (getF b (row : Int) (col : Int)).modifier = 'U') ∨
      (getF b (row : Int) (col : Int)).modifier = 'D' := by
    unfold isStaticArrowF at hmod
    simpa using hmod
  unfold ArrowSpec
  dsimp only
  rcases hmods with ((h | h) | h) | h
  · rw [h, show arrowDelta 'L' = ((0 : Int), (-1 : Int)) from rfl]
    dsimp only
    refine arrow_case b row col n 0 (-1) (Or.inr (Or.inr (Or.inl ⟨rfl, rfl⟩))) hn ?_
    unfold click
    rw [if_pos ⟨hrow, hcol⟩]
    dsimp only
    rw [show getF (addMove b row col) (row : Int) (col : Int)
        = getF b (row : Int) (col : Int) from rfl, h]
    rfl
  · rw [h, show arrowDelta 'R' = ((0 : Int), (1 : Int)) from rfl]
    dsimp only
    refine arrow_case b row col n 0 1 (Or.inr (Or.inr (Or.inr ⟨rfl, rfl⟩))) hn ?_
    unfold click
    rw [if_pos ⟨hrow, hcol⟩]
    dsimp only
    rw [show getF (addMove b row col) (row : Int) (col : Int)
        = getF b (row : Int) (col : Int) from rfl, h]
    rfl
  · rw [h, show arrowDelta 'U' = ((-1 : Int), (0 : Int)) from rfl]
    dsimp only
    refine arrow_case b row col n (-1) 0 (Or.inl ⟨rfl, rfl⟩) hn ?_
    unfold click
    rw [if_pos ⟨hrow, hcol⟩]
    dsimp only
    rw [show getF (addMove b row col) (row : Int) (col : Int)
        = getF b (row : Int) (col : Int) from rfl, h]
    rfl
  · rw [h, show arrowDelta 'D' = ((1 : Int), (0 : Int)) from rfl]
    dsimp only
    refine arrow_case b row col n 1 0 (Or.inr (Or.inl ⟨rfl, rfl⟩)) hn ?_
    unfold click
    rw [if_pos ⟨hrow, hcol⟩]
    dsimp only
    rw [show getF (addMove b row col) (row : Int) (col : Int)
        = getF b (row : Int) (col : Int) from rfl, h]
    rfl

/-- Witness: the directional rule at the scenario-S1 board (`"rr"` /
`"R0"`), clicking the arrow at `(0,0)` with fuel `3 = rows + cols`. -/
theorem directional_arrow_rule_witness : ArrowSpec s1Board 0 0 3 :=
  directional_arrow_rule s1Board 0 0 3 (by decide) (by decide) (by decide) (by decide)

end BorderBound

namespace BorderBound

/-! ### C4: wall immutability -/

theorem setMod_notPresent {b : Board} {r c : Int} (v : Char) (hp : ¬present b r c) :
    setMod b r c v = b := by
  unfold setMod
  split
  case isTrue hin =>
    unfold present at hp
    push_neg at hp
    by_cases hr : r.toNat < b.fields.length
    · have hc := hp hr
      have hrow : listModify b.fields r.toNat
          (fun row => listModify row c.toNat fun f => { f with modifier := v }) = b.fields := by
        apply listModify_self _ _ _ []
        exact listModify_oob _ _ _ (by omega)
      simp [hrow]
    · have hrow : listModify b.fields r.toNat
          (fun row => listModify row c.toNat fun f => { f with modifier := v }) = b.fields :=
        listModify_oob _ _ _ (by omega)
      simp [hrow]
  case isFalse => rfl

theorem setMod_color (b : Board) (r c : Int) (v : Char) (p q : Int) :
    (getF (setMod b r c v) p q).color = (getF b p q).color := by
  by_cases hpq : p = r ∧ q = c
  · obtain ⟨hp, hq⟩ := hpq
    subst hp
    subst hq
    by_cases hin : inB b p q = true
    · by_cases hpr : present b p q
      · rw [getF_setMod_eq v hin hpr]
      · rw [setMod_notPresent v hpr]
    · unfold setMod
      rw [if_neg hin]
  · rw [getF_setMod_ne v (by tauto)]

theorem setMod_ne_of_mod {b : Board} {r c p q : Int} (v : Char)
    (h : (getF b p q).modifier ≠ (getF b r c).modifier) :
    getF (setMod b r c v) p q = getF b p q := by
  by_cases hpq : p = r ∧ q = c
  · obtain ⟨hp, hq⟩ := hpq
    subst hp
    subst hq
    exact absurd rfl h
  · exact getF_setMod_ne v (by tauto)

theorem fillLoop_cell_frame {dr dc : Int} {fr tc : Char} :
    ∀ (fuel : Nat) (b : Board) (r c : Int) (ch : Bool) (p q : Int),
      ((getF b p q).modifier ≠ fr →
        getF (fillLoop fuel b dr dc r c fr tc ch).1 p q = getF b p q) ∧
      (getF (fillLoop fuel b dr dc r c fr tc ch).1 p q).color = (getF b p q).color := by
  intro fuel
  induction fuel with
  | zero => intro b r c ch p q; exact ⟨fun _ => rfl, rfl⟩
  | succ m ih =>
    intro b r c ch p q
    rw [fillLoop]
    by_cases hc : (inB b r c && ((getF b r c).modifier == fr)) = true
    · rw [if_pos hc]
      have hmodrc : (getF b r c).modifier = fr := by
        have := ((Bool.and_eq_true ..).mp hc).2
        simpa using this
      constructor
      · intro hne
        have hset : getF (setMod b r c tc) p q = getF b p q :=
          setMod_ne_of_mod tc (by rw [hmodrc]; exact hne)
        have := (ih (setMod b r c tc) (r + dr) (c + dc) true p q).1
        rw [hset] at this
        exact this hne
      · have := (ih (setMod b r c tc) (r + dr) (c + dc) true p q).2
        rw [this, setMod_color]
    · rw [if_neg hc]
      exact ⟨fun _ => rfl, rfl⟩

theorem fill_cell_frame (b : Board) (dr dc r c : Int) (color : Char) (p q : Int) :
    ((getF b p q).modifier ≠ color → (getF b p q).modifier ≠ '0' →
      getF (fill b dr dc r c color).1 p q = getF b p q) ∧
    (getF (fill b dr dc r c color).1 p q).color = (getF b p q).color := by
  unfold fill
  dsimp only
  split
  · split
    · exact ⟨fun h1 _ => (fillLoop_cell_frame _ b _ _ false p q).1 h1,
        (fillLoop_cell_frame _ b _ _ false p q).2⟩
    · split
      · exact ⟨fun _ h2 => (fillLoop_cell_frame _ b _ _ false p q).1 h2,
          (fillLoop_cell_frame _ b _ _ false p q).2⟩
      · exact ⟨fun _ _ => rfl, rfl⟩
  · exact ⟨fun _ _ => rfl, rfl⟩

theorem floodF_cell_frame {fr tc : Char} :
    ∀ (fuel : Nat) (b : Board) (r c : Int) (b2 : Board) (ch : Bool),
      floodF fuel b r c fr tc = some (b2, ch) →
      ∀ p q : Int,
        ((getF b p q).modifier ≠ fr → getF b2 p q = getF b p q) ∧
        (getF b2 p q).color = (getF b p q).color := by
  intro fuel
  induction fuel with
  | zero => intro b r c b2 ch h; simp [floodF] at h
  | succ n ihn =>
    intro b r c b2 ch h
    rw [floodF] at h
    by_cases hc : (inB b r c && ((getF b r c).modifier == fr)) = true
    · rw [if_pos hc] at h
      have hmodrc : (getF b r c).modifier = fr := by
        have := ((Bool.and_eq_true ..).mp hc).2
        simpa using this
      cases h1 : floodF n (setMod b r c tc) (r + 1) c fr tc with
      | none => rw [h1] at h; simp at h
      | some p1 =>
        obtain ⟨b1, ch1⟩ := p1
        rw [h1] at h; dsimp only at h
        cases h2 : floodF n b1 (r - 1) c fr tc with
        | none => rw [h2] at h; simp at h
        | some p2 =>
          obtain ⟨bb2, ch2⟩ := p2
          rw [h2] at h; dsimp only at h
          cases h3 : floodF n bb2 r (c + 1) fr tc with
          | none => rw [h3] at h; simp at h
          | some p3 =>
            obtain ⟨b3, ch3⟩ := p3
            rw [h3] at h; dsimp only at h
            cases h4 : floodF n b3 r (c - 1) fr tc with
            | none => rw [h4] at h; simp at h
            | some p4 =>
              obtain ⟨b4, ch4⟩ := p4
              rw [h4] at h; dsimp only at h
              have e : b4 = b2 := congrArg Prod.fst (Option.some.inj h)
              subst e
              intro p q
              have s0m := @setMod_ne_of_mod b r c p q tc
              have s0c := setMod_color b r c tc p q
              have f1 := ihn _ _ _ _ _ h1 p q
              have f2 := ihn _ _ _ _ _ h2 p q
              have f3 := ihn _ _ _ _ _ h3 p q
              have f4 := ihn _ _ _ _ _ h4 p q
              constructor
              · intro hne
                have hs : getF (setMod b r c tc) p q = getF b p q :=
                  s0m (by rw [hmodrc]; exact hne)
                have e1 := f1.1 (by rw [hs]; exact hne)
                have e2 := f2.1 (by rw [e1, hs]; exact hne)
                have e3 := f3.1 (by rw [e2, e1, hs]; exact hne)
                have e4 := f4.1 (by rw [e3, e2, e1, hs]; exact hne)
                rw [e4, e3, e2, e1, hs]
              · rw [f4.2, f3.2, f2.2, f1.2, s0c]
    · rw [if_neg hc] at h
      have e : b = b2 := congrArg Prod.fst (Option.some.inj h)
      subst e
      intro p q
      exact ⟨fun _ => rfl, rfl⟩

theorem floodSeq_cell_frame {fr tc : Char} :
    ∀ (ps : List (Int × Int)) (fuel : Nat) (b : Board) (b2 : Board) (ch : Bool),
      floodSeq fuel b ps fr tc = some (b2, ch) →
      ∀ p q : Int,
        ((getF b p q).modifier ≠ fr → getF b2 p q = getF b p q) ∧
        (getF b2 p q).color = (getF b p q).color := by
  intro ps
  induction ps with
  | nil =>
    intro fuel b b2 ch h
    rw [floodSeq] at h
    have e : b = b2 := congrArg Prod.fst (Option.some.inj h)
    subst e
    intro p q
    exact ⟨fun _ => rfl, rfl⟩
  | cons hd tl ihp =>
    intro fuel b b2 ch h
    rw [floodSeq] at h
    cases h1 : floodF fuel b hd.1 hd.2 fr tc with
    | none => rw [h1] at h; simp at h
    | some p1 =>
      obtain ⟨b1, ch1⟩ := p1
      rw [h1] at h; dsimp only at h
      cases h2 : floodSeq fuel b1 tl fr tc with
      | none => rw [h2] at h; simp at h
      | some p2 =>
        obtain ⟨bb2, ch2⟩ := p2
        rw [h2] at h; dsimp only at h
        have e : bb2 = b2 := congrArg Prod.fst (Option.some.inj h)
        subst e
        intro p q
        have f1 := floodF_cell_frame _ _ _ _ _ _ h1 p q
        have f2 := ihp _ _ _ _ h2 p q
        constructor
        · intro hne
          have e1 := f1.1 hne
          have e2 := f2.1 (by rw [e1]; exact hne)
          rw [e2, e1]
        · rw [f2.2, f1.2]

theorem foldl_invar {β : Type} (g : Board → β → Board) (P : Board → Prop)
    (hg : ∀ bb x, P bb → P (g bb x)) :
    ∀ (l : List β) (b : Board), P b → P (l.foldl g b) := by
  intro l
  induction l with
  | nil => intro b hb; exact hb
  | cons x xs ih => intro b hb; exact ih (g b x) (hg b x hb)

theorem bombPaint_cell_frame (b : Board) (row col : Nat) (v : Char) (p q : Int) :
    ((getF b p q).modifier = 'X' → getF (bombPaint b row col v) p q = getF b p q) ∧
    (getF (bombPaint b row col v) p q).color = (getF b p q).color := by
  constructor
  · intro hX
    unfold bombPaint
    apply foldl_invar _ (fun bb => getF bb p q = getF b p q)
    · intro bb dr hbb
      apply foldl_invar _ (fun bb2 => getF bb2 p q = getF b p q)
      · intro bb2 dc hbb2
        dsimp only
        split
        case isTrue hcnd =>
          rw [setMod_ne_of_mod v ?_, hbb2]
          have hne := ((Bool.and_eq_true ..).mp hcnd).2
          rw [hbb2, hX]
          intro hcontra
          rw [← hcontra] at hne
          simp at hne
        case isFalse => exact hbb2
      · exact hbb
    · rfl
  · unfold bombPaint
    apply foldl_invar _ (fun bb => (getF bb p q).color = (getF b p q).color)
    · intro bb dr hbb
      apply foldl_invar _ (fun bb2 => (getF bb2 p q).color = (getF b p q).color)
      · intro bb2 dc hbb2
        dsimp only
        split
        · rw [setMod_color]; exact hbb2
        · exact hbb2
      · exact hbb
    · rfl

end BorderBound

namespace BorderBound

theorem clickFlood_cell_frame {b : Board} {row col : Nat} {color : Char} {b2 : Board}
    {ch : Bool} (hcol : color ≠ 'X')
    (h : clickFlood b row col color = some (b2, ch)) :
    (∀ p q : Int, (getF b p q).modifier = 'X' → getF b2 p q = getF b p q) ∧
    (∀ p q : Int, (getF b2 p q).color = (getF b p q).color) := by
  unfold clickFlood at h
  dsimp only at h
  cases h1 : floodSeq (b.rows * b.cols + 1) b (nbrsI (row : Int) (col : Int)) '0' color with
  | none => rw [h1] at h; simp at h
  | some p1 =>
    obtain ⟨b4, ch4⟩ := p1
    rw [h1] at h; dsimp only at h
    have f1 := floodSeq_cell_frame _ _ _ _ _ h1
    by_cases hch : ch4 = true
    · rw [if_pos hch] at h
      have e : b4 = b2 := congrArg Prod.fst (Option.some.inj h)
      subst e
      exact ⟨fun p q hX => (f1 p q).1 (by rw [hX]; decide), fun p q => (f1 p q).2⟩
    · rw [if_neg hch] at h
      have f2 := floodSeq_cell_frame _ _ _ _ _ h
      constructor
      · intro p q hX
        have e1 := (f1 p q).1 (by rw [hX]; decide)
        have e2 := (f2 p q).1 (by rw [e1, hX]; exact fun hc2 => hcol hc2.symm)
        rw [e2, e1]
      · intro p q
        rw [(f2 p q).2, (f1 p q).2]

theorem click_cell_frame {b : Board} {row col : Nat} {b2 : Board} {ch : Bool}
    (hv : ∀ p q : Int, (getF b p q).color ≠ 'X')
    (h : click b row col = some (b2, ch)) :
    (∀ p q : Int, (getF b p q).modifier = 'X' → getF b2 p q = getF b p q) ∧
    (∀ p q : Int, (getF b2 p q).color = (getF b p q).color) := by
  have hcol : (getF b (row : Int) (col : Int)).color ≠ 'X' := hv _ _
  unfold click at h
  split at h
  case isTrue hb =>
    dsimp only at h
    rw [show getF (addMove b row col) (row : Int) (col : Int)
        = getF b (row : Int) (col : Int) from rfl] at h
    have harrow : ∀ (dr dc : Int),
        some (fill (addMove b row col) dr dc (row : Int) (col : Int)
          (getF b (row : Int) (col : Int)).color) = some (b2, ch) →
        (∀ p q : Int, (getF b p q).modifier = 'X' → getF b2 p q = getF b p q) ∧
        (∀ p q : Int, (getF b2 p q).color = (getF b p q).color) := by
      intro dr dc harr
      have e : (fill (addMove b row col) dr dc (row : Int) (col : Int)
          (getF b (row : Int) (col : Int)).color).1 = b2 :=
        congrArg Prod.fst (Option.some.inj harr)
      constructor
      · intro p q hX
        rw [← e]
        exact (fill_cell_frame (addMove b row col) dr dc _ _ _ p q).1
          (by rw [getF_addMove, hX]; exact fun hc2 => hcol hc2.symm)
          (by rw [getF_addMove, hX]; decide)
      · intro p q
        rw [← e]
        exact (fill_cell_frame (addMove b row col) dr dc _ _ _ p q).2
    have hrot : ∀ (dr dc : Int) (nm : Char),
        some (rotFire (addMove b row col) row col
          (getF b (row : Int) (col : Int)).color dr dc nm) = some (b2, ch) →
        (getF b (row : Int) (col : Int)).modifier ≠ 'X' →
        (∀ p q : Int, (getF b p q).modifier = 'X' → getF b2 p q = getF b p q) ∧
        (∀ p q : Int, (getF b2 p q).color = (getF b p q).color) := by
      intro dr dc nm hro hmX
      have e : (rotFire (addMove b row col) row col
          (getF b (row : Int) (col : Int)).color dr dc nm).1 = b2 :=
        congrArg Prod.fst (Option.some.inj hro)
      unfold rotFire at e
      dsimp only at e
      constructor
      · intro p q hX
        have hne : ¬(p = (row : Int) ∧ q = (col : Int)) := by
          intro hpq
          obtain ⟨hp, hq⟩ := hpq
          subst hp
          subst hq
          exact hmX hX
        have hfp := (fill_cell_frame (addMove b row col) dr dc (row : Int) (col : Int)
            (getF b (row : Int) (col : Int)).color p q).1
          (by rw [getF_addMove, hX]; exact fun hc2 => hcol hc2.symm)
          (by rw [getF_addMove, hX]; decide)
        rw [← e, getF_setMod_ne nm (by tauto), hfp]
        rfl
      · intro p q
        rw [← e, setMod_color]
        exact (fill_cell_frame (addMove b row col) dr dc (row : Int) (col : Int)
          (getF b (row : Int) (col : Int)).color p q).2
    split at h
    case h_1 heq => exact harrow (-1) 0 h
    case h_2 heq => exact harrow 1 0 h
    case h_3 heq => exact harrow 0 (-1) h
    case h_4 heq => exact harrow 0 1 h
    case h_5 heq =>
      exact @clickFlood_cell_frame (addMove b row col) row col _ b2 ch hcol h
    case h_6 heq =>
      have e : bombPaint (addMove b row col) row col
          (getF b (row : Int) (col : Int)).color = b2 :=
        congrArg Prod.fst (Option.some.inj h)
      constructor
      · intro p q hX
        rw [← e]
        exact (bombPaint_cell_frame (addMove b row col) row col _ p q).1 hX
      · intro p q
        rw [← e]
        exact (bombPaint_cell_frame (addMove b row col) row col _ p q).2
    case h_7 heq => exact hrot (-1) 0 'x' h (by rw [heq]; decide)
    case h_8 heq => exact hrot 1 0 'a' h (by rw [heq]; decide)
    case h_9 heq => exact hrot 0 (-1) 'w' h (by rw [heq]; decide)
    case h_10 heq => exact hrot 0 1 's' h (by rw [heq]; decide)
    case h_11 x heq =>
      have e : addMove b row col = b2 := congrArg Prod.fst (Option.some.inj h)
      exact ⟨fun p q _ => by rw [← e]; rfl, fun p q => by rw [← e, getF_addMove]⟩
  case isFalse => exact absurd h (by simp)

theorem applyClicks_X_frame (ms : List (Nat × Nat)) :
    ∀ (b b2 : Board), (∀ p q : Int, (getF b p q).color ≠ 'X') →
      applyClicks b ms = some b2 →
      ∀ p q : Int, (getF b p q).modifier = 'X' → getF b2 p q = getF b p q := by
  induction ms with
  | nil =>
    intro b b2 _ h p q _
    rw [applyClicks] at h
    rw [← Option.some.inj h]
  | cons m rest ih =>
    intro b b2 hv h p q hX
    rw [applyClicks] at h
    cases h1 : click b m.1 m.2 with
    | none => rw [h1] at h; simp at h
    | some pr =>
      obtain ⟨b1, ch1⟩ := pr
      rw [h1] at h
      dsimp only at h
      have hf := click_cell_frame hv h1
      have hv1 : ∀ p2 q2 : Int, (getF b1 p2 q2).color ≠ 'X' := fun p2 q2 => by
        rw [hf.2 p2 q2]; exact hv p2 q2
      have hpres := hf.1 p q hX
      have hrest := ih b1 b2 hv1 h p q (by rw [hpres]; exact hX)
      rw [hrest, hpres]

/-- C4: wall immutability.  For any board whose cell colors respect the
data model (no cell color is the wall character `'X'`), any sequence of
clicks that completes, and any position holding a wall (`modifier 'X'`),
the wall cell keeps its color and modifier (its whole cell value is
unchanged — no ray, flood, bomb or rotation ever writes it). -/
theorem wall_immutability (ms : List (Nat × Nat)) (b b2 : Board) (p q : Int)
    (hv : ∀ p2 q2 : Int, (getF b p2 q2).color ≠ 'X')
    (h : applyClicks b ms = some b2)
    (hX : (getF b p q).modifier = 'X') : getF b2 p q = getF b p q :=
  applyClicks_X_frame ms b b2 hv h p q hX

theorem colors_ok_of_all {b : Board}
    (hall : b.fields.all (fun row => row.all (fun f => !(f.color == 'X'))) = true) :
    ∀ p q : Int, (getF b p q).color ≠ 'X' := by
  intro p q
  rw [getF_def]
  split
  case isTrue hin =>
    by_cases hr : p.toNat < b.fields.length
    · by_cases hc2 : q.toNat < (b.fields.getD p.toNat []).length
      · have hrow : b.fields.getD p.toNat [] ∈ b.fields := getD_mem _ _ _ hr
        have hcell : (b.fields.getD p.toNat []).getD q.toNat defaultField
            ∈ b.fields.getD p.toNat [] := getD_mem _ _ _ hc2
        rw [List.all_eq_true] at hall
        have := hall _ hrow
        rw [List.all_eq_true] at this
        have := this _ hcell
        simpa using this
      · rw [List.getD_eq_default _ _ (by omega)]
        decide
    · have hz : b.fields.getD p.toNat [] = [] := List.getD_eq_default _ _ (by omega)
      rw [hz]
      simp [List.getD]
      decide
  case isFalse => decide

/-- Witness: after clicking the bomb on `c4Board`, the wall at `(0, 1)`
is unchanged. -/
theorem wall_immutability_witness : getF c4After 0 1 = getF c4Board 0 1 :=
  wall_immutability [(0, 0)] c4Board c4After 0 1
    (colors_ok_of_all (by decide)) (by decide) (by decide)

end BorderBound

namespace BorderBound

/-! ### C3: characterising the flood rule.  `Reach` describes the
4-connected region the recursive `flood` visits; the lemmas below show
a flood pass paints exactly that region, using `countIn` as the
termination measure that proves the fuel `rows * cols + 1` never runs
out when `fromColor ≠ toColor`. -/

theorem listModify_all {α : Type} (g : α → α) (p : α → Bool)
    (hg : ∀ x, p x = true → p (g x) = true) :
    ∀ (l : List α) (n : Nat), l.all p = true → (listModify l n g).all p = true := by
  intro l
  induction l with
  | nil => intro n _; rfl
  | cons a as ih =>
    intro n hl
    rw [List.all_cons, Bool.and_eq_true] at hl
    cases n with
    | zero =>
      rw [listModify, List.all_cons, Bool.and_eq_true]
      exact ⟨hg a hl.1, hl.2⟩
    | succ m =>
      rw [listModify, List.all_cons, Bool.and_eq_true]
      exact ⟨hl.1, ih m hl.2⟩

theorem WFB_setMod {b : Board} (r c : Int) (v : Char) (hw : WFB b = true) :
    WFB (setMod b r c v) = true := by
  have h1 := (Bool.and_eq_true ..).mp hw
  rw [WFB, setMod_rows, setMod_cols, setMod_fields]
  split
  case isFalse => exact hw
  case isTrue hin =>
    rw [Bool.and_eq_true]
    refine ⟨?_, ?_⟩
    · rw [listModify_length]
      exact h1.1
    · refine listModify_all _ _ ?_ _ _ h1.2
      intro x hx
      simpa [listModify_length] using hx

theorem floodF_WFB :
    ∀ (fuel : Nat) (b : Board) (r c : Int) (fr tc : Char) (b2 : Board) (ch : Bool),
      floodF fuel b r c fr tc = some (b2, ch) → WFB b = true → WFB b2 = true := by
  intro fuel
  induction fuel with
  | zero => intro b r c fr tc b2 ch h _; simp [floodF] at h
  | succ n ihn =>
    intro b r c fr tc b2 ch h hw
    rw [floodF] at h
    by_cases hg : (inB b r c && ((getF b r c).modifier == fr)) = true
    · rw [if_pos hg] at h
      cases h1 : floodF n (setMod b r c tc) (r + 1) c fr tc with
      | none => rw [h1] at h; simp at h
      | some p1 =>
        obtain ⟨b1, ch1⟩ := p1
        rw [h1] at h; dsimp only at h
        cases h2 : floodF n b1 (r - 1) c fr tc with
        | none => rw [h2] at h; simp at h
        | some p2 =>
          obtain ⟨bb2, ch2⟩ := p2
          rw [h2] at h; dsimp only at h
          cases h3 : floodF n bb2 r (c + 1) fr tc with
          | none => rw [h3] at h; simp at h
          | some p3 =>
            obtain ⟨b3, ch3⟩ := p3
            rw [h3] at h; dsimp only at h
            cases h4 : floodF n b3 r (c - 1) fr tc with
            | none => rw [h4] at h; simp at h
            | some p4 =>
              obtain ⟨b4, ch4⟩ := p4
              rw [h4] at h; dsimp only at h
              have e : b4 = b2 := congrArg Prod.fst (Option.some.inj h)
              exact e ▸ (ihn _ _ _ _ _ _ _ h4 (ihn _ _ _ _ _ _ _ h3
                (ihn _ _ _ _ _ _ _ h2 (ihn _ _ _ _ _ _ _ h1 (WFB_setMod r c tc hw)))))
    · rw [if_neg hg] at h
      have e : b = b2 := congrArg Prod.fst (Option.some.inj h)
      exact e ▸ hw

theorem floodSeq_WFB :
    ∀ (ps : List (Int × Int)) (fuel : Nat) (b : Board) (fr tc : Char) (b2 : Board)
      (ch : Bool), floodSeq fuel b ps fr tc = some (b2, ch) → WFB b = true →
      WFB b2 = true := by
  intro ps
  induction ps with
  | nil =>
    intro fuel b fr tc b2 ch h hw
    rw [floodSeq] at h
    have e : b = b2 := congrArg Prod.fst (Option.some.inj h)
    exact e ▸ hw
  | cons p ps ihp =>
    intro fuel b fr tc b2 ch h hw
    rw [floodSeq] at h
    cases h1 : floodF fuel b p.1 p.2 fr tc with
    | none => rw [h1] at h; simp at h
    | some p1 =>
      obtain ⟨b1, ch1⟩ := p1
      rw [h1] at h; dsimp only at h
      cases h2 : floodSeq fuel b1 ps fr tc with
      | none => rw [h2] at h; simp at h
      | some p2 =>
        obtain ⟨bb2, ch2⟩ := p2
        rw [h2] at h; dsimp only at h
        have e : bb2 = b2 := congrArg Prod.fst (Option.some.inj h)
        exact e ▸ ihp _ _ _ _ _ _ h2 (floodF_WFB _ _ _ _ _ _ _ _ h1 hw)

theorem OkP_guard (b : Board) (fr : Char) (r c : Int) :
    (inB b r c && ((getF b r c).modifier == fr)) = true ↔ OkP b fr (r, c) := by
  rw [Bool.and_eq_true, beq_iff_eq]
  exact Iff.rfl

theorem Reach_start_ok {b : Board} {fr : Char} {s t : Int × Int}
    (h : Reach b fr s t) : OkP b fr s := by
  induction h with
  | base h0 => exact h0
  | step _ _ _ ih => exact ih

theorem Reach_end_ok {b : Board} {fr : Char} {s t : Int × Int}
    (h : Reach b fr s t) : OkP b fr t := by
  induction h with
  | base h0 => exact h0
  | step _ hok _ _ => exact hok

theorem Reach_trans {b : Board} {fr : Char} {p q t : Int × Int}
    (h1 : Reach b fr p q) (h2 : Reach b fr q t) : Reach b fr p t := by
  induction h2 with
  | base _ => exact h1
  | step _ hok hnb ih => exact Reach.step ih hok hnb

theorem Reach_mono {b b2 : Board} {fr : Char}
    (hOk : ∀ p : Int × Int, OkP b2 fr p → OkP b fr p) {s t : Int × Int}
    (h : Reach b2 fr s t) : Reach b fr s t := by
  induction h with
  | base h0 => exact Reach.base (hOk _ h0)
  | step _ hok hnb ih => exact Reach.step ih (hOk _ hok) hnb

theorem PaintSpec_congr {b b2 : Board} {tc : Char} {S S2 : Int × Int → Prop}
    (hiff : ∀ t, S t ↔ S2 t) (h : PaintSpec b tc S b2) : PaintSpec b tc S2 b2 :=
  ⟨fun p q hs => h.1 p q ((hiff (p, q)).mpr hs),
   fun p q hs => h.2 p q (fun hx => hs ((hiff (p, q)).mp hx))⟩

theorem PaintSpec_trans {b bm b2 : Board} {tc : Char} {S1 S2 : Int × Int → Prop}
    (h1 : PaintSpec b tc S1 bm) (h2 : PaintSpec bm tc S2 b2) :
    PaintSpec b tc (fun t => S1 t ∨ S2 t) b2 := by
  constructor
  · intro p q hs
    by_cases hs2 : S2 (p, q)
    · rw [h2.1 p q hs2]
      by_cases hs1 : S1 (p, q)
      · rw [h1.1 p q hs1]
      · rw [h1.2 p q hs1]
    · rcases hs with hs1 | hs1
      · rw [h2.2 p q hs2, h1.1 p q hs1]
      · exact absurd hs1 hs2
  · intro p q hs
    rw [not_or] at hs
    rw [h2.2 p q hs.2, h1.2 p q hs.1]

theorem OkP_of_paint {b b2 : Board} {fr tc : Char} {S : Int × Int → Prop}
    (hne : tc ≠ fr) (hr : b2.rows = b.rows) (hc : b2.cols = b.cols)
    (h : PaintSpec b tc S b2) : ∀ p : Int × Int, OkP b2 fr p → OkP b fr p := by
  intro p hok
  by_cases hs : S p
  · exfalso
    have hmod := congrArg Field.modifier (h.1 p.1 p.2 hs)
    rw [hok.2] at hmod
    exact hne hmod.symm
  · refine ⟨?_, ?_⟩
    · rw [← inB_eq_of_dims hr hc]
      exact hok.1
    · rw [← h.2 p.1 p.2 hs]
      exact hok.2

theorem OkP_to_paint {b b2 : Board} {fr tc : Char} {S : Int × Int → Prop}
    (hr : b2.rows = b.rows) (hc : b2.cols = b.cols)
    (h : PaintSpec b tc S b2) {p : Int × Int} (hs : ¬ S p) (hok : OkP b fr p) :
    OkP b2 fr p :=
  ⟨by rw [inB_eq_of_dims hr hc]; exact hok.1,
   by rw [h.2 p.1 p.2 hs]; exact hok.2⟩

theorem map_sum_le {α : Type} (f g : α → Nat) :
    ∀ l : List α, (∀ x ∈ l, f x ≤ g x) → (l.map f).sum ≤ (l.map g).sum := by
  intro l
  induction l with
  | nil => intro _; exact Nat.le_refl 0
  | cons x xs ih =>
    intro h
    rw [List.map_cons, List.map_cons, List.sum_cons, List.sum_cons]
    exact Nat.add_le_add (h x (List.mem_cons_self x xs))
      (ih (fun z hz => h z (List.mem_cons_of_mem _ hz)))

theorem map_sum_lt {α : Type} (f g : α → Nat) (y : α) (hlt : f y < g y) :
    ∀ l : List α, y ∈ l → (∀ x ∈ l, f x ≤ g x) → (l.map f).sum < (l.map g).sum := by
  intro l
  induction l with
  | nil => intro hy; exact absurd hy (List.not_mem_nil y)
  | cons x xs ih =>
    intro hy h
    rw [List.map_cons, List.map_cons, List.sum_cons, List.sum_cons]
    rcases List.mem_cons.mp hy with he | hm
    · have hxs := map_sum_le f g xs (fun z hz => h z (List.mem_cons_of_mem _ hz))
      have hx : f x < g x := he ▸ hlt
      omega
    · have hx := h x (List.mem_cons_self x xs)
      have hxs := ih hm (fun z hz => h z (List.mem_cons_of_mem _ hz))
      omega

theorem filter_len_le {α : Type} (p q : α → Bool) :
    ∀ l : List α, (∀ x ∈ l, p x = true → q x = true) →
      (l.filter p).length ≤ (l.filter q).length := by
  intro l
  induction l with
  | nil => intro _; exact Nat.le_refl 0
  | cons x xs ih =>
    intro h
    have ih2 := ih (fun z hz hp => h z (List.mem_cons_of_mem _ hz) hp)
    rw [List.filter_cons, List.filter_cons]
    by_cases hp : p x = true
    · rw [if_pos hp, if_pos (h x (List.mem_cons_self x xs) hp)]
      rw [List.length_cons, List.length_cons]
      omega
    · rw [if_neg hp]
      by_cases hq : q x = true
      · rw [if_pos hq, List.length_cons]
        omega
      · rw [if_neg hq]
        exact ih2

theorem filter_len_lt {α : Type} (p q : α → Bool) (y : α)
    (hqy : q y = true) (hpy : p y = false) :
    ∀ l : List α, y ∈ l → (∀ x ∈ l, p x = true → q x = true) →
      (l.filter p).length < (l.filter q).length := by
  intro l
  induction l with
  | nil => intro hy; exact absurd hy (List.not_mem_nil y)
  | cons x xs ih =>
    intro hy h
    rw [List.filter_cons, List.filter_cons]
    rcases List.mem_cons.mp hy with he | hm
    · have hple := filter_len_le p q xs (fun z hz hp => h z (List.mem_cons_of_mem _ hz) hp)
      rw [if_neg (by rw [← he]; simp [hpy]), if_pos (he ▸ hqy)]
      rw [List.length_cons]
      omega
    · have ih2 := ih hm (fun z hz hp => h z (List.mem_cons_of_mem _ hz) hp)
      by_cases hp : p x = true
      · rw [if_pos hp, if_pos (h x (List.mem_cons_self x xs) hp)]
        rw [List.length_cons, List.length_cons]
        omega
      · rw [if_neg hp]
        by_cases hq : q x = true
        · rw [if_pos hq, List.length_cons]
          omega
        · rw [if_neg hq]
          exact ih2

theorem countIn_mono {b b2 : Board} {fr : Char}
    (hr : b2.rows = b.rows) (hc : b2.cols = b.cols)
    (h : ∀ r c : Nat, ((getF b2 (r : Int) (c : Int)).modifier == fr) = true →
      ((getF b (r : Int) (c : Int)).modifier == fr) = true) :
    countIn b2 fr ≤ countIn b fr := by
  rw [countIn, countIn, hr, hc]
  apply map_sum_le
  intro r _
  apply filter_len_le
  intro c _ hp
  exact h r c hp

theorem countIn_le_of_paint {b b2 : Board} {fr tc : Char} {S : Int × Int → Prop}
    (hne : tc ≠ fr) (hr : b2.rows = b.rows) (hc : b2.cols = b.cols)
    (P : PaintSpec b tc S b2) : countIn b2 fr ≤ countIn b fr := by
  apply countIn_mono hr hc
  intro rr cc hmm
  rw [beq_iff_eq] at hmm ⊢
  by_cases hs : S ((rr : Int), (cc : Int))
  · exfalso
    have hmod := congrArg Field.modifier (P.1 (rr : Int) (cc : Int) hs)
    rw [hmm] at hmod
    exact hne hmod.symm
  · rw [← P.2 (rr : Int) (cc : Int) hs]
    exact hmm

theorem sum_le_card_mul : ∀ (l : List Nat) (k : Nat), (∀ x ∈ l, x ≤ k) →
    l.sum ≤ l.length * k := by
  intro l
  induction l with
  | nil => intro k _; simp
  | cons x xs ih =>
    intro k h
    rw [List.sum_cons, List.length_cons]
    have h1 := ih k (fun z hz => h z (List.mem_cons_of_mem _ hz))
    have h2 := h x (List.mem_cons_self x xs)
    have h3 : (xs.length + 1) * k = xs.length * k + k := by ring
    omega

theorem countIn_le (b : Board) (fr : Char) : countIn b fr ≤ b.rows * b.cols := by
  rw [countIn]
  have h1 := sum_le_card_mul
    ((List.range b.rows).map (fun (r : Nat) =>
      ((List.range b.cols).filter (fun (c : Nat) =>
        (getF b (r : Int) (c : Int)).modifier == fr)).length)) b.cols ?_
  · rw [List.length_map, List.length_range] at h1
    exact h1
  · intro x hx
    rw [List.mem_map] at hx
    obtain ⟨rr, _, hrr⟩ := hx
    rw [← hrr]
    calc ((List.range b.cols).filter (fun (c : Nat) =>
        (getF b (rr : Int) (c : Int)).modifier == fr)).length
        ≤ (List.range b.cols).length := List.length_filter_le _ _
      _ = b.cols := List.length_range b.cols

theorem countIn_setMod_lt {b : Board} {r c : Int} {fr tc : Char}
    (hok : OkP b fr (r, c)) (hne : tc ≠ fr) (hp : present b r c) :
    countIn (setMod b r c tc) fr < countIn b fr := by
  have hin : inB b r c = true := hok.1
  have hb : (0 ≤ r ∧ r < (b.rows : Int)) ∧ 0 ≤ c ∧ c < (b.cols : Int) := by
    simpa [inB, and_assoc] using hin
  have hrr : ((r.toNat : Nat) : Int) = r := by omega
  have hcc : ((c.toNat : Nat) : Int) = c := by omega
  rw [countIn, countIn, setMod_rows, setMod_cols]
  apply map_sum_lt _ _ r.toNat ?strict _ ?mem ?le
  case mem => exact List.mem_range.mpr (by omega)
  case strict =>
    apply filter_len_lt _ _ c.toNat ?qy ?py _ ?cmem ?imp
    case qy =>
      rw [beq_iff_eq, hrr, hcc]
      exact hok.2
    case py =>
      rw [hrr, hcc]
      have := getF_setMod_eq tc hin hp
      rw [this]
      simp [hne]
    case cmem => exact List.mem_range.mpr (by omega)
    case imp =>
      intro cc _ hmm
      by_cases hcne : (cc : Int) = c
      · exfalso
        rw [hrr, hcne, getF_setMod_eq tc hin hp] at hmm
        simp [hne] at hmm
      · rw [hrr, getF_setMod_ne tc (Or.inr hcne)] at hmm
        rw [hrr]
        exact hmm
  case le =>
    intro x _
    apply filter_len_le
    intro cc _ hmm
    by_cases hxr : (x : Int) = r
    · by_cases hcne : (cc : Int) = c
      · exfalso
        rw [hxr, hcne, getF_setMod_eq tc hin hp] at hmm
        simp [hne] at hmm
      · rw [hxr, getF_setMod_ne tc (Or.inr hcne)] at hmm
        rw [hxr]
        exact hmm
    · rw [getF_setMod_ne tc (Or.inl hxr)] at hmm
      exact hmm

end BorderBound

namespace BorderBound

/-- One recursive `flood` run with `fromColor ≠ toColor` always succeeds
when the fuel exceeds the matching-cell count, reports `changed` exactly
when the start cell matched, and rewrites exactly the 4-connected region
reachable from the start through matching cells. -/
theorem floodF_char {fr tc : Char} (hne : tc ≠ fr) :
    ∀ (fuel : Nat) (b : Board) (r c : Int), WFB b = true → countIn b fr < fuel →
      ∃ b2 ch, floodF fuel b r c fr tc = some (b2, ch) ∧
        (ch = true ↔ OkP b fr (r, c)) ∧
        PaintSpec b tc (Reach b fr (r, c)) b2 := by
  intro fuel
  induction fuel with
  | zero => intro b r c _ hcnt; exact absurd hcnt (Nat.not_lt_zero _)
  | succ n ihn =>
    intro b r c hw hcnt
    cases hok : (inB b r c && ((getF b r c).modifier == fr)) with
    | false =>
      have hstop := floodF_stop n b r c fr tc hok
      refine ⟨b, false, hstop, ?_, ?_, ?_⟩
      · constructor
        · intro hh; exact absurd hh (by decide)
        · intro hh
          exact absurd ((OkP_guard b fr r c).mpr hh) (by rw [hok]; decide)
      · intro p q hs
        exact absurd ((OkP_guard b fr r c).mpr (Reach_start_ok hs)) (by rw [hok]; decide)
      · intro p q _; rfl
    | true =>
      have hokP : OkP b fr (r, c) := (OkP_guard b fr r c).mp hok
      have hpres : present b r c := present_of_WFB hw hokP.1
      have Q0 : PaintSpec b tc (fun t => t = (r, c)) (setMod b r c tc) := by
        constructor
        · intro p q hs
          have hp1 : p = r := congrArg Prod.fst hs
          have hq1 : q = c := congrArg Prod.snd hs
          subst hp1
          subst hq1
          exact getF_setMod_eq tc hokP.1 hpres
        · intro p q hs
          apply getF_setMod_ne
          by_cases hpr : p = r
          · refine Or.inr (fun hqc => hs ?_)
            rw [hpr, hqc]
          · exact Or.inl hpr
      have hw0 : WFB (setMod b r c tc) = true := WFB_setMod r c tc hw
      have hcnt0 : countIn (setMod b r c tc) fr < n := by
        have := countIn_setMod_lt hokP hne hpres
        omega
      obtain ⟨b1, ch1, e1, iff1, P1⟩ := ihn (setMod b r c tc) (r + 1) c hw0 hcnt0
      have hd1 := floodF_dimsMovesEq _ _ _ _ _ _ _ _ e1
      have hrows1 : b1.rows = b.rows := hd1.1.trans (setMod_rows b r c tc)
      have hcols1 : b1.cols = b.cols := hd1.2.1.trans (setMod_cols b r c tc)
      have hw1 : WFB b1 = true := floodF_WFB _ _ _ _ _ _ _ _ e1 hw0
      have hcnt1 : countIn b1 fr < n := by
        have := countIn_le_of_paint hne hd1.1 hd1.2.1 P1
        omega
      have Q1 := PaintSpec_trans Q0 P1
      obtain ⟨bx2, ch2, e2, iff2, P2⟩ := ihn b1 (r - 1) c hw1 hcnt1
      have hd2 := floodF_dimsMovesEq _ _ _ _ _ _ _ _ e2
      have hrows2 : bx2.rows = b.rows := hd2.1.trans hrows1
      have hcols2 : bx2.cols = b.cols := hd2.2.1.trans hcols1
      have hw2 : WFB bx2 = true := floodF_WFB _ _ _ _ _ _ _ _ e2 hw1
      have hcnt2 : countIn bx2 fr < n := by
        have := countIn_le_of_paint hne hd2.1 hd2.2.1 P2
        omega
      have Q2 := PaintSpec_trans Q1 P2
      obtain ⟨bx3, ch3, e3, iff3, P3⟩ := ihn bx2 r (c + 1) hw2 hcnt2
      have hd3 := floodF_dimsMovesEq _ _ _ _ _ _ _ _ e3
      have hrows3 : bx3.rows = b.rows := hd3.1.trans hrows2
      have hcols3 : bx3.cols = b.cols := hd3.2.1.trans hcols2
      have hw3 : WFB bx3 = true := floodF_WFB _ _ _ _ _ _ _ _ e3 hw2
      have hcnt3 : countIn bx3 fr < n := by
        have := countIn_le_of_paint hne hd3.1 hd3.2.1 P3
        omega
      have Q3 := PaintSpec_trans Q2 P3
      obtain ⟨bx4, ch4, e4, iff4, P4⟩ := ihn bx3 r (c - 1) hw3 hcnt3
      have Q4 := PaintSpec_trans Q3 P4
      have hT0 : ∀ p : Int × Int, OkP (setMod b r c tc) fr p → OkP b fr p :=
        OkP_of_paint hne (setMod_rows b r c tc) (setMod_cols b r c tc) Q0
      have hT1 : ∀ p : Int × Int, OkP b1 fr p → OkP b fr p :=
        OkP_of_paint hne hrows1 hcols1 Q1
      have hT2 : ∀ p : Int × Int, OkP bx2 fr p → OkP b fr p :=
        OkP_of_paint hne hrows2 hcols2 Q2
      have hT3 : ∀ p : Int × Int, OkP bx3 fr p → OkP b fr p :=
        OkP_of_paint hne hrows3 hcols3 Q3
      have hiff : ∀ t : Int × Int,
          ((((t = (r, c) ∨ Reach (setMod b r c tc) fr (r + 1, c) t) ∨
            Reach b1 fr (r - 1, c) t) ∨ Reach bx2 fr (r, c + 1) t) ∨
            Reach bx3 fr (r, c - 1) t) ↔ Reach b fr (r, c) t := by
        intro t
        constructor
        · intro ht
          rcases ht with (((ht | ht) | ht) | ht) | ht
          · subst ht
            exact Reach.base hokP
          · have h2 := Reach_mono hT0 ht
            exact Reach_trans
              (Reach.step (Reach.base hokP) (Reach_start_ok h2) (by simp [nbrsI])) h2
          · have h2 := Reach_mono hT1 ht
            exact Reach_trans
              (Reach.step (Reach.base hokP) (Reach_start_ok h2) (by simp [nbrsI])) h2
          · have h2 := Reach_mono hT2 ht
            exact Reach_trans
              (Reach.step (Reach.base hokP) (Reach_start_ok h2) (by simp [nbrsI])) h2
          · have h2 := Reach_mono hT3 ht
            exact Reach_trans
              (Reach.step (Reach.base hokP) (Reach_start_ok h2) (by simp [nbrsI])) h2
        · intro ht
          induction ht with
          | base _ => exact Or.inl (Or.inl (Or.inl (Or.inl rfl)))
          | step hre hok2 hnb ih =>
            rename_i q2 t2
            by_cases hst : (((t2 = (r, c) ∨ Reach (setMod b r c tc) fr (r + 1, c) t2) ∨
                Reach b1 fr (r - 1, c) t2) ∨ Reach bx2 fr (r, c + 1) t2) ∨
                Reach bx3 fr (r, c - 1) t2
            · exact hst
            · exfalso
              apply hst
              have hn0 : ¬ (t2 = (r, c)) := fun hx =>
                hst (Or.inl (Or.inl (Or.inl (Or.inl hx))))
              have hn1 : ¬ (t2 = (r, c) ∨ Reach (setMod b r c tc) fr (r + 1, c) t2) :=
                fun hx => hst (Or.inl (Or.inl (Or.inl hx)))
              have hn2 : ¬ ((t2 = (r, c) ∨ Reach (setMod b r c tc) fr (r + 1, c) t2) ∨
                  Reach b1 fr (r - 1, c) t2) := fun hx => hst (Or.inl (Or.inl hx))
              have hn3 : ¬ (((t2 = (r, c) ∨ Reach (setMod b r c tc) fr (r + 1, c) t2) ∨
                  Reach b1 fr (r - 1, c) t2) ∨ Reach bx2 fr (r, c + 1) t2) :=
                fun hx => hst (Or.inl hx)
              have hok0 : OkP (setMod b r c tc) fr t2 :=
                OkP_to_paint (setMod_rows b r c tc) (setMod_cols b r c tc) Q0 hn0 hok2
              have hok1 : OkP b1 fr t2 := OkP_to_paint hrows1 hcols1 Q1 hn1 hok2
              have hoky2 : OkP bx2 fr t2 := OkP_to_paint hrows2 hcols2 Q2 hn2 hok2
              have hok3 : OkP bx3 fr t2 := OkP_to_paint hrows3 hcols3 Q3 hn3 hok2
              rcases ih with (((hq | hq) | hq) | hq) | hq
              · subst hq
                simp only [nbrsI, List.mem_cons, List.not_mem_nil, or_false] at hnb
                rcases hnb with hnb | hnb | hnb | hnb
                · refine Or.inl (Or.inl (Or.inl (Or.inr ?_)))
                  rw [hnb]
                  exact Reach.base (hnb ▸ hok0)
                · refine Or.inl (Or.inl (Or.inr ?_))
                  rw [hnb]
                  exact Reach.base (hnb ▸ hok1)
                · refine Or.inl (Or.inr ?_)
                  rw [hnb]
                  exact Reach.base (hnb ▸ hoky2)
                · refine Or.inr ?_
                  rw [hnb]
                  exact Reach.base (hnb ▸ hok3)
              · exact Or.inl (Or.inl (Or.inl (Or.inr (Reach.step hq hok0 hnb))))
              · exact Or.inl (Or.inl (Or.inr (Reach.step hq hok1 hnb)))
              · exact Or.inl (Or.inr (Reach.step hq hoky2 hnb))
              · exact Or.inr (Reach.step hq hok3 hnb)
      refine ⟨bx4, true, ?_, ?_, ?_⟩
      · rw [floodF, if_pos hok, e1]
        dsimp only
        rw [e2]
        dsimp only
        rw [e3]
        dsimp only
        rw [e4]
      · exact ⟨fun _ => hokP, fun _ => rfl⟩
      · exact PaintSpec_congr hiff Q4

end BorderBound

namespace BorderBound

/-- Painting one region that is closed under matching neighbours does not
change which cells later floods reach, beyond removing the painted
region itself. -/
theorem union_step {b b1 : Board} {fr tc : Char} {S1 : Int × Int → Prop}
    (hne : tc ≠ fr) (hr : b1.rows = b.rows) (hc : b1.cols = b.cols)
    (P : PaintSpec b tc S1 b1)
    (hcl : ∀ q t : Int × Int, S1 q → OkP b fr t → t ∈ nbrsI q.1 q.2 → S1 t)
    (s t : Int × Int) : (S1 t ∨ Reach b1 fr s t) ↔ (S1 t ∨ Reach b fr s t) := by
  constructor
  · rintro (h | h)
    · exact Or.inl h
    · exact Or.inr (Reach_mono (OkP_of_paint hne hr hc P) h)
  · rintro (h | h)
    · exact Or.inl h
    · induction h with
      | base h0 =>
        by_cases hs : S1 s
        · exact Or.inl hs
        · exact Or.inr (Reach.base (OkP_to_paint hr hc P hs h0))
      | step hre hok hnb ih =>
        rename_i q2 t2
        by_cases hs : S1 t2
        · exact Or.inl hs
        · rcases ih with h1 | h1
          · exact Or.inl (hcl q2 t2 h1 hok hnb)
          · exact Or.inr (Reach.step h1 (OkP_to_paint hr hc P hs hok) hnb)

/-- Sequentially flooding from a list of starts (with `fromColor ≠
toColor` and enough fuel) paints exactly the union of the regions
reachable from the starts in the original board, and reports `changed`
exactly when some start cell matched. -/
theorem floodSeq_char {fr tc : Char} (hne : tc ≠ fr) :
    ∀ (ps : List (Int × Int)) (fuel : Nat) (b : Board), WFB b = true →
      countIn b fr < fuel →
      ∃ b2 ch, floodSeq fuel b ps fr tc = some (b2, ch) ∧
        (ch = true ↔ ∃ p ∈ ps, OkP b fr p) ∧
        PaintSpec b tc (fun t => ∃ p ∈ ps, Reach b fr p t) b2 := by
  intro ps
  induction ps with
  | nil =>
    intro fuel b hw hcnt
    refine ⟨b, false, rfl, ?_, ?_, ?_⟩
    · constructor
      · intro hh; exact absurd hh (by decide)
      · rintro ⟨p, hp, _⟩; exact absurd hp (List.not_mem_nil p)
    · rintro p q ⟨x, hx, _⟩; exact absurd hx (List.not_mem_nil x)
    · intro p q _; rfl
  | cons p ps ih =>
    intro fuel b hw hcnt
    obtain ⟨b1, ch1, e1, iff1, P1⟩ := floodF_char hne fuel b p.1 p.2 hw hcnt
    have hd1 := floodF_dimsMovesEq _ _ _ _ _ _ _ _ e1
    have hw1 := floodF_WFB _ _ _ _ _ _ _ _ e1 hw
    have hcnt1 : countIn b1 fr < fuel := by
      have := countIn_le_of_paint hne hd1.1 hd1.2.1 P1
      omega
    obtain ⟨b2, ch2, e2, iff2, P2⟩ := ih fuel b1 hw1 hcnt1
    have hu := union_step hne hd1.1 hd1.2.1 P1
      (fun q t hq hok hnb => Reach.step hq hok hnb)
    refine ⟨b2, ch1 || ch2, ?_, ?_, ?_⟩
    · rw [floodSeq, e1]
      dsimp only
      rw [e2]
    · constructor
      · intro hch
        rw [Bool.or_eq_true] at hch
        rcases hch with h | h
        · exact ⟨p, List.mem_cons_self p ps, iff1.mp h⟩
        · obtain ⟨q, hq, hoq⟩ := iff2.mp h
          exact ⟨q, List.mem_cons_of_mem p hq,
            OkP_of_paint hne hd1.1 hd1.2.1 P1 q hoq⟩
      · rintro ⟨q, hq, hoq⟩
        rw [Bool.or_eq_true]
        rcases List.mem_cons.mp hq with he | hm
        · exact Or.inl (iff1.mpr (he ▸ hoq))
        · by_cases hreach : Reach b fr (p.1, p.2) q
          · exact Or.inl (iff1.mpr (Reach_start_ok hreach))
          · exact Or.inr (iff2.mpr ⟨q, hm, OkP_to_paint hd1.1 hd1.2.1 P1 hreach hoq⟩)
    · refine PaintSpec_congr ?_ (PaintSpec_trans P1 P2)
      intro t
      constructor
      · rintro (h | ⟨q, hq, h⟩)
        · exact ⟨p, List.mem_cons_self p ps, h⟩
        · exact ⟨q, List.mem_cons_of_mem p hq,
            Reach_mono (OkP_of_paint hne hd1.1 hd1.2.1 P1) h⟩
      · rintro ⟨q, hq, h⟩
        rcases List.mem_cons.mp hq with he | hm
        · exact Or.inl (he ▸ h)
        · rcases (hu q t).mpr (Or.inr h) with h1 | h1
          · exact Or.inl h1
          · exact Or.inr ⟨q, hm, h1⟩

/-- The `F` case of `Board.click` (both passes), characterised against
the pre-click grid, for any `fromColor`-distinct click color. -/
theorem clickFlood_char {b : Board} (row col : Nat) {color : Char}
    (hw : WFB b = true) (h0 : color ≠ '0') :
    ∃ b2 ch, clickFlood b row col color = some (b2, ch) ∧
      ((∃ p ∈ nbrsI (row : Int) (col : Int), OkP b '0' p) →
        PaintSpec b color
          (fun t => ∃ p ∈ nbrsI (row : Int) (col : Int), Reach b '0' p t) b2 ∧
        ch = true) ∧
      (¬ (∃ p ∈ nbrsI (row : Int) (col : Int), OkP b '0' p) →
        PaintSpec b '0'
          (fun t => ∃ p ∈ nbrsI (row : Int) (col : Int), Reach b color p t) b2 ∧
        (ch = true ↔ ∃ p ∈ nbrsI (row : Int) (col : Int), OkP b color p)) := by
  have hcnt : countIn b '0' < b.rows * b.cols + 1 :=
    Nat.lt_succ_of_le (countIn_le b '0')
  obtain ⟨b4, ch, e1, iff1, P1⟩ :=
    floodSeq_char h0 (nbrsI (row : Int) (col : Int)) (b.rows * b.cols + 1) b hw hcnt
  cases hch : ch with
  | true =>
    subst hch
    refine ⟨b4, true, ?_, ?_, ?_⟩
    · rw [clickFlood]
      rw [e1]
      dsimp only
      rw [if_pos rfl]
    · intro _
      exact ⟨P1, rfl⟩
    · intro hnex
      exact absurd (iff1.mp rfl) hnex
  | false =>
    subst hch
    have hnex : ¬ ∃ p ∈ nbrsI (row : Int) (col : Int), OkP b '0' p := by
      intro hex
      exact absurd (iff1.mpr hex) (by decide)
    have hempty : ∀ t : Int × Int,
        ¬ ∃ p ∈ nbrsI (row : Int) (col : Int), Reach b '0' p t := by
      rintro t ⟨p, hp, hrt⟩
      exact hnex ⟨p, hp, Reach_start_ok hrt⟩
    have heq4 : ∀ p q : Int, getF b4 p q = getF b p q := fun p q =>
      P1.2 p q (hempty (p, q))
    have hd1 := floodSeq_dimsMovesEq _ _ _ _ _ _ _ e1
    have hw4 := floodSeq_WFB _ _ _ _ _ _ _ e1 hw
    have hOkEq : ∀ (f2 : Char) (p : Int × Int), OkP b4 f2 p ↔ OkP b f2 p := by
      intro f2 p
      constructor
      · intro h1
        exact ⟨by rw [← inB_eq_of_dims hd1.1 hd1.2.1]; exact h1.1,
          by rw [← heq4 p.1 p.2]; exact h1.2⟩
      · intro h1
        exact ⟨by rw [inB_eq_of_dims hd1.1 hd1.2.1]; exact h1.1,
          by rw [heq4 p.1 p.2]; exact h1.2⟩
    have hcnt4 : countIn b4 color < b.rows * b.cols + 1 := by
      have h1 : countIn b4 color ≤ countIn b color := by
        apply countIn_mono hd1.1 hd1.2.1
        intro rr cc hmm
        rw [← heq4 (rr : Int) (cc : Int)]
        exact hmm
      have h2 := countIn_le b color
      omega
    obtain ⟨b5, ch2, e2, iff2, P2⟩ :=
      floodSeq_char (Ne.symm h0) (nbrsI (row : Int) (col : Int))
        (b.rows * b.cols + 1) b4 hw4 hcnt4
    refine ⟨b5, ch2, ?_, ?_, ?_⟩
    · rw [clickFlood]
      rw [e1]
      dsimp only
      rw [if_neg (by decide)]
      exact e2
    · intro hex
      exact absurd hex hnex
    · intro _
      constructor
      · constructor
        · rintro px qx ⟨p, hp, hrt⟩
          rw [← heq4 px qx]
          exact P2.1 px qx ⟨p, hp, Reach_mono (fun z hz => (hOkEq color z).mpr hz) hrt⟩
        · rintro px qx hns
          rw [← heq4 px qx]
          apply P2.2 px qx
          rintro ⟨p, hp, hrt⟩
          exact hns ⟨p, hp, Reach_mono (fun z hz => (hOkEq color z).mp hz) hrt⟩
      · constructor
        · intro h1
          obtain ⟨p, hp, hop⟩ := iff2.mp h1
          exact ⟨p, hp, (hOkEq color p).mp hop⟩
        · rintro ⟨p, hp, hop⟩
          exact iff2.mpr ⟨p, hp, (hOkEq color p).mpr hop⟩

end BorderBound

namespace BorderBound

/-- C3: flood rule.  For every well-formed board and in-bounds click on a
cell with modifier `'F'` and a data-model color (one of `r,g,b,o,d`),
`click` succeeds and: it 4-connected flood-fills from each of the four
orthogonal neighbours, replacing modifier `'0'` with the clicked cell's
color; if no neighbour cell held `'0'` it instead floods the clicked
cell's color to `'0'` (erase), reporting `changed` exactly when a
neighbour matched; the clicked cell itself is never repainted; walls
(`'X'`) and any modifier other than the matched `fromColor` block the
flood and are left unchanged. -/
theorem flood_rule (b : Board) (row col : Nat)
    (hw : WFB b = true)
    (hin : inB b (row : Int) (col : Int) = true)
    (hmod : (getF b (row : Int) (col : Int)).modifier = 'F')
    (hcol : isColorC (getF b (row : Int) (col : Int)).color = true) :
    ∃ b2 ch, click b row col = some (b2, ch) ∧ FloodClickSpec b row col b2 ch ∧
      getF b2 (row : Int) (col : Int) = getF b (row : Int) (col : Int) ∧
      (∀ p q : Int, (getF b p q).modifier = 'X' → getF b2 p q = getF b p q) := by
  have hcols : (getF b (row : Int) (col : Int)).color ≠ '0' ∧
      (getF b (row : Int) (col : Int)).color ≠ 'F' ∧
      (getF b (row : Int) (col : Int)).color ≠ 'X' := by
    rw [isColorC] at hcol
    simp only [Bool.or_eq_true, beq_iff_eq] at hcol
    rcases hcol with (((h | h) | h) | h) | h <;> rw [h] <;>
      exact ⟨by decide, by decide, by decide⟩
  obtain ⟨hc0, hcF, hcX⟩ := hcols
  have hbnd : row < b.rows ∧ col < b.cols := by
    have hb : (0 ≤ (row : Int) ∧ (row : Int) < (b.rows : Int)) ∧
        0 ≤ (col : Int) ∧ (col : Int) < (b.cols : Int) := by
      simpa [inB, and_assoc] using hin
    omega
  have hOkA : ∀ (f2 : Char) (p : Int × Int),
      OkP (addMove b row col) f2 p ↔ OkP b f2 p := fun f2 p => Iff.rfl
  have hReachA : ∀ (f2 : Char) (s t : Int × Int),
      Reach (addMove b row col) f2 s t ↔ Reach b f2 s t := fun f2 s t =>
    ⟨Reach_mono (fun p h => (hOkA f2 p).mp h),
     Reach_mono (fun p h => (hOkA f2 p).mpr h)⟩
  obtain ⟨b2, ch, e1, hpaint, herase⟩ :=
    @clickFlood_char (addMove b row col) row col
      (getF b (row : Int) (col : Int)).color hw hc0
  have hdisp : click b row col =
      clickFlood (addMove b row col) row col (getF b (row : Int) (col : Int)).color := by
    unfold click
    rw [if_pos hbnd]
    dsimp only
    rw [getF_addMove, hmod]
    rfl
  have hFCS : FloodClickSpec b row col b2 ch := by
    constructor
    · intro hex
      have hex2 : ∃ p ∈ nbrsI (row : Int) (col : Int), OkP (addMove b row col) '0' p := by
        obtain ⟨p, hp, hop⟩ := hex
        exact ⟨p, hp, (hOkA '0' p).mpr hop⟩
      obtain ⟨hP, hch⟩ := hpaint hex2
      refine ⟨?_, hch⟩
      have hP2 : PaintSpec b (getF b (row : Int) (col : Int)).color
          (fun t => ∃ p ∈ nbrsI (row : Int) (col : Int),
            Reach (addMove b row col) '0' p t) b2 := hP
      refine PaintSpec_congr ?_ hP2
      intro t
      constructor
      · rintro ⟨p, hp, h⟩; exact ⟨p, hp, (hReachA '0' p t).mp h⟩
      · rintro ⟨p, hp, h⟩; exact ⟨p, hp, (hReachA '0' p t).mpr h⟩
    · intro hnex
      have hnex2 : ¬ ∃ p ∈ nbrsI (row : Int) (col : Int),
          OkP (addMove b row col) '0' p := by
        rintro ⟨p, hp, hop⟩
        exact hnex ⟨p, hp, (hOkA '0' p).mp hop⟩
      obtain ⟨hP, hiff⟩ := herase hnex2
      constructor
      · have hP2 : PaintSpec b '0'
            (fun t => ∃ p ∈ nbrsI (row : Int) (col : Int),
              Reach (addMove b row col) (getF b (row : Int) (col : Int)).color p t)
            b2 := hP
        refine PaintSpec_congr ?_ hP2
        intro t
        constructor
        · rintro ⟨p, hp, h⟩
          exact ⟨p, hp, (hReachA (getF b (row : Int) (col : Int)).color p t).mp h⟩
        · rintro ⟨p, hp, h⟩
          exact ⟨p, hp, (hReachA (getF b (row : Int) (col : Int)).color p t).mpr h⟩
      · constructor
        · intro h1
          obtain ⟨p, hp, hop⟩ := hiff.mp h1
          exact ⟨p, hp, (hOkA (getF b (row : Int) (col : Int)).color p).mp hop⟩
        · rintro ⟨p, hp, hop⟩
          exact hiff.mpr
            ⟨p, hp, (hOkA (getF b (row : Int) (col : Int)).color p).mpr hop⟩
  refine ⟨b2, ch, hdisp.trans e1, hFCS, ?_, ?_⟩
  · by_cases hex : ∃ p ∈ nbrsI (row : Int) (col : Int), OkP b '0' p
    · apply (hFCS.1 hex).1.2 (row : Int) (col : Int)
      rintro ⟨p, hp, hrt⟩
      have hend := Reach_end_ok hrt
      exact absurd (hmod.symm.trans hend.2) (by decide)
    · apply (hFCS.2 hex).1.2 (row : Int) (col : Int)
      rintro ⟨p, hp, hrt⟩
      have hend := Reach_end_ok hrt
      exact hcF (hend.2.symm.trans hmod)
  · intro p q hX
    by_cases hex : ∃ x ∈ nbrsI (row : Int) (col : Int), OkP b '0' x
    · apply (hFCS.1 hex).1.2 p q
      rintro ⟨x, hx, hrt⟩
      have hend := Reach_end_ok hrt
      exact absurd (hX.symm.trans hend.2) (by decide)
    · apply (hFCS.2 hex).1.2 p q
      rintro ⟨x, hx, hrt⟩
      have hend := Reach_end_ok hrt
      exact hcX (hend.2.symm.trans hX)

/-- Witness: clicking the flood cell of `c3Board` at `(0,0)` floods its
two empty neighbours with `'r'` as the flood rule describes. -/
theorem flood_rule_witness :
    (WFB c3Board = true ∧ inB c3Board 0 0 = true ∧
      (getF c3Board 0 0).modifier = 'F' ∧ isColorC (getF c3Board 0 0).color = true) ∧
    ∃ b2 ch, click c3Board 0 0 = some (b2, ch) ∧ FloodClickSpec c3Board 0 0 b2 ch ∧
      getF b2 0 0 = getF c3Board 0 0 ∧
      ∀ p q : Int, (getF c3Board p q).modifier = 'X' → getF b2 p q = getF c3Board p q :=
  ⟨⟨by decide, by decide, by decide, by decide⟩,
    flood_rule c3Board 0 0 (by decide) (by decide) (by decide) (by decide)⟩

end BorderBound

namespace BorderBound

/-! ### C1: soundness of the DFS and BFS strategies.  The invariant: every
board in the search satisfies `GoodS` — well-formed, hint-free, and its
recorded move sequence replays from the initial board to the board
itself.  `click` preserves it, `Board.copy` is the identity on it. -/

theorem foldl_pres {β : Type} (P : Board → Prop) (g : Board → β → Board)
    (hg : ∀ bb x, P bb → P (g bb x)) :
    ∀ (l : List β) (b : Board), P b → P (l.foldl g b) := by
  intro l
  induction l with
  | nil => intro b hb; exact hb
  | cons x xs ih => intro b hb; exact ih (g b x) (hg b x hb)

theorem fillLoop_pres (P : Board → Prop)
    (hSet : ∀ (bb : Board) (r c : Int) (v : Char), P bb → P (setMod bb r c v)) :
    ∀ (fuel : Nat) (b : Board) (dr dc r c : Int) (fr tc : Char) (ch : Bool),
      P b → P (fillLoop fuel b dr dc r c fr tc ch).1 := by
  intro fuel
  induction fuel with
  | zero => intro b dr dc r c fr tc ch hb; exact hb
  | succ n ih =>
    intro b dr dc r c fr tc ch hb
    rw [fillLoop]
    split
    · exact ih _ _ _ _ _ _ _ _ (hSet b r c tc hb)
    · exact hb

theorem fill_pres (P : Board → Prop)
    (hSet : ∀ (bb : Board) (r c : Int) (v : Char), P bb → P (setMod bb r c v))
    (b : Board) (dr dc r c : Int) (color : Char) (hb : P b) :
    P (fill b dr dc r c color).1 := by
  unfold fill
  dsimp only
  split
  · split
    · exact fillLoop_pres P hSet _ _ _ _ _ _ _ _ _ hb
    · split
      · exact fillLoop_pres P hSet _ _ _ _ _ _ _ _ _ hb
      · exact hb
  · exact hb

theorem floodF_pres (P : Board → Prop)
    (hSet : ∀ (bb : Board) (r c : Int) (v : Char), P bb → P (setMod bb r c v)) :
    ∀ (fuel : Nat) (b : Board) (r c : Int) (fr tc : Char) (b2 : Board) (ch : Bool),
      floodF fuel b r c fr tc = some (b2, ch) → P b → P b2 := by
  intro fuel
  induction fuel with
  | zero => intro b r c fr tc b2 ch h _; simp [floodF] at h
  | succ n ihn =>
    intro b r c fr tc b2 ch h hb
    rw [floodF] at h
    by_cases hg : (inB b r c && ((getF b r c).modifier == fr)) = true
    · rw [if_pos hg] at h
      cases h1 : floodF n (setMod b r c tc) (r + 1) c fr tc with
      | none => rw [h1] at h; simp at h
      | some p1 =>
        obtain ⟨b1, ch1⟩ := p1
        rw [h1] at h; dsimp only at h
        cases h2 : floodF n b1 (r - 1) c fr tc with
        | none => rw [h2] at h; simp at h
        | some p2 =>
          obtain ⟨bb2, ch2⟩ := p2
          rw [h2] at h; dsimp only at h
          cases h3 : floodF n bb2 r (c + 1) fr tc with
          | none => rw [h3] at h; simp at h
          | some p3 =>
            obtain ⟨b3, ch3⟩ := p3
            rw [h3] at h; dsimp only at h
            cases h4 : floodF n b3 r (c - 1) fr tc with
            | none => rw [h4] at h; simp at h
            | some p4 =>
              obtain ⟨b4, ch4⟩ := p4
              rw [h4] at h; dsimp only at h
              have e : b4 = b2 := congrArg Prod.fst (Option.some.inj h)
              exact e ▸ (ihn _ _ _ _ _ _ _ h4 (ihn _ _ _ _ _ _ _ h3
                (ihn _ _ _ _ _ _ _ h2 (ihn _ _ _ _ _ _ _ h1 (hSet b r c tc hb)))))
    · rw [if_neg hg] at h
      have e : b = b2 := congrArg Prod.fst (Option.some.inj h)
      exact e ▸ hb

theorem floodSeq_pres (P : Board → Prop)
    (hSet : ∀ (bb : Board) (r c : Int) (v : Char), P bb → P (setMod bb r c v)) :
    ∀ (ps : List (Int × Int)) (fuel : Nat) (b : Board) (fr tc : Char) (b2 : Board)
      (ch : Bool), floodSeq fuel b ps fr tc = some (b2, ch) → P b → P b2 := by
  intro ps
  induction ps with
  | nil =>
    intro fuel b fr tc b2 ch h hb
    rw [floodSeq] at h
    have e : b = b2 := congrArg Prod.fst (Option.some.inj h)
    exact e ▸ hb
  | cons p ps ihp =>
    intro fuel b fr tc b2 ch h hb
    rw [floodSeq] at h
    cases h1 : floodF fuel b p.1 p.2 fr tc with
    | none => rw [h1] at h; simp at h
    | some p1 =>
      obtain ⟨b1, ch1⟩ := p1
      rw [h1] at h; dsimp only at h
      cases h2 : floodSeq fuel b1 ps fr tc with
      | none => rw [h2] at h; simp at h
      | some p2 =>
        obtain ⟨bb2, ch2⟩ := p2
        rw [h2] at h; dsimp only at h
        have e : bb2 = b2 := congrArg Prod.fst (Option.some.inj h)
        exact e ▸ ihp _ _ _ _ _ _ h2 (floodF_pres P hSet _ _ _ _ _ _ _ _ h1 hb)

theorem clickFlood_pres (P : Board → Prop)
    (hSet : ∀ (bb : Board) (r c : Int) (v : Char), P bb → P (setMod bb r c v))
    {b : Board} {row col : Nat} {color : Char} {b2 : Board} {ch : Bool}
    (h : clickFlood b row col color = some (b2, ch)) (hb : P b) : P b2 := by
  unfold clickFlood at h
  dsimp only at h
  split at h
  · exact absurd h (by simp)
  case h_2 b4 ch4 heq =>
    have h1 := floodSeq_pres P hSet _ _ _ _ _ _ _ heq hb
    split at h
    · have h2 : b4 = b2 := congrArg Prod.fst (Option.some.inj h)
      exact h2 ▸ h1
    · exact floodSeq_pres P hSet _ _ _ _ _ _ _ h h1

theorem bombPaint_pres (P : Board → Prop)
    (hSet : ∀ (bb : Board) (r c : Int) (v : Char), P bb → P (setMod bb r c v))
    (b : Board) (row col : Nat) (color : Char) (hb : P b) :
    P (bombPaint b row col color) := by
  unfold bombPaint
  apply foldl_pres P _ _ _ _ hb
  intro bb dr hbb
  apply foldl_pres P _ _ _ _ hbb
  intro bb2 dc hbb2
  dsimp only
  split
  · exact hSet _ _ _ _ hbb2
  · exact hbb2

theorem rotFire_pres (P : Board → Prop)
    (hSet : ∀ (bb : Board) (r c : Int) (v : Char), P bb → P (setMod bb r c v))
    (b : Board) (row col : Nat) (color : Char) (dr dc : Int) (nm : Char)
    (hb : P b) : P (rotFire b row col color dr dc nm).1 :=
  hSet _ _ _ _ (fill_pres P hSet b dr dc row col color hb)

theorem click_pres (P : Board → Prop)
    (hSet : ∀ (bb : Board) (r c : Int) (v : Char), P bb → P (setMod bb r c v))
    (hAdd : ∀ (bb : Board) (r c : Nat), P bb → P (addMove bb r c))
    {b : Board} {row col : Nat} {b2 : Board} {ch : Bool}
    (h : click b row col = some (b2, ch)) (hb : P b) : P b2 := by
  have hA : P (addMove b row col) := hAdd b row col hb
  unfold click at h
  split at h
  case isTrue hbnd =>
    dsimp only at h
    split at h
    case h_1 heq =>
      have e := congrArg Prod.fst (Option.some.inj h)
      dsimp only at e
      exact e ▸ fill_pres P hSet _ _ _ _ _ _ hA
    case h_2 heq =>
      have e := congrArg Prod.fst (Option.some.inj h)
      dsimp only at e
      exact e ▸ fill_pres P hSet _ _ _ _ _ _ hA
    case h_3 heq =>
      have e := congrArg Prod.fst (Option.some.inj h)
      dsimp only at e
      exact e ▸ fill_pres P hSet _ _ _ _ _ _ hA
    case h_4 heq =>
      have e := congrArg Prod.fst (Option.some.inj h)
      dsimp only at e
      exact e ▸ fill_pres P hSet _ _ _ _ _ _ hA
    case h_5 heq => exact clickFlood_pres P hSet h hA
    case h_6 heq =>
      have e := congrArg Prod.fst (Option.some.inj h)
      dsimp only at e
      exact e ▸ bombPaint_pres P hSet _ _ _ _ hA
    case h_7 heq =>
      have e := congrArg Prod.fst (Option.some.inj h)
      dsimp only at e
      exact e ▸ rotFire_pres P hSet _ _ _ _ _ _ _ hA
    case h_8 heq =>
      have e := congrArg Prod.fst (Option.some.inj h)
      dsimp only at e
      exact e ▸ rotFire_pres P hSet _ _ _ _ _ _ _ hA
    case h_9 heq =>
      have e := congrArg Prod.fst (Option.some.inj h)
      dsimp only at e
      exact e ▸ rotFire_pres P hSet _ _ _ _ _ _ _ hA
    case h_10 heq =>
      have e := congrArg Prod.fst (Option.some.inj h)
      dsimp only at e
      exact e ▸ rotFire_pres P hSet _ _ _ _ _ _ _ hA
    case h_11 x heq =>
      have e := congrArg Prod.fst (Option.some.inj h)
      dsimp only at e
      exact e ▸ hA
  case isFalse => exact absurd h (by simp)

theorem hf_setMod {b : Board} (r c : Int) (v : Char) (hf : hintFreeB b = true) :
    hintFreeB (setMod b r c v) = true := by
  rw [hintFreeB, setMod_fields]
  split
  case isFalse => exact hf
  case isTrue hin =>
    refine listModify_all _ _ ?_ _ _ hf
    intro row hrow
    refine listModify_all _ _ ?_ _ _ hrow
    intro f hf2
    exact hf2

theorem map_pos_id : ∀ l : List Pos, l.map (fun m => (⟨m.row, m.col⟩ : Pos)) = l := by
  intro l
  induction l with
  | nil => rfl
  | cons m ms ih => cases m; simp [ih]

theorem copyField_id {f : Field} (hb : f.isBomb = false) (ht : f.targetPosition = none) :
    copyField f = f := by
  cases f with
  | mk color modifier orf ib tp =>
    simp only at hb ht
    rw [copyField]
    subst hb
    subst ht
    rfl

theorem copyB_eq_self {b : Board} (hw : WFB b = true) (hf : hintFreeB b = true) :
    copyB b = some b := by
  obtain ⟨hlen, hall⟩ := WFB_spec hw
  have hguard : (decide (b.rows ≤ b.fields.length) &&
      (b.fields.take b.rows).all (fun row => decide (b.cols ≤ row.length))) = true := by
    rw [Bool.and_eq_true]
    constructor
    · simp [hlen]
    · rw [List.all_eq_true]
      intro row hrow
      have hmem : row ∈ b.fields := List.mem_of_mem_take hrow
      simp [hall row hmem]
  rw [copyB, if_pos hguard]
  have hfields : (List.range b.rows).map (fun r =>
      (List.range b.cols).map (fun c =>
        copyField ((b.fields.getD r []).getD c defaultField))) = b.fields := by
    apply List.ext_getElem
    · simp [hlen]
    · intro i h1 h2
      simp only [List.getElem_map, List.getElem_range]
      have hrowmem : b.fields[i] ∈ b.fields := List.getElem_mem h2
      have hrowlen : (b.fields[i]).length = b.cols := hall _ hrowmem
      have hrowD : b.fields.getD i [] = b.fields[i] := by
        simp [List.getD_eq_getElem?_getD, List.getElem?_eq_getElem h2]
      rw [hrowD]
      apply List.ext_getElem
      · simp [hrowlen]
      · intro j hj1 hj2
        simp only [List.getElem_map, List.getElem_range]
        have hcellD : (b.fields[i]).getD j defaultField = (b.fields[i])[j] := by
          simp [List.getD_eq_getElem?_getD, List.getElem?_eq_getElem hj2]
        rw [hcellD]
        have hcellmem : (b.fields[i])[j] ∈ b.fields[i] := List.getElem_mem hj2
        have hhf := hf
        rw [hintFreeB, List.all_eq_true] at hhf
        have hrowall := hhf _ hrowmem
        rw [List.all_eq_true] at hrowall
        have hcell := hrowall _ hcellmem
        rw [hfField, Bool.and_eq_true] at hcell
        apply copyField_id
        · simpa using hcell.1
        · simpa using hcell.2
  cases b with
  | mk rows cols fields mseq hbs =>
    simp only at hfields ⊢
    rw [hfields]
    cases mseq with
    | mk moves n =>
      simp only [map_pos_id]

theorem applyClicks_append {ms1 : List (Nat × Nat)} (ms2 : List (Nat × Nat)) :
    ∀ {b b1 : Board}, applyClicks b ms1 = some b1 →
      applyClicks b (ms1 ++ ms2) = applyClicks b1 ms2 := by
  induction ms1 with
  | nil =>
    intro b b1 h
    rw [applyClicks] at h
    rw [List.nil_append, Option.some.inj h]
  | cons m rest ih =>
    intro b b1 h
    rw [applyClicks] at h
    rw [List.cons_append, applyClicks]
    cases h1 : click b m.1 m.2 with
    | none => rw [h1] at h; simp at h
    | some pr =>
      obtain ⟨bm, chm⟩ := pr
      rw [h1] at h
      dsimp only at h
      exact ih h

/-- The search invariant of the DFS and BFS strategies: a reachable
board is well-formed, hint-free, and replaying its recorded moves on the
initial board reproduces it exactly. -/
def GoodS (b0 B : Board) : Prop :=
  WFB B = true ∧ hintFreeB B = true ∧
    applyClicks b0 (B.moveSequence.moves.map (fun m => (m.row, m.col))) = some B

theorem GoodS_click {b0 B B2 : Board} {r c : Nat} {ch : Bool}
    (hG : GoodS b0 B) (h : click B r c = some (B2, ch)) : GoodS b0 B2 := by
  have hpres := click_pres (fun bb => WFB bb = true ∧ hintFreeB bb = true)
    (fun bb rr cc v hh => ⟨WFB_setMod rr cc v hh.1, hf_setMod rr cc v hh.2⟩)
    (fun bb rr cc hh => hh) h ⟨hG.1, hG.2.1⟩
  refine ⟨hpres.1, hpres.2, ?_⟩
  rw [(click_shape h).2.2.2]
  dsimp only
  rw [List.map_append]
  rw [applyClicks_append _ hG.2.2]
  dsimp only [List.map]
  rw [applyClicks, h]
  rfl

theorem GoodS_copy {b0 B : Board} (hG : GoodS b0 B) : copyB B = some B :=
  copyB_eq_self hG.1 hG.2.1

end BorderBound

namespace BorderBound

theorem dfsRun_sound (b0 : Board) (maxSteps : Nat) :
    ∀ (fuel : Nat) (stk : List (Board ⊕ Board × List (Nat × Nat)))
      (best : Option Board) (visited : List (List (List (Char × Char))))
      (res : Option Board),
      (∀ fr ∈ stk, GoodS b0 (Sum.elim id Prod.fst fr)) →
      (∀ Sb, best = some Sb → GoodS b0 Sb ∧ isSolvedB Sb = true) →
      dfsRun maxSteps fuel stk best visited = some res →
      ∀ S, res = some S → GoodS b0 S ∧ isSolvedB S = true := by
  intro fuel
  induction fuel with
  | zero =>
    intro stk best visited res _ _ h
    simp [dfsRun] at h
  | succ n ih =>
    intro stk best visited res hstk hbest h
    cases stk with
    | nil =>
      rw [dfsRun] at h
      intro S hS
      exact hbest S ((Option.some.inj h).trans hS)
    | cons fr stk2 =>
      have hstk2 : ∀ fr2 ∈ stk2, GoodS b0 (Sum.elim id Prod.fst fr2) :=
        fun fr2 hf2 => hstk fr2 (List.mem_cons_of_mem _ hf2)
      cases fr with
      | inl board =>
        have hGb : GoodS b0 board := hstk (Sum.inl board) (List.mem_cons_self _ _)
        rw [dfsRun] at h
        split at h
        · exact ih stk2 best visited res hstk2 hbest h
        · split at h
          case isTrue hsolved =>
            cases hc : copyB board with
            | none => rw [hc] at h; simp at h
            | some bc =>
              rw [hc] at h
              dsimp only at h
              have hbc : bc = board :=
                Option.some.inj ((hc.symm.trans (GoodS_copy hGb)))
              subst hbc
              cases best with
              | none =>
                dsimp only at h
                refine ih stk2 _ visited res hstk2 ?_ h
                intro Sb hSb
                rw [← Option.some.inj hSb]
                exact ⟨hGb, hsolved⟩
              | some bs =>
                dsimp only at h
                split at h
                · refine ih stk2 _ visited res hstk2 ?_ h
                  intro Sb hSb
                  rw [← Option.some.inj hSb]
                  exact ⟨hGb, hsolved⟩
                · exact ih stk2 _ visited res hstk2 hbest h
          case isFalse =>
            split at h
            · exact ih stk2 best visited res hstk2 hbest h
            · refine ih (Sum.inr (board, allCells board) :: stk2) best _ res ?_ hbest h
              intro fr2 hf2
              rcases List.mem_cons.mp hf2 with he | hm
              · rw [he]; exact hGb
              · exact hstk2 fr2 hm
      | inr pr =>
        obtain ⟨board, cells⟩ := pr
        have hGb : GoodS b0 board :=
          hstk (Sum.inr (board, cells)) (List.mem_cons_self _ _)
        cases cells with
        | nil =>
          rw [dfsRun] at h
          exact ih stk2 best visited res hstk2 hbest h
        | cons rc rest =>
          obtain ⟨r, c⟩ := rc
          rw [dfsRun] at h
          split at h
          case isTrue hok =>
            cases hc : copyB board with
            | none => rw [hc] at h; simp at h
            | some nb =>
              rw [hc] at h
              dsimp only at h
              have hnb : board = nb :=
                Option.some.inj ((GoodS_copy hGb).symm.trans hc)
              subst hnb
              cases hck : click board r c with
              | none => rw [hck] at h; simp at h
              | some pr2 =>
                obtain ⟨nb2, ch2⟩ := pr2
                rw [hck] at h
                dsimp only at h
                have hGn : GoodS b0 nb2 := GoodS_click hGb hck
                split at h
                · refine ih _ best visited res ?_ hbest h
                  intro fr2 hf2
                  rcases List.mem_cons.mp hf2 with he | hm
                  · rw [he]; exact hGn
                  · rcases List.mem_cons.mp hm with he2 | hm2
                    · rw [he2]; exact hGb
                    · exact hstk2 fr2 hm2
                · refine ih _ best visited res ?_ hbest h
                  intro fr2 hf2
                  rcases List.mem_cons.mp hf2 with he | hm
                  · rw [he]; exact hGb
                  · exact hstk2 fr2 hm
          case isFalse =>
            refine ih _ best visited res ?_ hbest h
            intro fr2 hf2
            rcases List.mem_cons.mp hf2 with he | hm
            · rw [he]; exact hGb
            · exact hstk2 fr2 hm

theorem bfsCellLoop_good (b0 : Board) (maxQ : Nat) (board : Board)
    (hGb : GoodS b0 board) :
    ∀ (cells : List (Nat × Nat)) (q : List Board)
      (vis : List (List (List (Char × Char)) × Nat)) (q2 : List Board)
      (vis2 : List (List (List (Char × Char)) × Nat)),
      (∀ B ∈ q, GoodS b0 B) →
      bfsCellLoop maxQ board cells q vis = some (q2, vis2) →
      ∀ B ∈ q2, GoodS b0 B := by
  intro cells
  induction cells with
  | nil =>
    intro q vis q2 vis2 hq h
    rw [bfsCellLoop] at h
    have hq2 : q = q2 := congrArg Prod.fst (Option.some.inj h)
    subst hq2
    exact hq
  | cons rc rest ih =>
    intro q vis q2 vis2 hq h
    obtain ⟨r, c⟩ := rc
    rw [bfsCellLoop] at h
    split at h
    case isTrue hok =>
      cases hc : copyB board with
      | none => rw [hc] at h; simp at h
      | some nb =>
        rw [hc] at h
        dsimp only at h
        have hnb : board = nb :=
          Option.some.inj ((GoodS_copy hGb).symm.trans hc)
        subst hnb
        cases hck : click board r c with
        | none => rw [hck] at h; simp at h
        | some pr2 =>
          obtain ⟨nb2, ch2⟩ := pr2
          rw [hck] at h
          dsimp only at h
          split at h
          · split at h
            · exact ih q vis q2 vis2 hq h
            · refine ih _ _ q2 vis2 ?_ h
              intro B hB
              have hBm : B ∈ q ++ [nb2] := by
                rw [bfsEnqueue] at hB
                split at hB
                · exact List.mem_of_mem_drop hB
                · exact hB
              rcases List.mem_append.mp hBm with hm | hm
              · exact hq B hm
              · rw [List.mem_singleton] at hm
                rw [hm]
                exact GoodS_click hGb hck
          · exact ih q vis q2 vis2 hq h
    case isFalse => exact ih q vis q2 vis2 hq h

theorem bfsRun_sound (b0 : Board) (maxSteps maxQ : Nat) :
    ∀ (fuel : Nat) (q : List Board) (head : Nat)
      (vis : List (List (List (Char × Char)) × Nat)) (res : Option Board),
      (∀ B ∈ q, GoodS b0 B) →
      bfsRun maxSteps maxQ fuel q head vis = some res →
      ∀ S, res = some S → GoodS b0 S ∧ isSolvedB S = true := by
  intro fuel
  induction fuel with
  | zero => intro q head vis res _ h; simp [bfsRun] at h
  | succ n ih =>
    intro q head vis res hq h
    rw [bfsRun] at h
    split at h
    case isTrue hlt =>
      dsimp only at h
      split at h
      case isTrue hsolved =>
        intro S hS
        have hres := Option.some.inj h
        rw [← hres] at hS
        have hbS := Option.some.inj hS
        have hmem := getD_mem q head (mkBoard 0 0) hlt
        rw [← hbS]
        exact ⟨hq _ hmem, hsolved⟩
      case isFalse =>
        split at h
        · exact ih q (head + 1) vis res hq h
        · cases hc : bfsCellLoop maxQ (q.getD head (mkBoard 0 0))
              (allCells (q.getD head (mkBoard 0 0))) q vis with
          | none => rw [hc] at h; simp at h
          | some pr =>
            obtain ⟨q2, vis2⟩ := pr
            rw [hc] at h
            dsimp only at h
            have hmem := getD_mem q head (mkBoard 0 0) hlt
            exact ih q2 (head + 1) vis2 res
              (bfsCellLoop_good b0 maxQ _ (hq _ hmem) _ q vis q2 vis2 hq hc) h
    case isFalse =>
      intro S hS
      have hres := Option.some.inj h
      rw [← hres] at hS
      simp at hS

end BorderBound

namespace BorderBound

/-- C1 (amended): soundness of the DFS and BFS strategies.  For a
well-formed, hint-free initial board with an empty move log, if `dfsSolver`
or `bfsSolver` terminates returning a non-null board `S`, then replaying
`S`'s recorded move sequence (clicking each position in order on the
initial board) reproduces `S` exactly and `S.isSolved()` is true.  (The
MCTS strategy violates this: see the counterexample theorem.) -/
theorem solver_soundness (b0 : Board) (maxSteps maxQ fuel : Nat) (S : Board)
    (hw : WFB b0 = true) (hf : hintFreeB b0 = true)
    (hm : b0.moveSequence.moves = [])
    (hrun : dfsSolver b0 maxSteps fuel = some (some S) ∨
      bfsSolver b0 maxSteps maxQ fuel = some (some S)) :
    applyClicks b0 (S.moveSequence.moves.map (fun m => (m.row, m.col))) = some S ∧
      isSolvedB S = true := by
  have hG0 : GoodS b0 b0 := ⟨hw, hf, by rw [hm]; rfl⟩
  rcases hrun with h | h
  · have hs := dfsRun_sound b0 maxSteps fuel [Sum.inl b0] none [] (some S)
      (by
        intro fr hfr
        rw [List.mem_singleton] at hfr
        rw [hfr]
        exact hG0)
      (by intro Sb hSb; simp at hSb) h S rfl
    exact ⟨hs.1.2.2, hs.2⟩
  · have hs := bfsRun_sound b0 maxSteps maxQ fuel [b0] 0 [(hashKey b0, 0)] (some S)
      (by
        intro B hB
        rw [List.mem_singleton] at hB
        rw [hB]
        exact hG0) h S rfl
    exact ⟨hs.1.2.2, hs.2⟩

/-- Witness: on `c1Board` the DFS strategy returns the solved one-move
board `c1Solved`, whose move replays to itself and which is solved. -/
theorem solver_soundness_witness :
    (WFB c1Board = true ∧ hintFreeB c1Board = true ∧
      c1Board.moveSequence.moves = [] ∧
      (dfsSolver c1Board 100 20 = some (some c1Solved) ∨
        bfsSolver c1Board 100 100 20 = some (some c1Solved))) ∧
    (applyClicks c1Board (c1Solved.moveSequence.moves.map (fun m => (m.row, m.col))) =
        some c1Solved ∧ isSolvedB c1Solved = true) :=
  ⟨⟨by decide, by decide, by decide, Or.inl (by decide)⟩,
    solver_soundness c1Board 100 100 20 c1Solved (by decide) (by decide) (by decide)
      (Or.inl (by decide))⟩

/-- On the counterexample run neither the `ucb1` comparison nor the
random stream is ever consulted (the single iteration expands the root,
whose untried-move list is non-empty, and the zero-step rollout draws no
move), so the MCTS result is the same for every comparison and stream. -/
theorem mcts_fallback_any (cmp : Rat × Nat → Rat × Nat → Nat → Bool)
    (rs : List (List Nat)) :
    mctsSolver c1mBoard 0 1 cmp rs = some (some c1mChild) := rfl

/-- C1 counterexample: the MCTS strategy is not sound.  When no rollout
solves the board within the budget, the fallback returns the
most-visited root child's board, which is non-null but not solved: on
`c1mBoard` `mctsSolver` returns the unsolved one-click board
`c1mChild` (see `mcts_fallback_any`: the run is independent of the
`ucb1` comparison and the random stream). -/
theorem mcts_fallback_unsound :
    mctsSolver c1mBoard 0 1 (fun _ _ _ => true) [] = some (some c1mChild) ∧
      isSolvedB c1mChild = false :=
  ⟨rfl, by decide⟩

end BorderBound
